import Mathlib

/-! Job simulation queues: a shallow embedding of `Queue.hpp` / `Queue.cpp`,
with the random generators of `JobSimulator.cpp` and of `assg-11.cpp`.

The development embeds the `Job` record, the array queue `AQueue`, the linked
queue `LQueue` and the priority queue `PriorityQueues` of the repository and
proves properties of them.

Modelling conventions.

* C++ `int` is modelled by `Int`, taken to be 32 bits wide.  Signed overflow
  is undefined behaviour; the model checks for it in the doubling
  `2 * allocSize` of `AQueue::enqueue`, in the increment `nextListId++` of
  the `Job` constructor and in the arithmetic of
  `JobSchedulerSimulator::randomRange`.  The remaining arithmetic (the
  indices and counts of the queues, the getters of `Job`) is over unbounded
  integers.
* A `const` member function becomes a function into `Except QueueError _`.
* A mutating member function becomes a function into `Outcome _`: the state of
  the object when the call is left, together with the exception that left it
  (if any).
* Dereferencing a null or dangling pointer, reading or writing outside a
  buffer, reading an uninitialised slot and dividing by zero have no defined
  meaning in C++; the model reports them as `QueueError.UndefinedBehaviour`.
* The free store is a list of cells; the address of a cell is its position.
  `new` appends a cell, `delete` empties one.
* When a mutating member runs into undefined behaviour the C++ object has no
  meaningful state; the `Outcome` then records the state at entry.
-/

namespace JobSim

/-! ## Exceptions and outcomes -/

/-- Ways a member function can fail to return normally.  The first two are the
exception classes of `Queue.hpp`, carrying the string handed to their
constructor; `BadArrayNewLength` is what `new int[n]` throws for negative `n`;
the last two are not exceptions: undefined behaviour, and a loop of the model
that used up its iteration budget. -/
inductive QueueError where
  | EmptyQueueException (str : String)
  | InvalidIndexQueueException (str : String)
  | BadArrayNewLength
  | UndefinedBehaviour
  | Diverged
deriving DecidableEq, Repr

deriving instance DecidableEq for Except

/-- The `what()` text of an exception object. -/
def QueueError.what : QueueError → String
  | .EmptyQueueException str => "Error: " ++ str ++ " attempted on emtpy queue"
  | .InvalidIndexQueueException str => "Error: " ++ str ++ " invalid index request for queue"
  | .BadArrayNewLength => "std::bad_array_new_length"
  | .UndefinedBehaviour => ""
  | .Diverged => ""

/-- Exit of a mutating member function: the object state at exit and the
exception raised, `none` for a normal return. -/
structure Outcome (σ : Type) where
  state : σ
  error : Option QueueError
deriving DecidableEq, Repr

/-- The largest value of an `int` (32 bits). -/
def INT_MAX : Int := 2147483647

/-- The smallest value of an `int` (32 bits). -/
def INT_MIN : Int := -2147483648

/-- The value of an `int` expression whose mathematical value is `x`: signed
overflow is undefined behaviour. -/
def intValue (x : Int) : Except QueueError Int :=
  if INT_MIN ≤ x ∧ x ≤ INT_MAX then .ok x else .error .UndefinedBehaviour

/-! ## Job -/

/-- The `Job` class: five `int` fields. -/
structure Job where
  id : Int
  priority : Int
  serviceTime : Int
  startTime : Int
  endTime : Int
deriving DecidableEq, Repr

/-- Initial value of the static counter `Job::nextListId`. -/
def Job.nextListIdInit : Int := 1

/-- Member `Job::Job()`. -/
def Job.newDefault : Job :=
  { id := 0, priority := 0, serviceTime := 0, startTime := 0, endTime := 0 }

/-- Member `Job::Job(int priority, int serviceTime, int startTime)`.  The static
counter `nextListId` is threaded explicitly: the function takes its current
value and returns the new job with the incremented counter.  The increment
`nextListId++` overflows when the counter stands at `INT_MAX`. -/
def Job.new (nextListId : Int) (priority serviceTime startTime : Int) :
    Except QueueError (Job × Int) := do
  let id := nextListId
  let nextListId ← intValue (nextListId + 1)
  pure ({ id := id, priority := priority, serviceTime := serviceTime,
          startTime := startTime, endTime := startTime }, nextListId)

/-- Member `Job::setEndTime`. -/
def Job.setEndTime (j : Job) (endTime : Int) : Job := { j with endTime := endTime }

/-- Member `Job::getId`. -/
def Job.getId (j : Job) : Int := j.id

/-- Member `Job::getServiceTime`. -/
def Job.getServiceTime (j : Job) : Int := j.serviceTime

/-- Member `Job::getPriority`. -/
def Job.getPriority (j : Job) : Int := j.priority

/-- Member `Job::getWaitTime`. -/
def Job.getWaitTime (j : Job) : Int := j.endTime - j.startTime

/-- Member `Job::getCost`. -/
def Job.getCost (j : Job) : Int := j.priority * j.getWaitTime

/-- Member `Job::operator==`. -/
def Job.operatorEq (j rhs : Job) : Bool := decide (j.priority = rhs.priority)

/-- Member `Job::operator<`. -/
def Job.operatorLt (j rhs : Job) : Bool := decide (j.priority < rhs.priority)

/-- Member `Job::operator>`. -/
def Job.operatorGt (j rhs : Job) : Bool := decide (j.priority > rhs.priority)

/-- Member `Job::operator<=`. -/
def Job.operatorLe (j rhs : Job) : Bool := decide (j.priority ≤ rhs.priority)

/-- A sequence of constructions `Job(priority, serviceTime, startTime)`, one
for each listed triple of arguments, in order; the static id counter is
threaded through.  Returns the jobs and the final counter. -/
def Job.newSeq (nextListId : Int) : List (Int × Int × Int) → Except QueueError (List Job × Int)
  | [] => pure ([], nextListId)
  | (priority, serviceTime, startTime) :: rest => do
    let (job, next) ← Job.new nextListId priority serviceTime startTime
    let (jobs, last) ← Job.newSeq next rest
    pure (job :: jobs, last)

/-! ## AQueue -/

/-- The data members of `AQueue`.  The buffer `items` is a list of slots; a
slot is `none` until it is first written. -/
structure AQueue where
  allocSize : Int
  numitems : Int
  frontIndex : Int
  backIndex : Int
  items : List (Option Int)
deriving DecidableEq, Repr

/-- The expression `new int[n]`. -/
def newIntArray (n : Int) : Except QueueError (List (Option Int)) :=
  if n < 0 then .error .BadArrayNewLength else .ok (List.replicate n.toNat none)

/-- Reading `items[i]`. -/
def readSlot (items : List (Option Int)) (i : Int) : Except QueueError Int :=
  if i < 0 then .error .UndefinedBehaviour
  else
    match items[i.toNat]? with
    | some (some v) => .ok v
    | _ => .error .UndefinedBehaviour

/-- The assignment `items[i] = v`. -/
def writeSlot (items : List (Option Int)) (i : Int) (v : Int) :
    Except QueueError (List (Option Int)) :=
  if i < 0 ∨ i ≥ items.length then .error .UndefinedBehaviour
  else .ok (items.set i.toNat (some v))

/-- The C++ expression `a % b` on `int`. -/
def cMod (a b : Int) : Except QueueError Int :=
  if b = 0 then .error .UndefinedBehaviour else .ok (a.tmod b)

/-- Member `AQueue::AQueue(int initialAlloc)`. -/
def AQueue.new (initialAlloc : Int) : Except QueueError AQueue := do
  let allocSize := initialAlloc
  let numitems := 0
  let frontIndex := 0
  let backIndex := allocSize - 1
  let items ← newIntArray allocSize
  pure { allocSize := allocSize, numitems := numitems, frontIndex := frontIndex,
         backIndex := backIndex, items := items }

/-- The copy loop of the array constructor, with `count` iterations left:
`items[index] = initItems[index]`. -/
def AQueue.copyLoop (initItems : List Int) :
    Nat → Int → List (Option Int) → Except QueueError (List (Option Int))
  | 0, _, items => .ok items
  | count + 1, index, items => do
    let v ← readSlot (initItems.map some) index
    let items ← writeSlot items index v
    AQueue.copyLoop initItems count (index + 1) items

/-- Member `AQueue::AQueue(int initItems[], int numitems)`; the caller's array is the
list `initItems`. -/
def AQueue.ofArray (initItems : List Int) (numitems : Int) : Except QueueError AQueue := do
  let allocSize := numitems
  let frontIndex := 0
  let items ← newIntArray allocSize
  let items ← AQueue.copyLoop initItems numitems.toNat 0 items
  let backIndex := numitems - 1
  pure { allocSize := allocSize, numitems := numitems, frontIndex := frontIndex,
         backIndex := backIndex, items := items }

/-- Member `AQueue::clear`. -/
def AQueue.clear (a : AQueue) : Outcome AQueue :=
  { state := { a with frontIndex := 0, backIndex := a.allocSize - 1, numitems := 0 },
    error := none }

/-- Member `AQueue::isEmpty`. -/
def AQueue.isEmpty (a : AQueue) : Bool := a.numitems == 0

/-- Member `AQueue::isFull`. -/
def AQueue.isFull (a : AQueue) : Bool := a.numitems == a.allocSize

/-- The copy loop of `AQueue::enqueue` when the buffer grows, with `count`
iterations left: `newItems[index] = items[oldIndex]` and
`oldIndex = (oldIndex + 1) % allocSize`. -/
def AQueue.growLoop (items : List (Option Int)) (allocSize : Int) :
    Nat → Int → Int → List (Option Int) → Except QueueError (List (Option Int))
  | 0, _, _, newItems => .ok newItems
  | count + 1, index, oldIndex, newItems => do
    let v ← readSlot items oldIndex
    let newItems ← writeSlot newItems index v
    let oldIndex ← cMod (oldIndex + 1) allocSize
    AQueue.growLoop items allocSize count (index + 1) oldIndex newItems

/-- The `if (isFull())` block of `AQueue::enqueue`. -/
def AQueue.grow (a : AQueue) : Except QueueError AQueue :=
  if a.isFull then do
    let newAllocSize ← intValue (2 * a.allocSize)
    let newItems ← newIntArray newAllocSize
    let oldIndex := a.frontIndex
    let newItems ← AQueue.growLoop a.items a.allocSize a.numitems.toNat 0 oldIndex newItems
    pure { allocSize := newAllocSize, numitems := a.numitems, frontIndex := 0,
           backIndex := a.numitems - 1, items := newItems }
  else pure a

/-- Member `AQueue::enqueue`. -/
def AQueue.enqueue (a : AQueue) (newItem : Int) : Outcome AQueue :=
  let r : Except QueueError AQueue := do
    let g ← a.grow
    let backIndex ← cMod (g.backIndex + 1) g.allocSize
    let numitems := g.numitems + 1
    let items ← writeSlot g.items backIndex newItem
    pure { g with backIndex := backIndex, numitems := numitems, items := items }
  match r with
  | .ok a' => { state := a', error := none }
  | .error e => { state := a, error := some e }

/-- Member `AQueue::front`. -/
def AQueue.front (a : AQueue) : Except QueueError Int :=
  if a.isEmpty then .error (.EmptyQueueException "AQueue<T>::front()")
  else readSlot a.items a.frontIndex

/-- Member `AQueue::dequeue`. -/
def AQueue.dequeue (a : AQueue) : Outcome AQueue :=
  if a.isEmpty then { state := a, error := some (.EmptyQueueException "Aqueue<T>::dequeue()") }
  else
    let r : Except QueueError AQueue := do
      let numitems := a.numitems - 1
      let frontIndex ← cMod (a.frontIndex + 1) a.allocSize
      pure { a with numitems := numitems, frontIndex := frontIndex }
    match r with
    | .ok a' => { state := a', error := none }
    | .error e => { state := a, error := some e }

/-- Member `AQueue::length`. -/
def AQueue.length (a : AQueue) : Int := a.numitems

/-- The loop of `AQueue::tostring`: `while (index != (backIndex + 1) % allocSize)`
write `items[index]` and a blank to `out` and do `index++`. -/
def AQueue.tostringLoop (a : AQueue) : Nat → Int → String → Except QueueError String
  | 0, _, _ => .error .Diverged
  | fuel + 1, index, out => do
    let stop ← cMod (a.backIndex + 1) a.allocSize
    if index ≠ stop then
      let v ← readSlot a.items index
      let out := out ++ toString v ++ " "
      AQueue.tostringLoop a fuel (index + 1) out
    else pure out

/-- Member `AQueue::tostring`.  The loop budget is one more than the number of
slots: `index` only grows, and a read at or past the end of the buffer is
undefined. -/
def AQueue.tostring (a : AQueue) : Except QueueError String := do
  let out := "Front: "
  let index := a.frontIndex
  let out ← AQueue.tostringLoop a (a.items.length + 1) index out
  let out := out ++ ":Back" ++ "\n"
  pure out

/-- Member `AQueue::operator[]`. -/
def AQueue.at (a : AQueue) (index : Int) : Except QueueError Int :=
  if index < 0 ∨ index ≥ a.numitems then
    .error (.InvalidIndexQueueException "AQueue<T>::operator[]")
  else do
    let slot ← cMod (a.frontIndex + index) a.allocSize
    readSlot a.items slot

/-! ## The free store -/

/-- The record `struct Node { int item; Node* link; }`; a pointer is `none` (NULL) or the
address of a cell. -/
structure Node where
  item : Int
  link : Option Nat
deriving DecidableEq, Repr

/-- The free store: cell `a` is `some node` while allocated and `none` once
deleted. -/
abbrev Heap := List (Option Node)

/-- The expression `new Node`: a fresh cell at the end of the store, with unspecified
(here: zero / NULL) contents.  Returns the new address and the new store. -/
def Heap.alloc (h : Heap) : Nat × Heap := (h.length, h ++ [some { item := 0, link := none }])

/-- Dereference `p`: the node `*p`. -/
def Heap.read (h : Heap) (p : Option Nat) : Except QueueError Node :=
  match p with
  | none => .error .UndefinedBehaviour
  | some a =>
    match h[a]? with
    | some (some node) => .ok node
    | _ => .error .UndefinedBehaviour

/-- The assignment `p->item = v`. -/
def Heap.setItem (h : Heap) (p : Option Nat) (v : Int) : Except QueueError Heap :=
  match p with
  | none => .error .UndefinedBehaviour
  | some a =>
    match h[a]? with
    | some (some node) => .ok (h.set a (some { node with item := v }))
    | _ => .error .UndefinedBehaviour

/-- The assignment `p->link = l`. -/
def Heap.setLink (h : Heap) (p : Option Nat) (l : Option Nat) : Except QueueError Heap :=
  match p with
  | none => .error .UndefinedBehaviour
  | some a =>
    match h[a]? with
    | some (some node) => .ok (h.set a (some { node with link := l }))
    | _ => .error .UndefinedBehaviour

/-- The statement `delete p` for a non-null `p`. -/
def Heap.free (h : Heap) (p : Option Nat) : Except QueueError Heap :=
  match p with
  | none => .ok h
  | some a =>
    match h[a]? with
    | some (some _) => .ok (h.set a none)
    | _ => .error .UndefinedBehaviour

/-! ## LQueue -/

/-- The data members of `LQueue`, with the free store its nodes live in. -/
structure LQueue where
  store : Heap
  queueFront : Option Nat
  queueBack : Option Nat
  numitems : Int
deriving DecidableEq, Repr

/-- Member `LQueue::LQueue()`. -/
def LQueue.new : LQueue :=
  { store := [], queueFront := none, queueBack := none, numitems := 0 }

/-- The loop of `LQueue::clear`: `while (queueFront != NULL)` delete the front
node and move on.  Returns the store and `queueFront` after the loop. -/
def LQueue.clearLoop : Nat → Heap → Option Nat → Except QueueError (Heap × Option Nat)
  | 0, _, _ => .error .Diverged
  | fuel + 1, store, queueFront =>
    match queueFront with
    | none => .ok (store, queueFront)
    | some _ => do
      let temp := queueFront
      let node ← store.read queueFront
      let queueFront := node.link
      let store ← store.free temp
      LQueue.clearLoop fuel store queueFront

/-- Member `LQueue::clear`.  The loop budget is one more than the number of cells of
the store: every iteration deletes a different cell. -/
def LQueue.clear (q : LQueue) : Outcome LQueue :=
  match LQueue.clearLoop (q.store.length + 1) q.store q.queueFront with
  | .ok (store, queueFront) =>
    { state := { store := store, queueFront := queueFront, queueBack := none, numitems := 0 },
      error := none }
  | .error e => { state := q, error := some e }

/-- Member `LQueue::isEmpty`. -/
def LQueue.isEmpty (q : LQueue) : Bool := q.queueFront.isNone

/-- Member `LQueue::enqueue(const int&)`. -/
def LQueue.enqueue (q : LQueue) (newItem : Int) : Outcome LQueue :=
  let (newNode, store) := q.store.alloc
  let r : Except QueueError LQueue := do
    let store ← store.setItem (some newNode) newItem
    let store ← store.setLink (some newNode) none
    if q.queueFront = none then
      pure { store := store, queueFront := some newNode, queueBack := some newNode,
             numitems := q.numitems + 1 }
    else
      let store ← store.setLink q.queueBack (some newNode)
      pure { store := store, queueFront := q.queueFront, queueBack := some newNode,
             numitems := q.numitems + 1 }
  match r with
  | .ok q' => { state := q', error := none }
  | .error e => { state := q, error := some e }

/-- Member `LQueue::front`. -/
def LQueue.front (q : LQueue) : Except QueueError Int :=
  if q.isEmpty then .error (.EmptyQueueException "LQueue<T>::front()")
  else do
    let node ← q.store.read q.queueFront
    pure node.item

/-- Member `LQueue::dequeue`. -/
def LQueue.dequeue (q : LQueue) : Outcome LQueue :=
  if q.isEmpty then { state := q, error := some (.EmptyQueueException "LQueue<T>::dequeue()") }
  else
    let r : Except QueueError LQueue := do
      let temp := q.queueFront
      let node ← q.store.read q.queueFront
      let queueFront := node.link
      let queueBack := if queueFront = none then none else q.queueBack
      let numitems := q.numitems - 1
      let store ← q.store.free temp
      pure { store := store, queueFront := queueFront, queueBack := queueBack,
             numitems := numitems }
    match r with
    | .ok q' => { state := q', error := none }
    | .error e => { state := q, error := some e }

/-- Member `LQueue::length`. -/
def LQueue.length (q : LQueue) : Int := q.numitems

/-- The loop of `LQueue::tostring`: `while (temp != NULL)` write `temp->item`
and a blank to `out` and move on to `temp->link`. -/
def LQueue.tostringLoop : Nat → Heap → Option Nat → String → Except QueueError String
  | 0, _, _, _ => .error .Diverged
  | fuel + 1, store, temp, out =>
    match temp with
    | none => .ok out
    | some _ => do
      let node ← store.read temp
      let out := out ++ toString node.item ++ " "
      let temp := node.link
      LQueue.tostringLoop fuel store temp out

/-- Member `LQueue::tostring` (inherited by `PriorityQueues`).  The loop budget
is one more than the number of cells of the store. -/
def LQueue.tostring (q : LQueue) : Except QueueError String := do
  let temp := q.queueFront
  let out := "Front: "
  let out ← LQueue.tostringLoop (q.store.length + 1) q.store temp out
  let out := out ++ ":Back" ++ "\n"
  pure out

/-- The loop of `LQueue::operator[]`: `currentNode = currentNode->link`,
executed once for every value of `currentIndex` below `index`. -/
def LQueue.walk (store : Heap) : Nat → Option Nat → Except QueueError (Option Nat)
  | 0, currentNode => .ok currentNode
  | steps + 1, currentNode => do
    let node ← store.read currentNode
    LQueue.walk store steps node.link

/-- Member `LQueue::operator[]`. -/
def LQueue.at (q : LQueue) (index : Int) : Except QueueError Int :=
  if index < 0 ∨ index ≥ q.numitems then
    .error (.InvalidIndexQueueException "LQueue<T>::operator[]")
  else do
    let currentNode ← LQueue.walk q.store index.toNat q.queueFront
    let node ← q.store.read currentNode
    pure node.item

/-! ## PriorityQueues -/

/-- The derived class `class PriorityQueues : public LQueue` adds no data member. -/
abbrev PriorityQueues := LQueue

/-- The scan loop of `PriorityQueues::enqueue`, entered with `n` and `n2`:
`while (n2 != NULL)`, link the new node between `n` and `n2` and stop when
`n2->item < newItem`, else advance both pointers.  Returns the store and the
flag `i`. -/
def PriorityQueues.scanLoop (newNode : Option Nat) (newItem : Int) :
    Nat → Heap → Option Nat → Option Nat → Except QueueError (Heap × Bool)
  | 0, _, _, _ => .error .Diverged
  | fuel + 1, store, n, n2 =>
    match n2 with
    | none => .ok (store, false)
    | some _ => do
      let node2 ← store.read n2
      if node2.item < newItem then
        let store ← store.setLink n newNode
        let store ← store.setLink newNode n2
        pure (store, true)
      else
        let nodeN ← store.read n
        let n := nodeN.link
        let nodeN ← store.read n
        let n2 := nodeN.link
        PriorityQueues.scanLoop newNode newItem fuel store n n2

/-- Member `PriorityQueues::enqueue(const Job&)`.  The three `new Node` expressions
are kept: the nodes first bound to `n` and `n2` are never used nor freed. -/
def PriorityQueues.enqueue (q : PriorityQueues) (newItems : Job) : Outcome PriorityQueues :=
  let (newNode, store) := q.store.alloc
  let (_, store) := store.alloc
  let (_, store) := store.alloc
  let newItem := newItems.getPriority
  let r : Except QueueError LQueue := do
    let store ← store.setItem (some newNode) newItem
    let store ← store.setLink (some newNode) none
    if q.queueFront = none then
      pure { store := store, queueFront := some newNode, queueBack := some newNode,
             numitems := q.numitems + 1 }
    else
      let frontNode ← store.read q.queueFront
      if newItem > frontNode.item then
        let store ← store.setLink (some newNode) q.queueFront
        pure { store := store, queueFront := some newNode, queueBack := q.queueBack,
               numitems := q.numitems + 1 }
      else
        let n := q.queueFront
        let nodeN ← store.read n
        let n2 := nodeN.link
        let (store, i) ← PriorityQueues.scanLoop (some newNode) newItem (store.length + 1) store n n2
        if i ≠ true then
          let store ← store.setLink q.queueBack (some newNode)
          pure { store := store, queueFront := q.queueFront, queueBack := some newNode,
                 numitems := q.numitems + 1 }
        else
          pure { store := store, queueFront := q.queueFront, queueBack := q.queueBack,
                 numitems := q.numitems + 1 }
  match r with
  | .ok q' => { state := q', error := none }
  | .error e => { state := q, error := some e }


/-! ## The abstract class Queue -/

/-- An object seen through the abstract base class `Queue`: an `AQueue` or an
`LQueue` (a `PriorityQueues` object is an `LQueue`).  The virtual member
functions below dispatch on the dynamic type. -/
inductive Queue where
  | ofAQueue (a : AQueue)
  | ofLQueue (q : LQueue)
deriving DecidableEq, Repr

/-- Carry the state of an outcome over to another state type. -/
def Outcome.map {σ τ : Type} (f : σ → τ) (o : Outcome σ) : Outcome τ :=
  { state := f o.state, error := o.error }

/-- The virtual call `clear()`. -/
def Queue.clear : Queue → Outcome Queue
  | .ofAQueue a => a.clear.map .ofAQueue
  | .ofLQueue q => q.clear.map .ofLQueue

/-- The virtual call `isEmpty()`. -/
def Queue.isEmpty : Queue → Bool
  | .ofAQueue a => a.isEmpty
  | .ofLQueue q => q.isEmpty

/-- The virtual call `enqueue(const int&)`. -/
def Queue.enqueue : Queue → Int → Outcome Queue
  | .ofAQueue a, newItem => (a.enqueue newItem).map .ofAQueue
  | .ofLQueue q, newItem => (q.enqueue newItem).map .ofLQueue

/-- The virtual call `front()`. -/
def Queue.front : Queue → Except QueueError Int
  | .ofAQueue a => a.front
  | .ofLQueue q => q.front

/-- The virtual call `dequeue()`. -/
def Queue.dequeue : Queue → Outcome Queue
  | .ofAQueue a => a.dequeue.map .ofAQueue
  | .ofLQueue q => q.dequeue.map .ofLQueue

/-- The virtual call `length()`. -/
def Queue.length : Queue → Int
  | .ofAQueue a => a.length
  | .ofLQueue q => q.length

/-- The virtual call `tostring()`. -/
def Queue.tostring : Queue → Except QueueError String
  | .ofAQueue a => a.tostring
  | .ofLQueue q => q.tostring

/-- The virtual call `operator[](int)`. -/
def Queue.at : Queue → Int → Except QueueError Int
  | .ofAQueue a, index => a.at index
  | .ofLQueue q, index => q.at index

/-- The loop of `Queue::operator==`, with `count` iterations left:
`if ((*this)[index] != rhs[index]) return false;`, and `return true` after
the loop. -/
def Queue.eqLoop (lhs rhs : Queue) : Nat → Int → Except QueueError Bool
  | 0, _ => .ok true
  | count + 1, index => do
    let x ← lhs.at index
    let y ← rhs.at index
    if x ≠ y then pure false
    else Queue.eqLoop lhs rhs count (index + 1)

/-- Member `Queue::operator==`. -/
def Queue.operatorEq (lhs rhs : Queue) : Except QueueError Bool :=
  if lhs.length ≠ rhs.length then .ok false
  else Queue.eqLoop lhs rhs lhs.length.toNat 0

/-- One call made on a queue object: `enqueue(const int&)` through the virtual
interface, `enqueue(const Job&)` of the derived class `PriorityQueues`, or
`dequeue()`. -/
inductive Step where
  | enqueue (newItem : Int)
  | enqueueJob (newItems : Job)
  | dequeue
deriving DecidableEq, Repr

/-- Make one call.  The result is `none` when the class of the object has no
such member (`enqueue(const Job&)` on an `AQueue`). -/
def Queue.step : Queue → Step → Option (Outcome Queue)
  | Q, .enqueue newItem => some (Q.enqueue newItem)
  | .ofLQueue q, .enqueueJob newItems => some ((PriorityQueues.enqueue q newItems).map .ofLQueue)
  | .ofAQueue _, .enqueueJob _ => none
  | Q, .dequeue => some Q.dequeue

/-- Make the listed calls in turn; `some` of the final object when every call
exists and returns normally, `none` otherwise. -/
def Queue.steps : Queue → List Step → Option Queue
  | Q, [] => some Q
  | Q, s :: rest =>
    match Q.step s with
    | some o => if o.error = none then Queue.steps o.state rest else none
    | none => none

/-- The number of enqueue calls in a list of calls. -/
def Step.enqueues (steps : List Step) : Nat :=
  steps.countP (fun s => s != Step.dequeue)

/-- The number of dequeue calls in a list of calls. -/
def Step.dequeues (steps : List Step) : Nat :=
  steps.countP (fun s => s == Step.dequeue)

/-- One call of a mutating member through the virtual interface of `Queue`. -/
inductive QueueCall where
  | enqueue (newItem : Int)
  | dequeue
  | clear
deriving DecidableEq, Repr

/-- The number of `enqueue` calls in a list of calls. -/
def QueueCall.enqueues : List QueueCall → Nat
  | [] => 0
  | .enqueue _ :: rest => QueueCall.enqueues rest + 1
  | .dequeue :: rest => QueueCall.enqueues rest
  | .clear :: rest => QueueCall.enqueues rest

/-- The priority queue after `enqueue(job)` for every job of the list, in
order. -/
def PriorityQueues.enqueueJobs : PriorityQueues → List Job → PriorityQueues
  | q, [] => q
  | q, job :: jobs => PriorityQueues.enqueueJobs (PriorityQueues.enqueue q job).state jobs

/-- The `int` simulation parameters of `struct JobSchedulerSimulator` that the
random generators read. -/
structure JobSchedulerSimulator where
  minPriority : Int
  maxPriority : Int
  minServiceTime : Int
  maxServiceTime : Int
deriving DecidableEq, Repr

/-- Member `JobSchedulerSimulator::randomRange`; `r` is the value the call of
`rand()` returns. -/
def JobSchedulerSimulator.randomRange (r : Int) (minValue maxValue : Int) :
    Except QueueError Int := do
  let difference ← intValue (maxValue - minValue)
  let range ← intValue (difference + 1)
  let randValue ← cMod r range
  let randValue ← intValue (randValue + minValue)
  pure randValue

/-- Member `JobSchedulerSimulator::generateRandomPriority`. -/
def JobSchedulerSimulator.generateRandomPriority (sim : JobSchedulerSimulator) (r : Int) :
    Except QueueError Int :=
  JobSchedulerSimulator.randomRange r sim.minPriority sim.maxPriority

/-- Member `JobSchedulerSimulator::generateRandomServiceTime`. -/
def JobSchedulerSimulator.generateRandomServiceTime (sim : JobSchedulerSimulator) (r : Int) :
    Except QueueError Int :=
  JobSchedulerSimulator.randomRange r sim.minServiceTime sim.maxServiceTime

/-- The first number `runSimulation` reports, `a = rand() % 1000` (jobs
started); `r1` is the value of that call of `rand()`. -/
def runSimulationStarted (r1 : Int) : Except QueueError Int :=
  cMod r1 1000

/-- The second number `runSimulation` reports, `rand() % a` (jobs completed);
`r2` is the value of that call of `rand()`. -/
def runSimulationCompleted (r1 r2 : Int) : Except QueueError Int := do
  let a ← runSimulationStarted r1
  cMod r2 a

/-! ## Representation predicates used by the proofs -/

/-- Predicate `h.Chain p cells`: following `link` from pointer `p` visits exactly the
cells at the listed addresses, holding the listed items, and then reaches
NULL. -/
def Heap.Chain (h : Heap) : Option Nat → List (Nat × Int) → Prop
  | p, [] => p = none
  | p, c :: rest => p = some c.1 ∧ ∃ nxt, h[c.1]? = some (some ⟨c.2, nxt⟩) ∧ Heap.Chain h nxt rest

/-- A linked queue represents the cell list `cells`: its front pointer heads a
NULL-terminated chain over pairwise distinct cells, its back pointer is the
address of the last cell (NULL when there is none), and `numitems` counts the
cells. -/
structure LQueue.Rep (q : LQueue) (cells : List (Nat × Int)) : Prop where
  chain : q.store.Chain q.queueFront cells
  nodup : (cells.map Prod.fst).Nodup
  back : q.queueBack = (cells.map Prod.fst).getLast?
  count : q.numitems = cells.length

/-- Where `PriorityQueues::enqueue` puts a new cell: before the first cell
whose item is strictly smaller, at the end when there is none. -/
def insertCell (new : Nat × Int) : List (Nat × Int) → List (Nat × Int)
  | [] => [new]
  | c :: rest => if c.2 < new.2 then new :: c :: rest else c :: insertCell new rest

/-- An array queue represents the list `L`: the buffer has `allocSize` slots,
`numitems` is the length of `L` and does not exceed `allocSize`, the indices
stay inside the buffer, `backIndex` is the slot of the last item, and the
`i`-th item of `L` is stored in slot `(frontIndex + i) mod allocSize`. -/
structure AQueue.Inv (a : AQueue) (L : List Int) : Prop where
  size : (a.items.length : Int) = a.allocSize
  count : a.numitems = L.length
  cap : a.numitems ≤ a.allocSize
  frontLo : 0 ≤ a.frontIndex
  frontHi : a.frontIndex < a.allocSize ∨ (a.allocSize = 0 ∧ a.frontIndex = 0)
  back : a.allocSize ≠ 0 → a.backIndex = (a.frontIndex + a.numitems - 1) % a.allocSize
  backZero : a.allocSize = 0 → a.backIndex = -1
  elems : ∀ (i : Nat) (h : i < L.length),
    a.items[((a.frontIndex + i) % a.allocSize).toNat]? = some (some L[i])

/-- The items of a queue as `tostring` is to write them: each element
followed by one blank, front to back. -/
def renderItems : List Int → String
  | [] => ""
  | e :: es => toString e ++ " " ++ renderItems es

/-- The text `tostring` is to return for a queue reading `L`: `Front: `, the
items, `:Back` and a newline. -/
def renderQueue (L : List Int) : String :=
  "Front: " ++ renderItems L ++ ":Back" ++ "\n"

/-- The linked queue reads, front to back, as the list `L`: `length()` is the
length of `L` and `at(i)` returns the `i`-th element of `L`. -/
def LQueue.Reads (q : LQueue) (L : List Int) : Prop :=
  q.length = L.length ∧ ∀ i : Fin L.length, q.at (i.val : Int) = .ok (L.get i)

instance (q : LQueue) (L : List Int) : Decidable (q.Reads L) := by
  unfold LQueue.Reads; infer_instance

/-- The array queue reads, front to back, as the list `L`. -/
def AQueue.Reads (a : AQueue) (L : List Int) : Prop :=
  a.length = L.length ∧ ∀ i : Fin L.length, a.at (i.val : Int) = .ok (L.get i)

instance (a : AQueue) (L : List Int) : Decidable (a.Reads L) := by
  unfold AQueue.Reads; infer_instance

/-- States of an `LQueue` object (a `PriorityQueues` object is one) reachable
from the constructor through the mutating members, the FIFO `enqueue` of the
base class and the priority `enqueue` of the derived class included. -/
inductive LQueue.Reachable : LQueue → Prop
  | new : LQueue.Reachable LQueue.new
  | enqueue (q : LQueue) (newItem : Int) :
      LQueue.Reachable q → LQueue.Reachable (q.enqueue newItem).state
  | priorityEnqueue (q : LQueue) (newItems : Job) :
      LQueue.Reachable q → LQueue.Reachable (PriorityQueues.enqueue q newItems).state
  | dequeue (q : LQueue) : LQueue.Reachable q → LQueue.Reachable q.dequeue.state
  | clear (q : LQueue) : LQueue.Reachable q → LQueue.Reachable q.clear.state

/-- States of a `PriorityQueues` object reachable from an empty one through
`enqueue(const Job&)`, `dequeue()` and `clear()`. -/
inductive PriorityQueues.Reachable : PriorityQueues → Prop
  | new : PriorityQueues.Reachable LQueue.new
  | enqueue (q : PriorityQueues) (newItems : Job) :
      PriorityQueues.Reachable q → PriorityQueues.Reachable (PriorityQueues.enqueue q newItems).state
  | dequeue (q : PriorityQueues) :
      PriorityQueues.Reachable q → PriorityQueues.Reachable (LQueue.dequeue q).state
  | clear (q : PriorityQueues) :
      PriorityQueues.Reachable q → PriorityQueues.Reachable (LQueue.clear q).state

/-- States of an `AQueue` object reachable from one of its two constructors
through `enqueue`, `dequeue` and `clear`. -/
inductive AQueue.Reachable : AQueue → Prop
  | new (initialAlloc : Int) (a : AQueue) :
      AQueue.new initialAlloc = .ok a → AQueue.Reachable a
  | ofArray (initItems : List Int) (numitems : Int) (a : AQueue) :
      AQueue.ofArray initItems numitems = .ok a → AQueue.Reachable a
  | enqueue (a : AQueue) (newItem : Int) :
      AQueue.Reachable a → AQueue.Reachable (a.enqueue newItem).state
  | dequeue (a : AQueue) : AQueue.Reachable a → AQueue.Reachable a.dequeue.state
  | clear (a : AQueue) : AQueue.Reachable a → AQueue.Reachable a.clear.state

/-- A queue object of either class is in a state its class can reach. -/
def Queue.Reachable : Queue → Prop
  | .ofAQueue a => AQueue.Reachable a
  | .ofLQueue q => LQueue.Reachable q

/-- A queue object of either class represents the list `L`. -/
def Queue.Abs : Queue → List Int → Prop
  | .ofAQueue a, L => a.Inv L
  | .ofLQueue q, L => ∃ cells, q.Rep cells ∧ cells.map Prod.snd = L

/-! ## The test program `assg-11.cpp` and sample states -/

/-- The temporaries `Job(p, 0, 0)` of the test program, constructed in turn
for the listed priorities; the static id counter is threaded through. -/
def Job.newList (nextListId : Int) : List Int → Except QueueError (List Job × Int)
  | [] => pure ([], nextListId)
  | p :: ps => do
    let (job, next) ← Job.new nextListId p 0 0
    let (jobs, last) ← Job.newList next ps
    pure (job :: jobs, last)

/-- The outcomes of the successive calls `priorityQueue.enqueue(job)` for the
listed jobs, starting from the queue `q`. -/
def PriorityQueues.enqueueSteps : PriorityQueues → List Job → List (Outcome PriorityQueues)
  | _, [] => []
  | q, job :: jobs =>
    PriorityQueues.enqueue q job :: PriorityQueues.enqueueSteps (PriorityQueues.enqueue q job).state jobs

/-- The jobs of the `PriorityQueue<int>` test: priorities 5, 10, 2, 1, 3, 2,
the first jobs the program creates. -/
def testJobs : List Job :=
  match Job.newList Job.nextListIdInit [5, 10, 2, 1, 3, 2] with
  | .ok (jobs, _) => jobs
  | .error _ => []

/-- The queue of the test after its first two jobs, `Job(5, 0, 0)` with id 1
and `Job(10, 0, 0)` with id 2. -/
def testQueue2 : PriorityQueues :=
  (PriorityQueues.enqueue (PriorityQueues.enqueue LQueue.new (Job.mk 1 5 0 0 0)).state
    (Job.mk 2 10 0 0 0)).state

/-- The linked queue after `enqueue(x)` for every `x` of the list, in order,
as the test program builds `aQueue`. -/
def LQueue.enqueueAll (q : LQueue) : List Int → LQueue
  | [] => q
  | x :: xs => LQueue.enqueueAll (q.enqueue x).state xs

/-- The array queue of capacity 2 after `enqueue(1)`, `enqueue(2)`,
`dequeue()`, `enqueue(3)`: full, and wrapped around the end of its buffer. -/
def testAQueue : AQueue :=
  ((({ allocSize := 2, numitems := 0, frontIndex := 0, backIndex := 1, items := [none, none] }
      : AQueue).enqueue 1).state.enqueue 2).state.dequeue.state.enqueue 3 |>.state

/-- The array queue of capacity 3 after `enqueue(1)`, `enqueue(2)`,
`enqueue(3)`, `dequeue()`, `dequeue()`, `enqueue(4)`: it reads 3, 4, is not
full, and is wrapped (`backIndex == 0 < frontIndex == 2`). -/
def testAQueueWrapped : AQueue :=
  ((((({ allocSize := 3, numitems := 0, frontIndex := 0, backIndex := 2,
         items := [none, none, none] } : AQueue).enqueue 1).state.enqueue 2).state.enqueue 3
    ).state.dequeue.state.dequeue.state.enqueue 4).state

/-! ## Lemmas on the free store and the linked queue -/

theorem Heap.read_some {h : Heap} {a : Nat} {node : Node} (hc : h[a]? = some (some node)) :
    h.read (some a) = .ok node := by
  simp [Heap.read, hc]

theorem Heap.setLink_some {h : Heap} {a : Nat} {node : Node} (hc : h[a]? = some (some node))
    (l : Option Nat) :
    h.setLink (some a) l = .ok (h.set a (some { node with link := l })) := by
  simp [Heap.setLink, hc]

theorem Heap.setItem_some {h : Heap} {a : Nat} {node : Node} (hc : h[a]? = some (some node))
    (v : Int) :
    h.setItem (some a) v = .ok (h.set a (some { node with item := v })) := by
  simp [Heap.setItem, hc]

theorem Heap.free_some {h : Heap} {a : Nat} {node : Node} (hc : h[a]? = some (some node)) :
    h.free (some a) = .ok (h.set a none) := by
  simp [Heap.free, hc]

theorem Heap.lt_of_get {h : Heap} {a : Nat} {c : Option Node} (hc : h[a]? = some c) :
    a < h.length := by
  by_contra hlt
  have : h[a]? = none := List.getElem?_eq_none (by omega)
  simp [this] at hc

theorem Heap.Chain.lt {h : Heap} : ∀ {cells : List (Nat × Int)} {p : Option Nat},
    h.Chain p cells → ∀ a ∈ cells.map Prod.fst, a < h.length
  | [], _, _ => by simp
  | c :: rest, p, ⟨_, nxt, hc, hrest⟩ => by
    intro a ha
    simp only [List.map_cons, List.mem_cons] at ha
    rcases ha with rfl | ha
    · exact Heap.lt_of_get hc
    · exact Heap.Chain.lt hrest a ha

theorem Heap.Chain.append {h : Heap} (t : Heap) : ∀ {cells : List (Nat × Int)} {p : Option Nat},
    h.Chain p cells → Heap.Chain (h ++ t) p cells
  | [], _, hp => hp
  | c :: rest, p, ⟨hp, nxt, hc, hrest⟩ => by
    refine ⟨hp, nxt, ?_, Heap.Chain.append t hrest⟩
    rw [List.getElem?_append_left (Heap.lt_of_get hc)]
    exact hc

theorem Heap.Chain.set_frame {h : Heap} (a : Nat) (v : Option Node) :
    ∀ {cells : List (Nat × Int)} {p : Option Nat},
    h.Chain p cells → a ∉ cells.map Prod.fst → Heap.Chain (h.set a v) p cells
  | [], _, hp, _ => hp
  | c :: rest, p, ⟨hp, nxt, hc, hrest⟩, hna => by
    simp only [List.map_cons, List.mem_cons, not_or] at hna
    refine ⟨hp, nxt, ?_, Heap.Chain.set_frame a v hrest hna.2⟩
    rw [List.getElem?_set_ne hna.1]
    exact hc


theorem Heap.Chain.append_back {h : Heap} {new : Nat} {x : Int} :
    ∀ {cells : List (Nat × Int)} {p : Option Nat} {b : Nat},
    h.Chain p cells → (cells.map Prod.fst).getLast? = some b → (cells.map Prod.fst).Nodup →
    new ∉ cells.map Prod.fst → h[new]? = some (some ⟨x, none⟩) →
    ∃ node, h[b]? = some (some node) ∧
      Heap.Chain (h.set b (some { node with link := some new })) p (cells ++ [(new, x)])
  | [], _, _, _, hb, _, _, _ => by simp at hb
  | [c], p, b, ⟨hp, nxt, hc, hrest⟩, hb, _, hnew, hcell => by
    simp at hb
    subst hb
    simp at hnew
    refine ⟨_, hc, ?_⟩
    refine ⟨hp, some new, ?_, rfl, none, ?_, rfl⟩
    · simp [List.getElem?_set_self (Heap.lt_of_get hc)]
    · rw [List.getElem?_set_ne (Ne.symm hnew)]
      exact hcell
  | c :: d :: rest, p, b, ⟨hp, nxt, hc, hrest⟩, hb, hnd, hnew, hcell => by
    have hb' : ((d :: rest).map Prod.fst).getLast? = some b := by
      simpa [List.getLast?_cons_cons] using hb
    have hnd' : ((d :: rest).map Prod.fst).Nodup := by
      simp only [List.map_cons, List.nodup_cons] at hnd ⊢
      exact hnd.2
    have hnew' : new ∉ (d :: rest).map Prod.fst := by
      simp only [List.map_cons, List.mem_cons, not_or] at hnew ⊢
      exact hnew.2
    obtain ⟨node, hnode, hch⟩ := Heap.Chain.append_back hrest hb' hnd' hnew' hcell
    refine ⟨node, hnode, hp, nxt, ?_, hch⟩
    have hbmem : b ∈ (d :: rest).map Prod.fst := List.mem_of_getLast?_eq_some hb'
    have hcb : b ≠ c.1 := by
      intro h'
      simp only [List.map_cons, List.nodup_cons] at hnd
      exact hnd.1 (h' ▸ hbmem)
    rw [List.getElem?_set_ne hcb]
    exact hc
theorem getLast?_map_concat {α β : Type} (f : α → β) (l : List α) (c : α) :
    ((l ++ [c]).map f).getLast? = some (f c) := by
  rw [List.map_append, List.map_singleton, List.getLast?_concat]

theorem Heap.alloc_fst (h : Heap) : h.alloc.1 = h.length := rfl
theorem Heap.alloc_snd (h : Heap) : h.alloc.2 = h ++ [some { item := 0, link := none }] := rfl

theorem Heap.set_fresh (h t : Heap) (c v : Option Node) :
    (h ++ c :: t).set h.length v = h ++ v :: t := by
  simp [List.set_append]

theorem Heap.get_fresh (h t : Heap) (c : Option Node) :
    (h ++ c :: t)[h.length]? = some c := by
  rw [List.getElem?_append_right (Nat.le_refl _)]
  simp

theorem LQueue.Rep.new_rep : LQueue.new.Rep [] :=
  ⟨rfl, by simp, rfl, rfl⟩

theorem LQueue.Rep.enqueue_rep {q : LQueue} {cells : List (Nat × Int)} (hr : q.Rep cells) (x : Int) :
    (q.enqueue x).error = none ∧ (q.enqueue x).state.Rep (cells ++ [(q.store.length, x)]) := by
  obtain ⟨hch, hnd, hback, hcount⟩ := hr
  have hfresh : q.store.length ∉ cells.map Prod.fst := fun hm =>
    Nat.lt_irrefl _ (Heap.Chain.lt hch _ hm)
  have hch2 : Heap.Chain (q.store ++ [some ⟨x, none⟩]) q.queueFront cells :=
    Heap.Chain.append _ hch
  have hnd2 : ((cells ++ [(q.store.length, x)]).map Prod.fst).Nodup := by
    rw [List.map_append, List.nodup_append]
    refine ⟨hnd, by simp, ?_⟩
    intro a ha hb
    simp at hb
    subst hb
    exact hfresh ha
  unfold LQueue.enqueue
  simp only [Heap.alloc_fst, Heap.alloc_snd]
  have e1 : Heap.setItem (q.store ++ [some { item := 0, link := none }]) (some q.store.length) x
      = .ok (q.store ++ [some ⟨x, none⟩]) := by
    rw [Heap.setItem_some (Heap.get_fresh _ _ _), Heap.set_fresh]
  have e2 : Heap.setLink (q.store ++ [some ⟨x, none⟩]) (some q.store.length) none
      = .ok (q.store ++ [some ⟨x, none⟩]) := by
    rw [Heap.setLink_some (Heap.get_fresh _ _ _), Heap.set_fresh]
  cases cells with
  | nil =>
    have hf : q.queueFront = none := hch
    simp [e1, e2, hf, bind, Except.bind, pure, Except.pure]
    refine ⟨⟨rfl, none, by simp, rfl⟩, by simp, by simp, by simpa using hcount⟩
  | cons c rest =>
    obtain ⟨b, hb⟩ : ∃ b, ((c :: rest).map Prod.fst).getLast? = some b := by
      cases h : ((c :: rest).map Prod.fst).getLast? with
      | none => simp at h
      | some b => exact ⟨b, rfl⟩
    obtain ⟨node, hnode, hch3⟩ := Heap.Chain.append_back hch2 hb hnd hfresh (Heap.get_fresh _ [] _)
    have hf : q.queueFront ≠ none := by rw [hch.1]; simp
    have e3 : Heap.setLink (q.store ++ [some ⟨x, none⟩]) q.queueBack (some q.store.length)
        = .ok ((q.store ++ [some ({ item := x, link := none } : Node)]).set b
            (some { node with link := some q.store.length })) := by
      rw [hback, hb, Heap.setLink_some hnode]
    simp [e1, e2, e3, hf, bind, Except.bind, pure, Except.pure]
    refine ⟨hch3, hnd2, ?_, ?_⟩
    · exact (getLast?_map_concat Prod.fst (c :: rest) (q.store.length, x)).symm
    · simp [hcount]

theorem LQueue.Rep.isEmpty_iff_rep {q : LQueue} {cells : List (Nat × Int)} (hr : q.Rep cells) :
    q.isEmpty = true ↔ cells = [] := by
  cases cells with
  | nil =>
    have hf : q.queueFront = none := hr.chain
    simp [LQueue.isEmpty, hf]
  | cons c rest =>
    have hf : q.queueFront = some c.1 := hr.chain.1
    simp [LQueue.isEmpty, hf]

theorem LQueue.Rep.length_eq_rep {q : LQueue} {cells : List (Nat × Int)} (hr : q.Rep cells) :
    q.length = cells.length := hr.count

theorem LQueue.Rep.front_cons_rep {q : LQueue} {c : Nat × Int} {rest : List (Nat × Int)}
    (hr : q.Rep (c :: rest)) : q.front = .ok c.2 := by
  obtain ⟨hf, nxt, hc, _⟩ := hr.chain
  have he : q.isEmpty = false := by simp [LQueue.isEmpty, hf]
  simp [LQueue.front, he, hf, Heap.read_some hc, bind, Except.bind, pure, Except.pure]

theorem LQueue.Rep.front_nil_rep {q : LQueue} (hr : q.Rep []) :
    q.front = .error (.EmptyQueueException "LQueue<T>::front()") := by
  have he : q.isEmpty = true := hr.isEmpty_iff_rep.2 rfl
  simp [LQueue.front, he]

theorem LQueue.Rep.dequeue_nil_rep {q : LQueue} (hr : q.Rep []) :
    q.dequeue = { state := q, error := some (.EmptyQueueException "LQueue<T>::dequeue()") } := by
  have he : q.isEmpty = true := hr.isEmpty_iff_rep.2 rfl
  simp [LQueue.dequeue, he]

theorem LQueue.Rep.dequeue_cons_rep {q : LQueue} {c : Nat × Int} {rest : List (Nat × Int)}
    (hr : q.Rep (c :: rest)) : q.dequeue.error = none ∧ q.dequeue.state.Rep rest := by
  obtain ⟨⟨hf, nxt, hc, hrest⟩, hnd, hback, hcount⟩ := hr
  have he : q.isEmpty = false := by simp [LQueue.isEmpty, hf]
  simp only [List.map_cons, List.nodup_cons] at hnd
  have hch : Heap.Chain (q.store.set c.1 none) nxt rest := Heap.Chain.set_frame _ _ hrest hnd.1
  simp only [LQueue.dequeue, he, hf, Heap.read_some hc, Heap.free_some hc, bind, Except.bind,
    pure, Except.pure]
  refine ⟨by simp, hch, hnd.2, ?_, ?_⟩
  · cases rest with
    | nil =>
      have hn : nxt = none := hrest
      simp [hn]
    | cons d r =>
      have hn : nxt = some d.1 := hrest.1
      simp [hn, hback, List.getLast?_cons_cons]
  · simp [hcount]

theorem LQueue.walk_chain {h : Heap} : ∀ {cells : List (Nat × Int)} {p : Option Nat} (i : Nat)
    (hi : i < cells.length), h.Chain p cells →
    LQueue.walk h i p = .ok (some cells[i].1) ∧
      ∃ nxt, h[cells[i].1]? = some (some ⟨cells[i].2, nxt⟩)
  | [], _, _, hi, _ => by simp at hi
  | c :: rest, p, 0, _, ⟨hp, nxt, hc, _⟩ => by
    simp [LQueue.walk, hp]
    exact ⟨nxt, hc⟩
  | c :: rest, p, i + 1, hi, ⟨hp, nxt, hc, hrest⟩ => by
    have hi' : i < rest.length := by simpa using hi
    have ih := LQueue.walk_chain i hi' hrest
    simp only [LQueue.walk, hp, Heap.read_some hc, bind, Except.bind, List.getElem_cons_succ]
    exact ih

theorem LQueue.Rep.at_lt_rep {q : LQueue} {cells : List (Nat × Int)} (hr : q.Rep cells) (i : Nat)
    (hi : i < cells.length) : q.at i = .ok cells[i].2 := by
  obtain ⟨hw, nxt, hc⟩ := LQueue.walk_chain i hi hr.chain
  have hguard : ¬ ((i : Int) < 0 ∨ (i : Int) ≥ q.numitems) := by
    rw [hr.count]
    omega
  simp [LQueue.at, hguard, hw, Heap.read_some hc, bind, Except.bind, pure, Except.pure]

theorem LQueue.clearLoop_chain : ∀ {cells : List (Nat × Int)} {h : Heap} {p : Option Nat}
    (fuel : Nat), cells.length < fuel → h.Chain p cells → (cells.map Prod.fst).Nodup →
    ∃ h', LQueue.clearLoop fuel h p = .ok (h', none) ∧ h'.length = h.length
  | _, _, _, 0, hlt, _, _ => by omega
  | [], h, p, fuel + 1, _, hp, _ => by
    have hn : p = none := hp
    exact ⟨h, by simp [LQueue.clearLoop, hn], rfl⟩
  | c :: rest, h, p, fuel + 1, hlt, ⟨hp, nxt, hc, hrest⟩, hnd => by
    simp only [List.map_cons, List.nodup_cons] at hnd
    have hch : Heap.Chain (h.set c.1 none) nxt rest := Heap.Chain.set_frame _ _ hrest hnd.1
    have hlt' : rest.length < fuel := by simpa using hlt
    obtain ⟨h', hrun, hlen⟩ := LQueue.clearLoop_chain fuel hlt' hch hnd.2
    refine ⟨h', ?_, by simpa using hlen⟩
    simp only [LQueue.clearLoop, hp, Heap.read_some hc, Heap.free_some hc, bind, Except.bind]
    exact hrun

theorem LQueue.Rep.clear_rep {q : LQueue} {cells : List (Nat × Int)} (hr : q.Rep cells) :
    q.clear.error = none ∧ q.clear.state.Rep [] := by
  have hlt : cells.length < q.store.length + 1 := by
    have h1 := Heap.Chain.lt hr.chain
    have h2 : (cells.map Prod.fst).length ≤ q.store.length := by
      have hsub : cells.map Prod.fst ⊆ List.range q.store.length := by
        intro a ha
        exact List.mem_range.2 (h1 a ha)
      have := (List.subperm_of_subset hr.nodup hsub).length_le
      simpa using this
    simp at h2
    omega
  obtain ⟨h', hrun, _⟩ := LQueue.clearLoop_chain _ hlt hr.chain hr.nodup
  simp only [LQueue.clear, hrun]
  exact ⟨trivial, rfl, by simp, rfl, rfl⟩

theorem insertCell_of_all_ge (new : Nat × Int) : ∀ (cells : List (Nat × Int)),
    (∀ c ∈ cells, ¬ c.2 < new.2) → insertCell new cells = cells ++ [new]
  | [], _ => rfl
  | c :: rest, h => by
    have hc : ¬ c.2 < new.2 := h c (List.mem_cons_self _ _)
    have ih := insertCell_of_all_ge new rest (fun d hd => h d (List.mem_cons_of_mem _ hd))
    simp [insertCell, hc, ih]

theorem insertCell_perm (new : Nat × Int) : ∀ (cells : List (Nat × Int)),
    (insertCell new cells).Perm (new :: cells)
  | [] => List.Perm.refl _
  | c :: rest => by
    unfold insertCell
    split
    · exact List.Perm.refl _
    · exact ((insertCell_perm new rest).cons c).trans (List.Perm.swap new c rest)

theorem insertCell_length (new : Nat × Int) (cells : List (Nat × Int)) :
    (insertCell new cells).length = cells.length + 1 := by
  simpa using (insertCell_perm new cells).length_eq

theorem insertCell_ne_nil (new : Nat × Int) (cells : List (Nat × Int)) :
    insertCell new cells ≠ [] := by
  intro h
  have := insertCell_length new cells
  simp [h] at this

theorem insertCell_getLast? (new : Nat × Int) : ∀ (cells : List (Nat × Int)),
    (∃ c ∈ cells, c.2 < new.2) →
    ((insertCell new cells).map Prod.fst).getLast? = (cells.map Prod.fst).getLast?
  | [], h => by simp at h
  | c :: rest, h => by
    unfold insertCell
    split
    · simp [List.getLast?_cons_cons]
    · rename_i hc
      have hex : ∃ d ∈ rest, d.2 < new.2 := by
        obtain ⟨d, hd, hlt⟩ := h
        rcases List.mem_cons.1 hd with rfl | hd
        · exact absurd hlt hc
        · exact ⟨d, hd, hlt⟩
      have ih := insertCell_getLast? new rest hex
      obtain ⟨d, hd, _⟩ := hex
      cases hrest : rest with
      | nil => simp [hrest] at hd
      | cons e r =>
        cases hins : insertCell new rest with
        | nil => exact absurd hins (insertCell_ne_nil _ _)
        | cons f s =>
          rw [hrest] at ih hins
          rw [hins] at ih
          simp only [List.map_cons, List.getLast?_cons_cons] at ih ⊢
          simpa [hins] using ih

theorem PriorityQueues.scanLoop_chain {new : Nat} {k : Int} :
    ∀ (rest : List (Nat × Int)) (h : Heap) (n : Nat) (x : Int) (nlink l0 : Option Nat)
      (fuel : Nat),
    rest.length < fuel → h[n]? = some (some ⟨x, nlink⟩) → h.Chain nlink rest →
    (n :: rest.map Prod.fst).Nodup → new ∉ n :: rest.map Prod.fst →
    h[new]? = some (some ⟨k, l0⟩) →
    ((∀ c ∈ rest, ¬ c.2 < k) ∧
        PriorityQueues.scanLoop (some new) k fuel h (some n) nlink = .ok (h, false)) ∨
    ((∃ c ∈ rest, c.2 < k) ∧ ∃ h',
        PriorityQueues.scanLoop (some new) k fuel h (some n) nlink = .ok (h', true) ∧
        h'.Chain (some n) ((n, x) :: insertCell (new, k) rest) ∧
        ∀ a, a ∉ n :: rest.map Prod.fst → a ≠ new → h'[a]? = h[a]?)
  | _, _, _, _, _, _, 0, hlt, _, _, _, _, _ => by omega
  | [], h, n, x, nlink, l0, fuel + 1, _, _, hch, _, _, _ => by
    have hn : nlink = none := hch
    left
    exact ⟨by simp, by simp [PriorityQueues.scanLoop, hn]⟩
  | d :: r, h, n, x, nlink, l0, fuel + 1, hlt, hn, ⟨hp, dn, hd, hr⟩, hnd, hnew, hcell => by
    subst hp
    simp only [List.map_cons, List.nodup_cons, List.mem_cons, not_or] at hnd hnew
    obtain ⟨⟨hnd1, hnr⟩, hdr, hrnd⟩ := hnd
    obtain ⟨hnewn, hnewd, hnewr⟩ := hnew
    by_cases hlt2 : d.2 < k
    · right
      refine ⟨⟨d, List.mem_cons_self _ _, hlt2⟩, ?_⟩
      have h1n : (h.set n (some ⟨x, some new⟩))[new]? = some (some ⟨k, l0⟩) := by
        rw [List.getElem?_set_ne (Ne.symm hnewn)]
        exact hcell
      refine ⟨(h.set n (some ⟨x, some new⟩)).set new (some ⟨k, some d.1⟩), ?_, ?_, ?_⟩
      · simp only [PriorityQueues.scanLoop, Heap.read_some hd, hlt2, if_true,
          Heap.setLink_some hn, Heap.setLink_some h1n, bind, Except.bind, pure, Except.pure]
      · have hchd : h.Chain (some d.1) (d :: r) := ⟨rfl, dn, hd, hr⟩
        have hfr1 := Heap.Chain.set_frame n (some ⟨x, some new⟩) hchd
          (by simp only [List.map_cons, List.mem_cons, not_or]; exact ⟨hnd1, hnr⟩)
        have hfr2 := Heap.Chain.set_frame new (some ⟨k, some d.1⟩) hfr1
          (by simp only [List.map_cons, List.mem_cons, not_or]; exact ⟨hnewd, hnewr⟩)
        have hins : insertCell (new, k) (d :: r) = (new, k) :: d :: r := by
          simp [insertCell, hlt2]
        rw [hins]
        refine ⟨rfl, some new, ?_, rfl, some d.1, ?_, hfr2⟩
        · rw [List.getElem?_set_ne hnewn, List.getElem?_set_self (Heap.lt_of_get hn)]
        · rw [List.getElem?_set_self]
          rw [List.length_set]
          exact Heap.lt_of_get hcell
      · intro a ha hane
        simp only [List.mem_cons, not_or] at ha
        rw [List.getElem?_set_ne (Ne.symm hane), List.getElem?_set_ne (Ne.symm ha.1)]
    · have hlt' : r.length < fuel := by simpa using hlt
      have hnew' : new ∉ d.1 :: r.map Prod.fst := by
        simp only [List.mem_cons, not_or]; exact ⟨hnewd, hnewr⟩
      have hnd' : (d.1 :: r.map Prod.fst).Nodup := List.nodup_cons.2 ⟨hdr, hrnd⟩
      have hstep : PriorityQueues.scanLoop (some new) k (fuel + 1) h (some n) (some d.1)
          = PriorityQueues.scanLoop (some new) k fuel h (some d.1) dn := by
        simp only [PriorityQueues.scanLoop, Heap.read_some hd, hlt2, if_false,
          Heap.read_some hn, bind, Except.bind]
      rcases PriorityQueues.scanLoop_chain r h d.1 d.2 dn l0 fuel hlt' hd hr hnd' hnew' hcell
        with ⟨hall, hrun⟩ | ⟨hex, h', hrun, hch', hframe⟩
      · left
        refine ⟨?_, by rw [hstep, hrun]⟩
        intro c hc
        rcases List.mem_cons.1 hc with rfl | hc
        · exact hlt2
        · exact hall c hc
      · right
        obtain ⟨c, hc, hck⟩ := hex
        refine ⟨⟨c, List.mem_cons_of_mem _ hc, hck⟩, h', by rw [hstep, hrun], ?_, ?_⟩
        · have hins : insertCell (new, k) (d :: r) = d :: insertCell (new, k) r := by
            simp [insertCell, hlt2]
          rw [hins]
          refine ⟨rfl, some d.1, ?_, hch'⟩
          rw [hframe n (by simp only [List.mem_cons, not_or]; exact ⟨hnd1, hnr⟩) (Ne.symm hnewn)]
          exact hn
        · intro a ha hane
          simp only [List.map_cons, List.mem_cons, not_or] at ha
          exact hframe a (by simp only [List.mem_cons, not_or]; exact ⟨ha.2.1, ha.2.2⟩) hane

theorem Heap.alloc3 (h : Heap) :
    ((h.alloc.2).alloc.2).alloc.2 =
      h ++ [some { item := 0, link := none }, some { item := 0, link := none },
            some { item := 0, link := none }] := by
  simp [Heap.alloc]

theorem PriorityQueues.Rep_enqueue {q : PriorityQueues} {cells : List (Nat × Int)}
    (hr : LQueue.Rep q cells) (job : Job) :
    (PriorityQueues.enqueue q job).error = none ∧
      LQueue.Rep (PriorityQueues.enqueue q job).state
        (insertCell (q.store.length, job.priority) cells) := by
  obtain ⟨hch, hnd, hback, hcount⟩ := hr
  have hfresh : q.store.length ∉ cells.map Prod.fst := fun hm =>
    Nat.lt_irrefl _ (Heap.Chain.lt hch _ hm)
  -- the store after the three allocations and the initialisation of the new node
  obtain ⟨k, hk⟩ : ∃ k : Int, k = job.priority := ⟨_, rfl⟩
  obtain ⟨S, hS⟩ : ∃ S : Heap, S = q.store ++ [some ⟨k, none⟩, some ⟨0, none⟩, some ⟨0, none⟩] :=
    ⟨_, rfl⟩
  have hSnew : ∀ l, (q.store ++ [some ⟨k, l⟩, some ⟨0, none⟩, some ⟨0, none⟩])[q.store.length]?
      = some (some ⟨k, l⟩) :=
    fun l => Heap.get_fresh _ _ _
  have hSnew' : S[q.store.length]? = some (some ⟨k, none⟩) := by rw [hS]; exact hSnew none
  have hchS : S.Chain q.queueFront cells := hS ▸ Heap.Chain.append _ hch
  have e1 : Heap.setItem (q.store ++ [some ⟨0, none⟩, some ⟨0, none⟩, some ⟨0, none⟩])
      (some q.store.length) k = .ok S := by
    rw [Heap.setItem_some (Heap.get_fresh _ _ _), Heap.set_fresh, hS]
  have e2 : Heap.setLink S (some q.store.length) none = .ok S := by
    rw [Heap.setLink_some hSnew', hS, Heap.set_fresh]
  have e2' : ∀ l, Heap.setLink S (some q.store.length) l
      = .ok (q.store ++ [some ⟨k, l⟩, some ⟨0, none⟩, some ⟨0, none⟩]) := by
    intro l
    rw [Heap.setLink_some hSnew', hS, Heap.set_fresh]
  unfold PriorityQueues.enqueue
  simp only [Heap.alloc3, Heap.alloc_fst, Job.getPriority, ← hk]
  cases cells with
  | nil =>
    have hf : q.queueFront = none := hch
    simp only [e1, e2, hf, bind, Except.bind, pure, Except.pure, if_true]
    refine ⟨by simp, ?_⟩
    refine ⟨⟨rfl, none, hSnew', rfl⟩, by simp [insertCell], by simp [insertCell], ?_⟩
    simpa [insertCell] using hcount
  | cons c rest =>
    obtain ⟨hf, nxt, hc, hrest⟩ := hch
    have hfne : q.queueFront ≠ none := by rw [hf]; simp
    have hcS : S[c.1]? = some (some ⟨c.2, nxt⟩) := by
      rw [hS, List.getElem?_append_left (Heap.lt_of_get hc)]
      exact hc
    by_cases hgt : k > c.2
    · -- the new node goes on the front
      simp only [e1, e2, e2', hfne, hf, Heap.read_some hcS, hgt, bind, Except.bind, pure,
        Except.pure, if_true, if_false]
      have hins : insertCell (q.store.length, k) (c :: rest) = (q.store.length, k) :: c :: rest := by
        simp only [insertCell]
        rw [if_pos hgt]
      rw [hins]
      refine ⟨by simp, ?_⟩
      refine ⟨⟨rfl, some c.1, hSnew _, ?_⟩, ?_, ?_, ?_⟩
      · exact Heap.Chain.append _
          (show Heap.Chain q.store (some c.1) (c :: rest) from ⟨rfl, nxt, hc, hrest⟩)
      · exact List.nodup_cons.2 ⟨hfresh, hnd⟩
      · simp only [List.map_cons, List.getLast?_cons_cons]
        simpa using hback
      · simp [hcount]
    · -- scan from the front
      have hle : ¬ c.2 < k := hgt
      have hndall : ((c :: rest).map Prod.fst).Nodup := hnd
      simp only [List.map_cons, List.nodup_cons] at hnd
      have hfresh' : q.store.length ∉ c.1 :: rest.map Prod.fst := by simpa using hfresh
      have hrestS : S.Chain nxt rest := by
        rw [hS]; exact Heap.Chain.append _ hrest
      have hlt : rest.length < S.length + 1 := by
        have h1 := Heap.Chain.lt hrestS
        have hsub : rest.map Prod.fst ⊆ List.range S.length := fun a ha =>
          List.mem_range.2 (h1 a ha)
        have := (List.subperm_of_subset hnd.2 hsub).length_le
        simp at this
        omega
      have hins : insertCell (q.store.length, k) (c :: rest)
          = c :: insertCell (q.store.length, k) rest := by
        simp only [insertCell]
        rw [if_neg hle]
      rw [hins]
      rcases PriorityQueues.scanLoop_chain rest S c.1 c.2 nxt none (S.length + 1) hlt hcS hrestS
        (List.nodup_cons.2 hnd) hfresh' hSnew'
        with ⟨hall, hrun⟩ | ⟨hex, h', hrun, hch', _⟩
      · -- no smaller item: append after the back
        obtain ⟨b, hb⟩ : ∃ b, ((c :: rest).map Prod.fst).getLast? = some b := by
          cases h : ((c :: rest).map Prod.fst).getLast? with
          | none => simp at h
          | some b => exact ⟨b, rfl⟩
        obtain ⟨node, hnode, hch3⟩ := Heap.Chain.append_back
          (show S.Chain (some c.1) (c :: rest) from ⟨rfl, nxt, hcS, hrestS⟩) hb hndall
          (by simpa using hfresh) hSnew'
        have e3 : Heap.setLink S q.queueBack (some q.store.length)
            = .ok (S.set b (some { node with link := some q.store.length })) := by
          rw [hback, hb, Heap.setLink_some hnode]
        simp only [e1, e2, e3, hfne, hf, Heap.read_some hcS, hgt, hrun, bind, Except.bind, pure,
          Except.pure, if_false]
        rw [insertCell_of_all_ge _ _ hall]
        refine ⟨by simp, ?_⟩
        refine ⟨?_, ?_, ?_, ?_⟩
        · simpa using hch3
        · have : (((c :: rest) ++ [(q.store.length, k)]).map Prod.fst).Nodup := by
            rw [List.map_append, List.nodup_append]
            refine ⟨hndall, by simp, ?_⟩
            intro a ha hb'
            simp at hb'
            subst hb'
            exact hfresh ha
          simpa using this
        · simpa using (getLast?_map_concat Prod.fst (c :: rest) (q.store.length, k)).symm
        · simp [hcount]
      · -- linked in before the first smaller item
        simp only [e1, e2, hfne, hf, Heap.read_some hcS, hgt, hrun, bind, Except.bind, pure,
          Except.pure, if_false]
        refine ⟨by simp, ?_⟩
        refine ⟨?_, ?_, ?_, ?_⟩
        · simpa using hch'
        · have hp := (insertCell_perm (q.store.length, k) rest).map Prod.fst
          have hnd2 : (((q.store.length, k) :: rest).map Prod.fst).Nodup := by
            simp only [List.map_cons, List.nodup_cons]
            exact ⟨fun hm => hfresh' (List.mem_cons_of_mem _ hm), hnd.2⟩
          have hnd3 := (List.Perm.nodup_iff hp).2 hnd2
          simp only [List.map_cons, List.nodup_cons]
          refine ⟨?_, hnd3⟩
          intro hm
          have := (List.Perm.mem_iff hp).1 hm
          simp only [List.map_cons, List.mem_cons] at this
          rcases this with h1 | h1
          · exact hfresh' (h1 ▸ List.mem_cons_self _ _)
          · exact hnd.1 h1
        · have hl := insertCell_getLast? (q.store.length, k) rest hex
          obtain ⟨d, hd, _⟩ := hex
          cases hrest' : rest with
          | nil => simp [hrest'] at hd
          | cons e r =>
            cases hins' : insertCell (q.store.length, k) rest with
            | nil => exact absurd hins' (insertCell_ne_nil _ _)
            | cons f s =>
              rw [hins'] at hl
              rw [hrest'] at hl hback hins'
              rw [hins']
              simp only [List.map_cons, List.getLast?_cons_cons] at hl hback ⊢
              simp [hback, hl]
        · simp [hcount, insertCell_length]

theorem insertCell_sorted (new : Nat × Int) : ∀ (cells : List (Nat × Int)),
    (cells.map Prod.snd).Pairwise (· ≥ ·) →
    ((insertCell new cells).map Prod.snd).Pairwise (· ≥ ·)
  | [], _ => by simp [insertCell]
  | c :: rest, h => by
    simp only [List.map_cons, List.pairwise_cons] at h
    unfold insertCell
    split
    · rename_i hlt
      simp only [List.map_cons, List.pairwise_cons, List.mem_cons]
      refine ⟨?_, h.1, h.2⟩
      intro b hb
      rcases hb with rfl | hb
      · exact le_of_lt hlt
      · exact le_trans (h.1 b hb) (le_of_lt hlt)
    · rename_i hge
      simp only [List.map_cons, List.pairwise_cons]
      refine ⟨?_, insertCell_sorted new rest h.2⟩
      intro b hb
      have hb' := (List.Perm.mem_iff ((insertCell_perm new rest).map Prod.snd)).1 hb
      simp only [List.map_cons, List.mem_cons] at hb'
      rcases hb' with rfl | hb'
      · exact not_lt.1 hge
      · exact h.1 b hb'

theorem insertCell_map_snd (a : Nat) (k : Int) : ∀ (cells : List (Nat × Int)),
    (insertCell (a, k) cells).map Prod.snd =
      (cells.map Prod.snd).takeWhile (fun x => decide (x ≥ k)) ++
        k :: (cells.map Prod.snd).dropWhile (fun x => decide (x ≥ k))
  | [] => rfl
  | c :: rest => by
    unfold insertCell
    split
    · rename_i hlt
      have : ¬ c.2 ≥ k := not_le.2 hlt
      simp [List.takeWhile, List.dropWhile, this]
    · rename_i hge
      have : c.2 ≥ k := not_lt.1 hge
      simp [List.takeWhile, List.dropWhile, this, insertCell_map_snd a k rest]

theorem LQueue.Rep.reads_rep {q : LQueue} {cells : List (Nat × Int)} (hr : q.Rep cells) :
    q.Reads (cells.map Prod.snd) := by
  refine ⟨by simpa using hr.length_eq_rep, ?_⟩
  intro i
  have hi : i.val < cells.length := by simpa using i.isLt
  rw [hr.at_lt_rep i.val hi]
  simp

theorem LQueue.Reads.unique {q : LQueue} {L M : List Int} (hL : q.Reads L) (hM : q.Reads M) :
    L = M := by
  have hlen : L.length = M.length := by
    have := hL.1.symm.trans hM.1
    exact_mod_cast this
  apply List.ext_getElem hlen
  intro i h1 h2
  have e1 := hL.2 ⟨i, h1⟩
  have e2 := hM.2 ⟨i, h2⟩
  rw [e1] at e2
  simpa using e2

theorem LQueue.Reachable.rep {q : LQueue} (hq : LQueue.Reachable q) : ∃ cells, q.Rep cells := by
  induction hq with
  | new => exact ⟨[], LQueue.Rep.new_rep⟩
  | enqueue q x _ ih =>
    obtain ⟨cells, hr⟩ := ih
    exact ⟨_, (hr.enqueue_rep x).2⟩
  | priorityEnqueue q job _ ih =>
    obtain ⟨cells, hr⟩ := ih
    exact ⟨_, (PriorityQueues.Rep_enqueue hr job).2⟩
  | dequeue q _ ih =>
    obtain ⟨cells, hr⟩ := ih
    cases cells with
    | nil => rw [hr.dequeue_nil_rep]; exact ⟨[], hr⟩
    | cons c rest => exact ⟨rest, hr.dequeue_cons_rep.2⟩
  | clear q _ ih =>
    obtain ⟨cells, hr⟩ := ih
    exact ⟨[], hr.clear_rep.2⟩

theorem PriorityQueues.Reachable.toLQueue {q : PriorityQueues} (hq : PriorityQueues.Reachable q) :
    LQueue.Reachable q := by
  induction hq with
  | new => exact .new
  | enqueue q job _ ih => exact .priorityEnqueue q job ih
  | dequeue q _ ih => exact .dequeue q ih
  | clear q _ ih => exact .clear q ih

theorem PriorityQueues.Reachable.rep_sorted {q : PriorityQueues}
    (hq : PriorityQueues.Reachable q) :
    ∃ cells, LQueue.Rep q cells ∧ (cells.map Prod.snd).Pairwise (· ≥ ·) := by
  induction hq with
  | new => exact ⟨[], LQueue.Rep.new_rep, by simp⟩
  | enqueue q job _ ih =>
    obtain ⟨cells, hr, hs⟩ := ih
    exact ⟨_, (PriorityQueues.Rep_enqueue hr job).2, insertCell_sorted _ _ hs⟩
  | dequeue q _ ih =>
    obtain ⟨cells, hr, hs⟩ := ih
    cases cells with
    | nil => rw [hr.dequeue_nil_rep]; exact ⟨[], hr, hs⟩
    | cons c rest =>
      simp only [List.map_cons, List.pairwise_cons] at hs
      exact ⟨rest, hr.dequeue_cons_rep.2, hs.2⟩
  | clear q _ ih =>
    obtain ⟨cells, hr, _⟩ := ih
    exact ⟨[], hr.clear_rep.2, by simp⟩

theorem takeWhile_eq_filter_of_sorted (k : Int) : ∀ (L : List Int), L.Pairwise (· ≥ ·) →
    L.takeWhile (fun x => decide (x ≥ k)) = L.filter (fun x => decide (x ≥ k)) ∧
    L.dropWhile (fun x => decide (x ≥ k)) = L.filter (fun x => decide (x < k))
  | [], _ => by simp
  | x :: xs, h => by
    simp only [List.pairwise_cons] at h
    by_cases hx : x ≥ k
    · have ih := takeWhile_eq_filter_of_sorted k xs h.2
      have hx' : ¬ x < k := not_lt.2 hx
      simp [List.takeWhile, List.dropWhile, List.filter, hx, hx', ih.1, ih.2]
    · have hlt : x < k := not_le.1 hx
      have hall : ∀ y ∈ xs, y < k := fun y hy => lt_of_le_of_lt (h.1 y hy) hlt
      have h1 : xs.filter (fun y => decide (y ≥ k)) = [] := by
        rw [List.filter_eq_nil_iff]
        intro y hy
        simpa using hall y hy
      have h2 : xs.filter (fun y => decide (y < k)) = xs := by
        rw [List.filter_eq_self]
        intro y hy
        simpa using hall y hy
      simp [List.takeWhile, List.dropWhile, List.filter, hx, hlt, h1, h2]

theorem take_length_takeWhile {α : Type} (p : α → Bool) : ∀ (L : List α),
    L.take (L.takeWhile p).length = L.takeWhile p ∧
    L.drop (L.takeWhile p).length = L.dropWhile p
  | [] => by simp
  | x :: xs => by
    have ih := take_length_takeWhile p xs
    by_cases hx : p x = true
    · simp [List.takeWhile, List.dropWhile, hx, ih.1, ih.2]
    · simp [List.takeWhile, List.dropWhile, hx]

theorem PriorityQueues.enqueue_sorted_spec (q : PriorityQueues) (hq : PriorityQueues.Reachable q)
    (job : Job) :
    ∃ (L : List Int) (c : Nat), LQueue.Reads q L ∧ L.Pairwise (· ≥ ·) ∧ c ≤ L.length ∧
      c = L.countP (fun x => decide (x ≥ job.priority)) ∧
      (∀ x ∈ L.take c, x ≥ job.priority) ∧ (∀ x ∈ L.drop c, x < job.priority) ∧
      (PriorityQueues.enqueue q job).error = none ∧
      LQueue.Reads (PriorityQueues.enqueue q job).state (L.take c ++ job.priority :: L.drop c) := by
  obtain ⟨cells, hr, hs⟩ := hq.rep_sorted
  obtain ⟨herr, hr'⟩ := PriorityQueues.Rep_enqueue hr job
  have hreads := hr'.reads_rep
  rw [insertCell_map_snd] at hreads
  obtain ⟨h1, h2⟩ := takeWhile_eq_filter_of_sorted job.priority _ hs
  obtain ⟨h3, h4⟩ := take_length_takeWhile (fun x => decide (x ≥ job.priority))
    (cells.map Prod.snd)
  refine ⟨cells.map Prod.snd, ((cells.map Prod.snd).takeWhile (fun x => decide (x ≥ job.priority))).length,
    hr.reads_rep, hs, ?_, ?_, ?_, ?_, herr, ?_⟩
  · exact (List.takeWhile_sublist _).length_le
  · rw [h1, List.countP_eq_length_filter]
  · intro x hx
    rw [h3, h1] at hx
    simpa using (List.mem_filter.1 hx).2
  · intro x hx
    rw [h4, h2] at hx
    simpa using (List.mem_filter.1 hx).2
  · rw [h3, h4]
    exact hreads

theorem LQueue.Reads.at_ok {q : LQueue} {L : List Int} (hL : q.Reads L) (i : Nat)
    (hi : i < L.length) : q.at (i : Int) = .ok L[i] := by
  have := hL.2 ⟨i, hi⟩
  simpa using this

/-! ### The array queue -/

theorem emod_wrap {c a : Int} (h1 : -c ≤ a) (h2 : a < 2 * c) :
    a % c = if a < 0 then a + c else if a < c then a else a - c := by
  split_ifs with h3 h4
  · rw [← Int.add_emod_self, Int.emod_eq_of_lt (by omega) (by omega)]
  · exact Int.emod_eq_of_lt (by omega) h4
  · have : a = (a - c) + c := by omega
    conv_lhs => rw [this]
    rw [Int.add_emod_self, Int.emod_eq_of_lt (by omega) (by omega)]

theorem cMod_of_nonneg {a c : Int} (ha : 0 ≤ a) (hc : 0 < c) : cMod a c = .ok (a % c) := by
  have hne : c ≠ 0 := by omega
  simp [cMod, hne, Int.tmod_eq_emod ha (le_of_lt hc)]

theorem intValue_ok {x : Int} (h1 : INT_MIN ≤ x) (h2 : x ≤ INT_MAX) : intValue x = .ok x := by
  simp [intValue, h1, h2]

theorem intValue_overflow {x : Int} (h : INT_MAX < x) :
    intValue x = .error .UndefinedBehaviour := by
  have : ¬ x ≤ INT_MAX := by omega
  simp [intValue, this]

theorem INT_MIN_neg : INT_MIN < 0 := by decide

theorem set_append_cons_length {α : Type} (h t : List α) (c v : α) :
    (h ++ c :: t).set h.length v = h ++ v :: t := by
  simp [List.set_append]

theorem readSlot_ok {items : List (Option Int)} {i : Int} {v : Int} (hi : 0 ≤ i)
    (h : items[i.toNat]? = some (some v)) : readSlot items i = .ok v := by
  have : ¬ i < 0 := by omega
  simp [readSlot, this, h]

theorem writeSlot_ok {items : List (Option Int)} {i : Int} (v : Int) (hi : 0 ≤ i)
    (h : i < items.length) : writeSlot items i v = .ok (items.set i.toNat (some v)) := by
  have : ¬ (i < 0 ∨ i ≥ items.length) := by omega
  simp [writeSlot, this]

theorem AQueue.Inv.new_inv {initialAlloc : Int} {a : AQueue} (h : AQueue.new initialAlloc = .ok a) :
    a.Inv [] := by
  unfold AQueue.new newIntArray at h
  by_cases hneg : initialAlloc < 0
  · simp [hneg, bind, Except.bind] at h
  · simp only [hneg, if_false, bind, Except.bind, pure, Except.pure, Except.ok.injEq] at h
    subst h
    have hnn : 0 ≤ initialAlloc := not_lt.1 hneg
    refine ⟨by simp [Int.toNat_of_nonneg hnn], rfl, hnn, le_refl _, ?_, ?_, ?_, ?_⟩
    · by_cases h0 : initialAlloc = 0
      · exact Or.inr ⟨h0, rfl⟩
      · exact Or.inl (show (0 : Int) < initialAlloc by omega)
    · intro hne
      have hne' : initialAlloc ≠ 0 := hne
      show initialAlloc - 1 = (0 + 0 - 1) % initialAlloc
      rw [emod_wrap (by omega) (by omega)]
      split_ifs <;> omega
    · intro h0
      have h0' : initialAlloc = 0 := h0
      show initialAlloc - 1 = -1
      omega
    · intro i hi
      simp at hi

theorem AQueue.Inv.clear_inv {a : AQueue} {L : List Int} (h : a.Inv L) :
    a.clear.error = none ∧ a.clear.state.Inv [] := by
  have h1 := h.cap
  have h2 := h.count
  have hnn : 0 ≤ a.allocSize := by omega
  refine ⟨rfl, h.size, rfl, hnn, le_refl _, ?_, ?_, ?_, ?_⟩
  · by_cases h0 : a.allocSize = 0
    · exact Or.inr ⟨h0, rfl⟩
    · exact Or.inl (show (0 : Int) < a.allocSize by omega)
  · intro hne
    have hne' : a.allocSize ≠ 0 := hne
    show a.allocSize - 1 = (0 + 0 - 1) % a.allocSize
    rw [emod_wrap (by omega) (by omega)]
    split_ifs <;> omega
  · intro h0
    have h0' : a.allocSize = 0 := h0
    show a.allocSize - 1 = -1
    omega
  · intro i hi
    simp at hi

theorem AQueue.Inv.isEmpty_iff_inv {a : AQueue} {L : List Int} (h : a.Inv L) :
    a.isEmpty = true ↔ L = [] := by
  simp only [AQueue.isEmpty, beq_iff_eq, h.count]
  constructor
  · intro h0
    have : L.length = 0 := by exact_mod_cast h0
    exact List.length_eq_zero.1 this
  · rintro rfl
    rfl

theorem AQueue.Inv.at_lt_inv {a : AQueue} {L : List Int} (h : a.Inv L) (i : Nat)
    (hi : i < L.length) : a.at (i : Int) = .ok L[i] := by
  have hcount := h.count
  have hcap := h.cap
  have hfl := h.frontLo
  have hguard : ¬ ((i : Int) < 0 ∨ (i : Int) ≥ a.numitems) := by omega
  have hc : 0 < a.allocSize := by omega
  simp only [AQueue.at, hguard, if_false, cMod_of_nonneg (show 0 ≤ a.frontIndex + i by omega) hc,
    bind, Except.bind]
  exact readSlot_ok (Int.emod_nonneg _ (by omega)) (h.elems i hi)

theorem AQueue.Inv.front_cons_inv {a : AQueue} {x : Int} {L : List Int} (h : a.Inv (x :: L)) :
    a.front = .ok x := by
  have hne : a.isEmpty = false := by
    cases he : a.isEmpty with
    | false => rfl
    | true => exact absurd (h.isEmpty_iff_inv.1 he) (by simp)
  have hcount := h.count
  have hcap := h.cap
  have hfl := h.frontLo
  have hfh := h.frontHi
  simp only [List.length_cons] at hcount
  have hc : 0 < a.allocSize := by push_cast at hcount; omega
  have h0 := h.elems 0 (by simp)
  simp only [Nat.cast_zero, add_zero, List.getElem_cons_zero] at h0
  rw [Int.emod_eq_of_lt hfl (by omega)] at h0
  simp only [AQueue.front, hne]
  exact readSlot_ok hfl h0

theorem AQueue.Inv.front_nil_inv {a : AQueue} (h : a.Inv []) :
    a.front = .error (.EmptyQueueException "AQueue<T>::front()") := by
  have he : a.isEmpty = true := h.isEmpty_iff_inv.2 rfl
  simp [AQueue.front, he]

theorem AQueue.Inv.dequeue_nil_inv {a : AQueue} (h : a.Inv []) :
    a.dequeue = { state := a, error := some (.EmptyQueueException "Aqueue<T>::dequeue()") } := by
  have he : a.isEmpty = true := h.isEmpty_iff_inv.2 rfl
  simp [AQueue.dequeue, he]

theorem AQueue.Inv.dequeue_cons_inv {a : AQueue} {x : Int} {L : List Int} (h : a.Inv (x :: L)) :
    a.dequeue.error = none ∧ a.dequeue.state.Inv L ∧
      a.dequeue.state.allocSize = a.allocSize ∧ a.dequeue.state.items = a.items ∧
      a.dequeue.state.backIndex = a.backIndex ∧
      a.dequeue.state.frontIndex = (a.frontIndex + 1) % a.allocSize := by
  have hne : a.isEmpty = false := by
    cases he : a.isEmpty with
    | false => rfl
    | true => exact absurd (h.isEmpty_iff_inv.1 he) (by simp)
  have hcount := h.count
  have hcap := h.cap
  have hfl := h.frontLo
  have hfh := h.frontHi
  simp only [List.length_cons] at hcount
  push_cast at hcount
  have hc : 0 < a.allocSize := by omega
  have hfh' : a.frontIndex < a.allocSize := by omega
  have hback := h.back (by omega)
  simp only [AQueue.dequeue, hne, cMod_of_nonneg (show 0 ≤ a.frontIndex + 1 by omega) hc, bind,
    Except.bind, pure, Except.pure]
  refine ⟨by simp, ?_, rfl, rfl, rfl, rfl⟩
  have hw : (a.frontIndex + 1) % a.allocSize
      = if a.frontIndex + 1 < a.allocSize then a.frontIndex + 1 else 0 := by
    rw [emod_wrap (by omega) (by omega)]
    split_ifs <;> omega
  refine ⟨h.size, ?_, ?_, ?_, ?_, ?_, ?_, ?_⟩
  · simp only [Bool.false_eq_true, if_false]; omega
  · simp only [Bool.false_eq_true, if_false]; omega
  · simp only [Bool.false_eq_true, if_false]; exact Int.emod_nonneg _ (by omega)
  · simp only [Bool.false_eq_true, if_false]; left; exact Int.emod_lt_of_pos _ hc
  · intro _
    simp only [Bool.false_eq_true, if_false]
    rw [hback]
    have : (a.frontIndex + 1) % a.allocSize + (a.numitems - 1) - 1
        = (a.frontIndex + 1) % a.allocSize + (a.numitems - 2) := by ring
    rw [this, Int.emod_add_emod]
    congr 1
    ring
  · intro h0
    simp only [Bool.false_eq_true, if_false] at h0
    omega
  · intro i hi
    have := h.elems (i + 1) (by simp; omega)
    simp only [Bool.false_eq_true, if_false, List.getElem_cons_succ] at this ⊢
    rw [← this, Int.emod_add_emod]
    congr 3
    push_cast
    ring

theorem AQueue.copyLoop_spec (initItems : List Int) : ∀ (count : Nat) (pre : List (Option Int))
    (result : List (Option Int)),
    AQueue.copyLoop initItems count (pre.length : Int) (pre ++ List.replicate count none)
      = .ok result →
    (count = 0 ∨ pre.length + count ≤ initItems.length) ∧
      result = pre ++ ((initItems.drop pre.length).take count).map some
  | 0, pre, result, h => by
    simp [AQueue.copyLoop] at h
    subst h
    simp
  | count + 1, pre, result, h => by
    by_cases hj : pre.length < initItems.length
    · have hread : readSlot (initItems.map some) (pre.length : Int) = .ok initItems[pre.length] :=
        readSlot_ok (by omega) (by simp [List.getElem?_eq_getElem hj])
      have hwrite : writeSlot (pre ++ List.replicate (count + 1) none) (pre.length : Int)
          initItems[pre.length]
          = .ok ((pre ++ [some initItems[pre.length]]) ++ List.replicate count none) := by
        rw [writeSlot_ok _ (by omega) (by simp)]
        simp only [Int.toNat_ofNat, List.replicate_succ]
        rw [set_append_cons_length]
        simp
      have hcast : (pre.length : Int) + 1
          = (((pre ++ [some initItems[pre.length]]).length : Nat) : Int) := by simp
      simp only [AQueue.copyLoop, hread, hwrite, bind, Except.bind] at h
      rw [hcast] at h
      obtain ⟨h1, h2⟩ := AQueue.copyLoop_spec initItems count (pre ++ [some initItems[pre.length]])
        result h
      simp only [List.length_append, List.length_singleton] at h1 h2
      refine ⟨Or.inr (by omega), ?_⟩
      rw [h2, List.drop_eq_getElem_cons hj, List.take_succ_cons, List.map_cons]
      simp
    · have hread : readSlot (initItems.map some) (pre.length : Int) = .error .UndefinedBehaviour := by
        have : (initItems.map some)[pre.length]? = none := List.getElem?_eq_none (by simp; omega)
        simp [readSlot, this]
      simp [AQueue.copyLoop, hread, bind, Except.bind] at h

theorem AQueue.Inv.ofArray {initItems : List Int} {numitems : Int} {a : AQueue}
    (h : AQueue.ofArray initItems numitems = .ok a) :
    0 ≤ numitems ∧ numitems ≤ initItems.length ∧ a.Inv (initItems.take numitems.toNat) := by
  unfold AQueue.ofArray newIntArray at h
  by_cases hneg : numitems < 0
  · simp [hneg, bind, Except.bind] at h
  · have hnn : 0 ≤ numitems := not_lt.1 hneg
    simp only [hneg, if_false, bind, Except.bind, pure, Except.pure] at h
    cases hloop : AQueue.copyLoop initItems numitems.toNat 0 (List.replicate numitems.toNat none) with
    | error e => simp [hloop] at h
    | ok items =>
      simp only [hloop, Except.ok.injEq] at h
      subst h
      obtain ⟨h1, h2⟩ := AQueue.copyLoop_spec initItems numitems.toNat [] items
        (by simpa using hloop)
      simp only [List.drop_zero, List.nil_append, Nat.zero_add, List.length_nil] at h1 h2
      have h1 : numitems.toNat ≤ initItems.length := by omega
      have hlen : (initItems.take numitems.toNat).length = numitems.toNat := by
        simp [h1]
      have hcast : ((numitems.toNat : Nat) : Int) = numitems := Int.toNat_of_nonneg hnn
      refine ⟨hnn, by omega, ?_, ?_, ?_, le_refl _, ?_, ?_, ?_, ?_⟩
      · simp [h2, h1, hcast]
      · simp [h1, hcast]
      · exact le_refl _
      · by_cases h0 : numitems = 0
        · exact Or.inr ⟨h0, rfl⟩
        · exact Or.inl (show (0 : Int) < numitems by omega)
      · intro hne
        have hne' : numitems ≠ 0 := hne
        show numitems - 1 = (0 + numitems - 1) % numitems
        rw [emod_wrap (by omega) (by omega)]
        split_ifs <;> omega
      · intro h0
        have h0' : numitems = 0 := h0
        show numitems - 1 = -1
        omega
      · intro i hi
        rw [hlen] at hi
        have hi' : (i : Int) < numitems := by omega
        show items[((0 + (i : Int)) % numitems).toNat]? = _
        rw [zero_add, Int.emod_eq_of_lt (by omega) hi', Int.toNat_ofNat, h2]
        simp [List.getElem?_take_of_lt hi, List.getElem_take]

theorem set_append_cons_of_length {α : Type} {h t : List α} {c v : α} {j : Nat}
    (hj : h.length = j) : (h ++ c :: t).set j v = h ++ v :: t := by
  subst hj
  exact set_append_cons_length h t c v

theorem AQueue.growLoop_spec {a : AQueue} {L : List Int} (h : a.Inv L) (hc : 0 < a.allocSize)
    (m : Nat) : ∀ (count j : Nat), j + count = L.length →
    AQueue.growLoop a.items a.allocSize count (j : Int) ((a.frontIndex + j) % a.allocSize)
        ((L.take j).map some ++ List.replicate (count + m) none)
      = .ok (L.map some ++ List.replicate m none)
  | 0, j, hj => by
    have : L.take j = L := List.take_of_length_le (by omega)
    simp [AQueue.growLoop, this]
  | count + 1, j, hj => by
    have hjL : j < L.length := by omega
    have hfl := h.frontLo
    have hread : readSlot a.items ((a.frontIndex + j) % a.allocSize) = .ok L[j] :=
      readSlot_ok (Int.emod_nonneg _ (by omega)) (h.elems j hjL)
    have hlen : ((L.take j).map some).length = j := by simp; omega
    have hwrite : writeSlot ((L.take j).map some ++ List.replicate (count + 1 + m) none) (j : Int) L[j]
        = .ok ((L.take (j + 1)).map some ++ List.replicate (count + m) none) := by
      rw [writeSlot_ok _ (by omega) (by simp; omega)]
      have e1 : count + 1 + m = (count + m) + 1 := by omega
      rw [e1, List.replicate_succ, Int.toNat_ofNat]
      rw [set_append_cons_of_length hlen, List.take_succ, List.getElem?_eq_getElem hjL]
      simp only [Option.toList_some, List.map_append, List.map_cons, List.map_nil,
        List.append_assoc, List.singleton_append]
    have hmod : cMod ((a.frontIndex + j) % a.allocSize + 1) a.allocSize
        = .ok ((a.frontIndex + ((j + 1 : Nat) : Int)) % a.allocSize) := by
      rw [cMod_of_nonneg (by have := Int.emod_nonneg (a.frontIndex + j) (show a.allocSize ≠ 0 by omega); omega) hc,
        Int.emod_add_emod]
      congr 2
      push_cast
      ring
    have hcast : (j : Int) + 1 = ((j + 1 : Nat) : Int) := by push_cast; rfl
    simp only [AQueue.growLoop, hread, hwrite, hmod, bind, Except.bind, hcast]
    exact AQueue.growLoop_spec h hc m count (j + 1) (by omega)

theorem AQueue.Inv.grow_full {a : AQueue} {L : List Int} (h : a.Inv L) (hc : 0 < a.allocSize)
    (hfull : a.numitems = a.allocSize) (hov : 2 * a.allocSize ≤ INT_MAX) :
    a.grow = .ok { allocSize := 2 * a.allocSize, numitems := a.numitems, frontIndex := 0,
                   backIndex := a.numitems - 1,
                   items := L.map some ++ List.replicate L.length none } := by
  have hcount := h.count
  have hfullb : a.isFull = true := by simp [AQueue.isFull, hfull]
  have hnat : (2 * a.allocSize).toNat = L.length + L.length := by omega
  have hnn : ¬ 2 * a.allocSize < 0 := by omega
  have hn : a.numitems.toNat = L.length := by omega
  have hloop := AQueue.growLoop_spec h hc L.length L.length 0 (by omega)
  simp only [Nat.cast_zero, add_zero, List.take_zero, List.map_nil, List.nil_append] at hloop
  rw [Int.emod_eq_of_lt h.frontLo (by have := h.frontHi; omega)] at hloop
  have hmin := INT_MIN_neg
  simp only [AQueue.grow, hfullb, if_true,
    intValue_ok (show INT_MIN ≤ 2 * a.allocSize by omega) hov, newIntArray, hnn, if_false,
    hnat, hn, hloop, bind, Except.bind, pure, Except.pure]

theorem AQueue.Inv.grow_notFull {a : AQueue} (hfull : a.numitems ≠ a.allocSize) :
    a.grow = .ok a := by
  have hfullb : a.isFull = false := by simp [AQueue.isFull, hfull]
  simp [AQueue.grow, hfullb, pure, Except.pure]

theorem AQueue.Inv.enqueue_inv {a : AQueue} {L : List Int} (h : a.Inv L) (hc : 0 < a.allocSize)
    (hov : a.numitems = a.allocSize → 2 * a.allocSize ≤ INT_MAX) (x : Int) :
    (a.enqueue x).error = none ∧ (a.enqueue x).state.Inv (L ++ [x]) ∧
      (a.enqueue x).state.allocSize
        = if a.numitems = a.allocSize then 2 * a.allocSize else a.allocSize := by
  have hcount := h.count
  have hcap := h.cap
  have hfl := h.frontLo
  have hfh : a.frontIndex < a.allocSize := by have := h.frontHi; omega
  have hsize := h.size
  by_cases hfull : a.numitems = a.allocSize
  · -- the buffer grows
    have hn1 : 1 ≤ L.length := by omega
    have hmod : cMod (a.numitems - 1 + 1) (2 * a.allocSize) = .ok (L.length : Int) := by
      have e : a.numitems - 1 + 1 = (L.length : Int) := by omega
      rw [e, cMod_of_nonneg (by omega) (by omega), Int.emod_eq_of_lt (by omega) (by omega)]
    have hitems : L.map some ++ List.replicate L.length none
        = L.map some ++ none :: List.replicate (L.length - 1) none := by
      obtain ⟨k, hk⟩ : ∃ k, L.length = k + 1 := ⟨L.length - 1, by omega⟩
      rw [hk, List.replicate_succ]
      simp
    have hwrite : writeSlot (L.map some ++ List.replicate L.length none) (L.length : Int) x
        = .ok ((L ++ [x]).map some ++ List.replicate (L.length - 1) none) := by
      rw [writeSlot_ok _ (by omega) (by simp; omega), Int.toNat_ofNat, hitems,
        set_append_cons_of_length (by simp)]
      simp
    simp only [AQueue.enqueue, h.grow_full hc hfull (hov hfull), hmod, hwrite, bind, Except.bind, pure,
      Except.pure]
    refine ⟨trivial, ⟨?_, ?_, ?_, le_refl _, ?_, ?_, ?_, ?_⟩, by rw [if_pos hfull]⟩
    · simp; omega
    · simp; omega
    · show a.numitems + 1 ≤ 2 * a.allocSize
      omega
    · left
      show (0 : Int) < 2 * a.allocSize
      omega
    · intro _
      show (L.length : Int) = (0 + (a.numitems + 1) - 1) % (2 * a.allocSize)
      rw [Int.emod_eq_of_lt (by omega) (by omega)]
      omega
    · intro h0
      have : 2 * a.allocSize = 0 := h0
      omega
    · intro i hi
      have hi' : i < L.length + 1 := by simpa using hi
      show ((L ++ [x]).map some ++ List.replicate (L.length - 1) none)[
        ((0 + (i : Int)) % (2 * a.allocSize)).toNat]? = _
      rw [zero_add, Int.emod_eq_of_lt (by omega) (by omega), Int.toNat_ofNat,
        List.getElem?_append_left (by simp; omega), List.getElem?_map,
        List.getElem?_eq_getElem hi]
      rfl
  · -- room is left
    have hlt : a.numitems < a.allocSize := lt_of_le_of_ne hcap hfull
    have hback := h.back (by omega)
    have hslot : (a.frontIndex + a.numitems) % a.allocSize
        = if a.frontIndex + a.numitems < a.allocSize then a.frontIndex + a.numitems
          else a.frontIndex + a.numitems - a.allocSize := by
      rw [emod_wrap (by omega) (by omega)]
      split_ifs <;> omega
    have hmod : cMod (a.backIndex + 1) a.allocSize
        = .ok ((a.frontIndex + a.numitems) % a.allocSize) := by
      have hb0 : 0 ≤ a.backIndex := by rw [hback]; exact Int.emod_nonneg _ (by omega)
      rw [cMod_of_nonneg (by omega) hc, hback, Int.emod_add_emod]
      congr 2
      ring
    have hs0 : 0 ≤ (a.frontIndex + a.numitems) % a.allocSize := Int.emod_nonneg _ (by omega)
    have hs1 : (a.frontIndex + a.numitems) % a.allocSize < a.allocSize :=
      Int.emod_lt_of_pos _ hc
    have hwrite : writeSlot a.items ((a.frontIndex + a.numitems) % a.allocSize) x
        = .ok (a.items.set ((a.frontIndex + a.numitems) % a.allocSize).toNat (some x)) :=
      writeSlot_ok _ hs0 (by omega)
    simp only [AQueue.enqueue, AQueue.Inv.grow_notFull hfull, hmod, hwrite, bind, Except.bind,
      pure, Except.pure]
    refine ⟨trivial, ⟨?_, ?_, ?_, hfl, Or.inl hfh, ?_, ?_, ?_⟩, by rw [if_neg hfull]⟩
    · simpa using hsize
    · simp; omega
    · show a.numitems + 1 ≤ a.allocSize
      omega
    · intro _
      show (a.frontIndex + a.numitems) % a.allocSize
        = (a.frontIndex + (a.numitems + 1) - 1) % a.allocSize
      congr 1
      ring
    · intro h0
      have : a.allocSize = 0 := h0
      omega
    · intro i hi
      have hi' : i < L.length + 1 := by simpa using hi
      show (a.items.set ((a.frontIndex + a.numitems) % a.allocSize).toNat (some x))[
        ((a.frontIndex + (i : Int)) % a.allocSize).toNat]? = _
      by_cases hiL : i < L.length
      · have hne : ((a.frontIndex + a.numitems) % a.allocSize).toNat
            ≠ ((a.frontIndex + (i : Int)) % a.allocSize).toNat := by
          rw [hslot, emod_wrap (show -a.allocSize ≤ a.frontIndex + (i : Int) by omega)
            (by omega)]
          split_ifs <;> omega
        rw [List.getElem?_set_ne hne, h.elems i hiL, List.getElem_append_left hiL]
      · have hiN : i = L.length := by omega
        subst hiN
        rw [← hcount, List.getElem?_set_self (by omega)]
        simp

theorem AQueue.Inv.enqueue_zero {a : AQueue} {L : List Int} (h : a.Inv L) (hc : a.allocSize = 0)
    (x : Int) : a.enqueue x = { state := a, error := some .UndefinedBehaviour } := by
  have hcount := h.count
  have hcap := h.cap
  have hn : a.numitems = 0 := by omega
  have hfullb : a.isFull = true := by simp [AQueue.isFull, hn, hc]
  have hiv : intValue 0 = .ok 0 := by decide
  simp [AQueue.enqueue, AQueue.grow, hfullb, hiv, newIntArray, hc, hn, AQueue.growLoop, cMod,
    bind, Except.bind, pure, Except.pure]

theorem AQueue.enqueue_overflow {a : AQueue} (hfull : a.numitems = a.allocSize)
    (hov : INT_MAX < 2 * a.allocSize) (x : Int) :
    a.enqueue x = { state := a, error := some .UndefinedBehaviour } := by
  have hfullb : a.isFull = true := by simp [AQueue.isFull, hfull]
  simp only [AQueue.enqueue, AQueue.grow, hfullb, if_true, intValue_overflow hov, bind,
    Except.bind]

theorem AQueue.Reachable.inv {a : AQueue} (ha : AQueue.Reachable a) : ∃ L, a.Inv L := by
  induction ha with
  | new c a h => exact ⟨[], AQueue.Inv.new_inv h⟩
  | ofArray xs n a h => exact ⟨_, (AQueue.Inv.ofArray h).2.2⟩
  | enqueue a x _ ih =>
    obtain ⟨L, hL⟩ := ih
    by_cases hc : a.allocSize = 0
    · rw [hL.enqueue_zero hc]; exact ⟨L, hL⟩
    · have hpos : 0 < a.allocSize := by
        have := hL.cap
        have := hL.count
        omega
      by_cases hov : a.numitems = a.allocSize ∧ INT_MAX < 2 * a.allocSize
      · rw [AQueue.enqueue_overflow hov.1 hov.2]
        exact ⟨L, hL⟩
      · exact ⟨_, (hL.enqueue_inv hpos (fun hf => not_lt.1 (fun hlt => hov ⟨hf, hlt⟩)) x).2.1⟩
  | dequeue a _ ih =>
    obtain ⟨L, hL⟩ := ih
    cases L with
    | nil => rw [hL.dequeue_nil_inv]; exact ⟨[], hL⟩
    | cons y rest => exact ⟨rest, hL.dequeue_cons_inv.2.1⟩
  | clear a _ ih =>
    obtain ⟨L, hL⟩ := ih
    exact ⟨[], hL.clear_inv.2⟩

theorem AQueue.Inv.reads_inv {a : AQueue} {L : List Int} (h : a.Inv L) : a.Reads L := by
  refine ⟨h.count, ?_⟩
  intro i
  rw [h.at_lt_inv i.val i.isLt]
  simp

theorem AQueue.Inv.length_eq_inv {a : AQueue} {L : List Int} (h : a.Inv L) :
    a.length = L.length := h.count

/-! ### Both classes at once -/

theorem Queue.Reachable.abs : ∀ {Q : Queue}, Q.Reachable → ∃ L, Q.Abs L
  | .ofAQueue _, h => AQueue.Reachable.inv h
  | .ofLQueue _, h => by
    obtain ⟨cells, hr⟩ := LQueue.Reachable.rep h
    exact ⟨_, cells, hr, rfl⟩

theorem Queue.Abs.length_eq_abs : ∀ {Q : Queue} {L : List Int}, Q.Abs L → Q.length = L.length
  | .ofAQueue _, _, h => h.count
  | .ofLQueue _, _, ⟨cells, hr, hL⟩ => by
    subst hL
    simpa using hr.count

theorem Queue.Abs.isEmpty_iff_abs : ∀ {Q : Queue} {L : List Int}, Q.Abs L →
    (Q.isEmpty = true ↔ L = [])
  | .ofAQueue _, _, h => AQueue.Inv.isEmpty_iff_inv h
  | .ofLQueue _, _, ⟨cells, hr, hL⟩ => by
    subst hL
    simpa using hr.isEmpty_iff_rep

theorem Queue.Abs.at_lt_abs : ∀ {Q : Queue} {L : List Int}, Q.Abs L → ∀ (i : Nat) (hi : i < L.length),
    Q.at (i : Int) = .ok L[i]
  | .ofAQueue _, _, h, i, hi => AQueue.Inv.at_lt_inv h i hi
  | .ofLQueue _, _, ⟨cells, hr, hL⟩, i, hi => by
    subst hL
    have hi' : i < cells.length := by simpa using hi
    simpa using hr.at_lt_rep i hi'

theorem Queue.Abs.front_nil_abs : ∀ {Q : Queue}, Q.Abs [] →
    ∃ str, Q.front = .error (.EmptyQueueException str)
  | .ofAQueue _, h => ⟨_, AQueue.Inv.front_nil_inv h⟩
  | .ofLQueue _, ⟨cells, hr, hL⟩ => by
    have : cells = [] := by simpa using hL
    subst this
    exact ⟨_, hr.front_nil_rep⟩

theorem Queue.Abs.front_cons_abs : ∀ {Q : Queue} {x : Int} {L : List Int}, Q.Abs (x :: L) →
    Q.front = .ok x
  | .ofAQueue _, _, _, h => AQueue.Inv.front_cons_inv h
  | .ofLQueue _, x, L, ⟨cells, hr, hL⟩ => by
    cases cells with
    | nil => simp at hL
    | cons c rest =>
      simp only [List.map_cons, List.cons.injEq] at hL
      rw [← hL.1]
      exact hr.front_cons_rep

theorem Queue.Abs.dequeue_nil_abs : ∀ {Q : Queue}, Q.Abs [] →
    ∃ str, Q.dequeue = { state := Q, error := some (.EmptyQueueException str) }
  | .ofAQueue _, h =>
    ⟨"Aqueue<T>::dequeue()", by simp [Queue.dequeue, AQueue.Inv.dequeue_nil_inv h, Outcome.map]⟩
  | .ofLQueue _, ⟨cells, hr, hL⟩ => by
    have : cells = [] := by simpa using hL
    subst this
    exact ⟨"LQueue<T>::dequeue()", by simp [Queue.dequeue, hr.dequeue_nil_rep, Outcome.map]⟩

theorem Queue.Abs.dequeue_cons_abs : ∀ {Q : Queue} {x : Int} {L : List Int}, Q.Abs (x :: L) →
    Q.dequeue.error = none ∧ Q.dequeue.state.Abs L
  | .ofAQueue _, _, _, h => ⟨(AQueue.Inv.dequeue_cons_inv h).1, (AQueue.Inv.dequeue_cons_inv h).2.1⟩
  | .ofLQueue _, x, L, ⟨cells, hr, hL⟩ => by
    cases cells with
    | nil => simp at hL
    | cons c rest =>
      simp only [List.map_cons, List.cons.injEq] at hL
      exact ⟨hr.dequeue_cons_rep.1, rest, hr.dequeue_cons_rep.2, hL.2⟩

theorem Queue.Abs.enqueue_abs : ∀ {Q : Queue} {L : List Int}, Q.Abs L →
    (∀ a, Q = .ofAQueue a → 1 ≤ a.allocSize) →
    (∀ a, Q = .ofAQueue a → a.numitems = a.allocSize → 2 * a.allocSize ≤ INT_MAX) → ∀ x : Int,
    (Q.enqueue x).error = none ∧ (Q.enqueue x).state.Abs (L ++ [x])
  | .ofAQueue a, _, h, hcap, hov, x => by
    have hc : 0 < a.allocSize := by have := hcap a rfl; omega
    exact ⟨(AQueue.Inv.enqueue_inv h hc (hov a rfl) x).1,
      (AQueue.Inv.enqueue_inv h hc (hov a rfl) x).2.1⟩
  | .ofLQueue _, _, ⟨cells, hr, hL⟩, _, _, x => by
    subst hL
    exact ⟨(hr.enqueue_rep x).1, _, (hr.enqueue_rep x).2, by simp⟩

theorem Queue.Abs.clear_abs : ∀ {Q : Queue} {L : List Int}, Q.Abs L →
    Q.clear.error = none ∧ Q.clear.state.Abs []
  | .ofAQueue _, _, h => AQueue.Inv.clear_inv h
  | .ofLQueue _, _, ⟨_, hr, _⟩ => ⟨hr.clear_rep.1, [], hr.clear_rep.2, rfl⟩

theorem testAQueue_reachable : AQueue.Reachable testAQueue :=
  .enqueue _ 3 (.dequeue _ (.enqueue _ 2 (.enqueue _ 1 (.new 2 _ rfl))))

theorem testQueue2_reachable : LQueue.Reachable testQueue2 :=
  .priorityEnqueue _ _ (.priorityEnqueue _ _ .new)

/-! ### Runs of calls, equality, construction -/

theorem Queue.Abs.enqueue_cap : ∀ {Q : Queue} {L : List Int}, Q.Abs L →
    (∀ a, Q = .ofAQueue a → 1 ≤ a.allocSize) →
    (∀ a, Q = .ofAQueue a → a.numitems = a.allocSize → 2 * a.allocSize ≤ INT_MAX) → ∀ x : Int,
    ∀ a', (Q.enqueue x).state = .ofAQueue a' → 1 ≤ a'.allocSize
  | .ofAQueue a, _, h, hcap, hov, x, a', he => by
    have hc : 0 < a.allocSize := by have := hcap a rfl; omega
    have h3 := (AQueue.Inv.enqueue_inv h hc (hov a rfl) x).2.2
    simp only [Queue.enqueue, Outcome.map, Queue.ofAQueue.injEq] at he
    rw [← he, h3]
    split_ifs <;> omega
  | .ofLQueue _, _, _, _, _, x, a', he => by
    simp [Queue.enqueue, Outcome.map] at he

theorem Queue.enqueue_overflow_abs : ∀ {Q : Queue},
    ¬ (∀ a, Q = .ofAQueue a → a.numitems = a.allocSize → 2 * a.allocSize ≤ INT_MAX) →
    ∀ x : Int, Q.enqueue x = { state := Q, error := some .UndefinedBehaviour }
  | .ofAQueue a, hov, x => by
    have h : a.numitems = a.allocSize ∧ INT_MAX < 2 * a.allocSize := by
      by_contra hn
      apply hov
      intro a' he hf
      simp only [Queue.ofAQueue.injEq] at he
      subst he
      exact not_lt.1 (fun hlt => hn ⟨hf, hlt⟩)
    simp only [Queue.enqueue, AQueue.enqueue_overflow h.1 h.2, Outcome.map]
  | .ofLQueue _, hov, _ => by
    exact absurd (fun a he => by simp at he) hov

theorem Queue.Abs.dequeue_cap : ∀ {Q : Queue} {L : List Int}, Q.Abs L →
    (∀ a, Q = .ofAQueue a → 1 ≤ a.allocSize) →
    ∀ a', Q.dequeue.state = .ofAQueue a' → 1 ≤ a'.allocSize
  | .ofAQueue a, L, h, hcap, a', he => by
    have hc := hcap a rfl
    simp only [Queue.dequeue, Outcome.map, Queue.ofAQueue.injEq] at he
    cases L with
    | nil =>
      rw [AQueue.Inv.dequeue_nil_inv h] at he
      rw [← he]; exact hc
    | cons y rest =>
      rw [← he, (AQueue.Inv.dequeue_cons_inv h).2.2.1]; exact hc
  | .ofLQueue _, _, _, _, a', he => by
    simp [Queue.dequeue, Outcome.map] at he

theorem Step.enqueues_cons (s : Step) (rest : List Step) :
    Step.enqueues (s :: rest) = (if s = Step.dequeue then 0 else 1) + Step.enqueues rest := by
  unfold Step.enqueues
  rw [List.countP_cons]
  by_cases h : s = Step.dequeue <;> simp [h]
  omega

theorem Step.dequeues_cons (s : Step) (rest : List Step) :
    Step.dequeues (s :: rest) = (if s = Step.dequeue then 1 else 0) + Step.dequeues rest := by
  unfold Step.dequeues
  rw [List.countP_cons]
  by_cases h : s = Step.dequeue <;> simp [h]
  omega

theorem Queue.steps_abs : ∀ (steps : List Step) (Q Q' : Queue) (L : List Int), Q.Abs L →
    (∀ a, Q = .ofAQueue a → 1 ≤ a.allocSize) → Q.steps steps = some Q' →
    ∃ L', Q'.Abs L' ∧ (∀ a, Q' = .ofAQueue a → 1 ≤ a.allocSize) ∧
      (L'.length : Int) = L.length + Step.enqueues steps - Step.dequeues steps
  | [], Q, Q', L, hL, hcap, hrun => by
    simp only [Queue.steps, Option.some.injEq] at hrun
    subst hrun
    exact ⟨L, hL, hcap, by simp [Step.enqueues, Step.dequeues]⟩
  | .enqueue x :: rest, Q, Q', L, hL, hcap, hrun => by
    by_cases hov : ∀ a, Q = .ofAQueue a → a.numitems = a.allocSize → 2 * a.allocSize ≤ INT_MAX
    swap
    · simp [Queue.steps, Queue.step, Queue.enqueue_overflow_abs hov x] at hrun
    obtain ⟨herr, hL1⟩ := hL.enqueue_abs hcap hov x
    simp only [Queue.steps, Queue.step, herr, if_true] at hrun
    obtain ⟨L', h1, h2, h3⟩ := Queue.steps_abs rest _ Q' _ hL1 (hL.enqueue_cap hcap hov x) hrun
    refine ⟨L', h1, h2, ?_⟩
    rw [h3, Step.enqueues_cons, Step.dequeues_cons]
    simp
    omega
  | .enqueueJob job :: rest, .ofAQueue a, Q', L, hL, hcap, hrun => by
    simp [Queue.steps, Queue.step] at hrun
  | .enqueueJob job :: rest, .ofLQueue q, Q', L, ⟨cells, hr, hcL⟩, hcap, hrun => by
    obtain ⟨herr, hr1⟩ := PriorityQueues.Rep_enqueue hr job
    simp only [Queue.steps, Queue.step, Outcome.map, herr, if_true] at hrun
    obtain ⟨L', h1, h2, h3⟩ := Queue.steps_abs rest _ Q' _ (show Queue.Abs (.ofLQueue _) _ from
      ⟨_, hr1, rfl⟩) (by intro a ha; simp at ha) hrun
    refine ⟨L', h1, h2, ?_⟩
    rw [h3, Step.enqueues_cons, Step.dequeues_cons, ← hcL]
    simp [insertCell_length]
    omega
  | .dequeue :: rest, Q, Q', L, hL, hcap, hrun => by
    cases L with
    | nil =>
      obtain ⟨str, hd⟩ := hL.dequeue_nil_abs
      simp [Queue.steps, Queue.step, hd] at hrun
    | cons y tl =>
      obtain ⟨herr, hL1⟩ := hL.dequeue_cons_abs
      simp only [Queue.steps, Queue.step, herr, if_true] at hrun
      obtain ⟨L', h1, h2, h3⟩ := Queue.steps_abs rest _ Q' _ hL1 (hL.dequeue_cap hcap) hrun
      refine ⟨L', h1, h2, ?_⟩
      rw [h3, Step.enqueues_cons, Step.dequeues_cons]
      simp
      omega

theorem Queue.eqLoop_abs {Q1 Q2 : Queue} {L1 L2 : List Int} (h1 : Q1.Abs L1) (h2 : Q2.Abs L2)
    (hlen : L1.length = L2.length) : ∀ (count j : Nat), j + count = L1.length →
    Queue.eqLoop Q1 Q2 count (j : Int) = .ok (decide (L1.drop j = L2.drop j))
  | 0, j, hj => by
    have e1 : L1.drop j = [] := List.drop_of_length_le (by omega)
    have e2 : L2.drop j = [] := List.drop_of_length_le (by omega)
    simp [Queue.eqLoop, e1, e2]
  | count + 1, j, hj => by
    have hj1 : j < L1.length := by omega
    have hj2 : j < L2.length := by omega
    have hcast : (j : Int) + 1 = ((j + 1 : Nat) : Int) := by push_cast; rfl
    have ih := Queue.eqLoop_abs h1 h2 hlen count (j + 1) (by omega)
    have hd : L1.drop j = L2.drop j ↔ (L1[j] = L2[j] ∧ L1.drop (j + 1) = L2.drop (j + 1)) := by
      rw [List.drop_eq_getElem_cons hj1, List.drop_eq_getElem_cons hj2, List.cons.injEq]
    simp only [Queue.eqLoop, h1.at_lt_abs j hj1, h2.at_lt_abs j hj2, bind, Except.bind, pure,
      Except.pure, hcast, ih]
    by_cases hx : L1[j] = L2[j]
    · have : ¬ L1[j] ≠ L2[j] := fun h => h hx
      rw [if_neg this]
      congr 1
      simp only [decide_eq_decide]
      rw [hd]
      exact ⟨fun h => ⟨hx, h⟩, fun h => h.2⟩
    · have hne : ¬ L1.drop j = L2.drop j := fun h => hx (hd.1 h).1
      rw [if_pos hx]
      simp [hne]

theorem Queue.operatorEq_abs {Q1 Q2 : Queue} {L1 L2 : List Int} (h1 : Q1.Abs L1)
    (h2 : Q2.Abs L2) : Q1.operatorEq Q2 = .ok (decide (L1 = L2)) := by
  have e1 := h1.length_eq_abs
  have e2 := h2.length_eq_abs
  unfold Queue.operatorEq
  by_cases hlen : L1.length = L2.length
  · have hq : ¬ Q1.length ≠ Q2.length := by rw [e1, e2, hlen]; simp
    have hn : Q1.length.toNat = L1.length := by rw [e1]; simp
    have := Queue.eqLoop_abs h1 h2 hlen L1.length 0 (by omega)
    simp only [Nat.cast_zero, List.drop_zero] at this
    rw [if_neg hq, hn, this]
  · have hq : Q1.length ≠ Q2.length := by
      rw [e1, e2]
      exact_mod_cast hlen
    have hne : L1 ≠ L2 := fun h => hlen (by rw [h])
    simp [hq, hne]

theorem LQueue.enqueueAll_rep : ∀ (xs : List Int) {q : LQueue} {cells : List (Nat × Int)},
    q.Rep cells →
    ∃ cells', (LQueue.enqueueAll q xs).Rep cells' ∧ cells'.map Prod.snd = cells.map Prod.snd ++ xs
  | [], q, cells, hr => ⟨cells, hr, by simp⟩
  | x :: xs, q, cells, hr => by
    obtain ⟨cells', h1, h2⟩ := LQueue.enqueueAll_rep xs (hr.enqueue_rep x).2
    exact ⟨cells', h1, by simp [h2]⟩

theorem AQueue.copyLoop_ok (initItems : List Int) : ∀ (count : Nat) (pre : List (Option Int)),
    pre.length + count ≤ initItems.length →
    ∃ result, AQueue.copyLoop initItems count (pre.length : Int)
      (pre ++ List.replicate count none) = .ok result
  | 0, pre, _ => ⟨_, rfl⟩
  | count + 1, pre, hle => by
    have hj : pre.length < initItems.length := by omega
    have hread : readSlot (initItems.map some) (pre.length : Int) = .ok initItems[pre.length] :=
      readSlot_ok (by omega) (by simp [List.getElem?_eq_getElem hj])
    have hwrite : writeSlot (pre ++ List.replicate (count + 1) none) (pre.length : Int)
        initItems[pre.length]
        = .ok ((pre ++ [some initItems[pre.length]]) ++ List.replicate count none) := by
      rw [writeSlot_ok _ (by omega) (by simp)]
      simp only [Int.toNat_ofNat, List.replicate_succ]
      rw [set_append_cons_length]
      simp
    have hcast : (pre.length : Int) + 1
        = (((pre ++ [some initItems[pre.length]]).length : Nat) : Int) := by simp
    obtain ⟨result, hres⟩ := AQueue.copyLoop_ok initItems count
      (pre ++ [some initItems[pre.length]]) (by simp; omega)
    refine ⟨result, ?_⟩
    simp only [AQueue.copyLoop, hread, hwrite, bind, Except.bind]
    rw [hcast]
    exact hres

theorem AQueue.ofArray_ok (initItems : List Int) :
    ∃ a, AQueue.ofArray initItems initItems.length = .ok a ∧ a.Inv initItems := by
  obtain ⟨result, hres⟩ := AQueue.copyLoop_ok initItems initItems.length [] (by simp)
  have hnn : ¬ (initItems.length : Int) < 0 := by omega
  have hex : ∃ a, AQueue.ofArray initItems initItems.length = .ok a := by
    simp only [List.length_nil, Nat.cast_zero, List.nil_append] at hres
    simp only [AQueue.ofArray, newIntArray, hnn, if_false, Int.toNat_ofNat, hres, bind,
      Except.bind, pure, Except.pure]
    exact ⟨_, rfl⟩
  obtain ⟨a, ha⟩ := hex
  have hinv := (AQueue.Inv.ofArray ha).2.2
  simp only [Int.toNat_ofNat, List.take_length] at hinv
  exact ⟨a, ha, hinv⟩

/-! ### Structure of the chain and of the buffer -/

theorem LQueue.walk_chain_end {h : Heap} : ∀ {cells : List (Nat × Int)} {p : Option Nat},
    h.Chain p cells → LQueue.walk h cells.length p = .ok none
  | [], p, hp => by
    have : p = none := hp
    simp [LQueue.walk, this]
  | c :: rest, p, ⟨hp, nxt, hc, hrest⟩ => by
    simp only [List.length_cons, LQueue.walk, hp, Heap.read_some hc, bind, Except.bind]
    exact LQueue.walk_chain_end hrest

theorem Heap.Chain.last_link {h : Heap} : ∀ {cells : List (Nat × Int)} {p : Option Nat} {b : Nat},
    h.Chain p cells → (cells.map Prod.fst).getLast? = some b →
    ∃ x, h[b]? = some (some ⟨x, none⟩)
  | [], _, _, _, hb => by simp at hb
  | [c], p, b, ⟨_, nxt, hc, hrest⟩, hb => by
    simp at hb
    subst hb
    have hn : nxt = none := hrest
    subst hn
    exact ⟨c.2, hc⟩
  | c :: d :: rest, p, b, ⟨_, nxt, _, hrest⟩, hb => by
    have hb' : ((d :: rest).map Prod.fst).getLast? = some b := by
      simpa [List.getLast?_cons_cons] using hb
    exact Heap.Chain.last_link hrest hb'

theorem LQueue.Rep.front_none_iff {q : LQueue} {cells : List (Nat × Int)} (hr : q.Rep cells) :
    q.queueFront = none ↔ cells = [] := by
  cases cells with
  | nil => exact ⟨fun _ => rfl, fun _ => hr.chain⟩
  | cons c rest =>
    have hf : q.queueFront = some c.1 := hr.chain.1
    simp [hf]

theorem LQueue.Rep.back_none_iff {q : LQueue} {cells : List (Nat × Int)} (hr : q.Rep cells) :
    q.queueBack = none ↔ cells = [] := by
  rw [hr.back]
  simp

theorem LQueue.Rep.walk_back {q : LQueue} {cells : List (Nat × Int)} (hr : q.Rep cells)
    (hne : cells ≠ []) :
    LQueue.walk q.store (cells.length - 1) q.queueFront = .ok q.queueBack ∧
      ∃ node, q.store.read q.queueBack = .ok node ∧ node.link = none := by
  have hpos : 0 < cells.length := List.length_pos.2 hne
  obtain ⟨hw, _, _⟩ := LQueue.walk_chain (cells.length - 1) (by omega) hr.chain
  have hlast : (cells.map Prod.fst).getLast? = some cells[cells.length - 1].1 := by
    rw [List.getLast?_eq_getElem?]
    simp [List.getElem?_eq_getElem (show cells.length - 1 < cells.length by omega)]
  obtain ⟨x, hx⟩ := Heap.Chain.last_link hr.chain hlast
  rw [hr.back, hlast]
  exact ⟨hw, _, Heap.read_some hx, rfl⟩

theorem AQueue.Inv.enqueue_full {a : AQueue} {L : List Int} (h : a.Inv L) (hc : 0 < a.allocSize)
    (hfull : a.numitems = a.allocSize) (hov : 2 * a.allocSize ≤ INT_MAX) (x : Int) :
    a.enqueue x =
      { state := { allocSize := 2 * a.allocSize, numitems := a.numitems + 1, frontIndex := 0,
                   backIndex := (L.length : Int),
                   items := (L ++ [x]).map some ++ List.replicate (L.length - 1) none },
        error := none } := by
  have hcount := h.count
  have hn1 : 1 ≤ L.length := by omega
  have hmod : cMod (a.numitems - 1 + 1) (2 * a.allocSize) = .ok (L.length : Int) := by
    have e : a.numitems - 1 + 1 = (L.length : Int) := by omega
    rw [e, cMod_of_nonneg (by omega) (by omega), Int.emod_eq_of_lt (by omega) (by omega)]
  have hitems : L.map some ++ List.replicate L.length none
      = L.map some ++ none :: List.replicate (L.length - 1) none := by
    obtain ⟨k, hk⟩ : ∃ k, L.length = k + 1 := ⟨L.length - 1, by omega⟩
    rw [hk, List.replicate_succ]
    simp
  have hwrite : writeSlot (L.map some ++ List.replicate L.length none) (L.length : Int) x
      = .ok ((L ++ [x]).map some ++ List.replicate (L.length - 1) none) := by
    rw [writeSlot_ok _ (by omega) (by simp; omega), Int.toNat_ofNat, hitems,
      set_append_cons_of_length (by simp)]
    simp
  simp only [AQueue.enqueue, h.grow_full hc hfull hov, hmod, hwrite, bind, Except.bind, pure,
    Except.pure]

theorem AQueue.new_allocSize {initialAlloc : Int} {a : AQueue}
    (h : AQueue.new initialAlloc = .ok a) : a.allocSize = initialAlloc := by
  unfold AQueue.new newIntArray at h
  by_cases hneg : initialAlloc < 0
  · simp [hneg, bind, Except.bind] at h
  · simp only [hneg, if_false, bind, Except.bind, pure, Except.pure, Except.ok.injEq] at h
    subst h
    rfl

theorem Queue.Abs.nil_of_isEmpty {Q : Queue} {L : List Int} (h : Q.Abs L)
    (he : Q.isEmpty = true) : Q.Abs [] := by
  have := h.isEmpty_iff_abs.1 he
  subst this
  exact h

/-! ### Rendering, jobs, and the ends of the priority queue -/

theorem LQueue.tostringLoop_chain {h : Heap} : ∀ {cells : List (Nat × Int)} {p : Option Nat}
    (fuel : Nat) (out : String), cells.length < fuel → h.Chain p cells →
    LQueue.tostringLoop fuel h p out = .ok (out ++ renderItems (cells.map Prod.snd))
  | _, _, 0, _, hlt, _ => by omega
  | [], p, fuel + 1, out, _, hp => by
    have hn : p = none := hp
    simp [LQueue.tostringLoop, hn, renderItems]
  | c :: rest, p, fuel + 1, out, hlt, ⟨hp, nxt, hc, hrest⟩ => by
    have hlt' : rest.length < fuel := by simpa using hlt
    simp only [LQueue.tostringLoop, hp, Heap.read_some hc, bind, Except.bind]
    rw [LQueue.tostringLoop_chain fuel _ hlt' hrest]
    simp only [List.map_cons, renderItems, String.append_assoc]

theorem LQueue.Rep.length_le_store {q : LQueue} {cells : List (Nat × Int)} (hr : q.Rep cells) :
    cells.length ≤ q.store.length := by
  have h1 := Heap.Chain.lt hr.chain
  have hsub : cells.map Prod.fst ⊆ List.range q.store.length := fun a ha =>
    List.mem_range.2 (h1 a ha)
  have := (List.subperm_of_subset hr.nodup hsub).length_le
  simpa using this

theorem LQueue.Rep.tostring_rep {q : LQueue} {cells : List (Nat × Int)} (hr : q.Rep cells) :
    q.tostring = .ok (renderQueue (cells.map Prod.snd)) := by
  have hlt : cells.length < q.store.length + 1 := by
    have := hr.length_le_store
    omega
  simp only [LQueue.tostring, LQueue.tostringLoop_chain _ _ hlt hr.chain, bind, Except.bind,
    pure, Except.pure, renderQueue]

theorem Job.new_ok {n : Int} (p s t : Int) (h1 : INT_MIN ≤ n) (h2 : n < INT_MAX) :
    Job.new n p s t
      = .ok ({ id := n, priority := p, serviceTime := s, startTime := t, endTime := t },
             n + 1) := by
  simp only [Job.new, intValue_ok (show INT_MIN ≤ n + 1 by omega) (show n + 1 ≤ INT_MAX by omega),
    bind, Except.bind, pure, Except.pure]

theorem Job.new_overflow {n : Int} (p s t : Int) (h : INT_MAX ≤ n) :
    Job.new n p s t = .error .UndefinedBehaviour := by
  simp only [Job.new, intValue_overflow (show INT_MAX < n + 1 by omega), bind, Except.bind]

theorem Job.newSeq_spec : ∀ (args : List (Int × Int × Int)) (n : Int), INT_MIN ≤ n →
    n + args.length ≤ INT_MAX →
    ∃ jobs, Job.newSeq n args = .ok (jobs, n + args.length) ∧ jobs.length = args.length ∧
      ∀ (k : Nat) (hk : k < jobs.length),
        (jobs[k]).id = n + k ∧
        ∃ hk' : k < args.length,
          (jobs[k]).priority = args[k].1 ∧
          (jobs[k]).serviceTime = args[k].2.1 ∧
          (jobs[k]).startTime = args[k].2.2
  | [], n, _, _ => ⟨[], by simp [Job.newSeq, pure, Except.pure], rfl, by simp⟩
  | (p, s, t) :: rest, n, h1, h2 => by
    have hlen : ((((p, s, t) :: rest).length : Nat) : Int) = (rest.length : Int) + 1 := by
      simp
    obtain ⟨jobs, e, hl, h3⟩ := Job.newSeq_spec rest (n + 1) (by omega) (by omega)
    refine ⟨{ id := n, priority := p, serviceTime := s, startTime := t, endTime := t } :: jobs,
      ?_, by simp [hl], ?_⟩
    · simp only [Job.newSeq, Job.new_ok p s t h1 (show n < INT_MAX by omega), e, bind,
        Except.bind, pure, Except.pure]
      have e2 : n + 1 + (rest.length : Int) = n + ((rest.length : Int) + 1) := by ring
      rw [hlen, e2]
    · intro k hk
      cases k with
      | zero => simp
      | succ k =>
        have hk' : k < jobs.length := by simpa using hk
        obtain ⟨e1, hk2, e2, e3, e4⟩ := h3 k hk'
        simp only [List.getElem_cons_succ]
        refine ⟨?_, by simpa using hk2, e2, e3, e4⟩
        rw [e1]
        push_cast
        ring

theorem Job.newSeq_overflow : ∀ (args : List (Int × Int × Int)) (n : Int), INT_MIN ≤ n →
    n ≤ INT_MAX → INT_MAX < n + args.length →
    Job.newSeq n args = .error .UndefinedBehaviour
  | [], n, _, h2, h3 => by
    simp at h3
    omega
  | (p, s, t) :: rest, n, h1, h2, h3 => by
    have hlen : ((((p, s, t) :: rest).length : Nat) : Int) = (rest.length : Int) + 1 := by
      simp
    by_cases hn : n = INT_MAX
    · simp only [Job.newSeq, Job.new_overflow p s t (le_of_eq hn.symm), bind, Except.bind]
    · have e := Job.newSeq_overflow rest (n + 1) (by omega) (by omega) (by omega)
      simp only [Job.newSeq, Job.new_ok p s t h1 (show n < INT_MAX by omega), e, bind,
        Except.bind]

theorem AQueue.Inv.dequeue_state {a : AQueue} {x : Int} {L : List Int} (h : a.Inv (x :: L)) :
    a.dequeue = { state := { a with numitems := a.numitems - 1,
                                    frontIndex := (a.frontIndex + 1) % a.allocSize },
                  error := none } := by
  have hne : a.isEmpty = false := by
    cases he : a.isEmpty with
    | false => rfl
    | true => exact absurd (h.isEmpty_iff_inv.1 he) (by simp)
  have hcount := h.count
  have hcap := h.cap
  have hfl := h.frontLo
  simp only [List.length_cons] at hcount
  push_cast at hcount
  have hc : 0 < a.allocSize := by omega
  simp only [AQueue.dequeue, hne, cMod_of_nonneg (show 0 ≤ a.frontIndex + 1 by omega) hc, bind,
    Except.bind, pure, Except.pure]
  rfl

theorem AQueue.Inv.back_range {a : AQueue} {L : List Int} (h : a.Inv L)
    (hc : 0 < a.allocSize) : 0 ≤ a.backIndex ∧ a.backIndex < a.allocSize := by
  rw [h.back (by omega)]
  exact ⟨Int.emod_nonneg _ (by omega), Int.emod_lt_of_pos _ hc⟩

theorem AQueue.Inv.enqueue_notFull {a : AQueue} {L : List Int} (h : a.Inv L)
    (hfull : a.numitems ≠ a.allocSize) (x : Int) :
    a.enqueue x = { state := { a with backIndex := (a.backIndex + 1) % a.allocSize,
                                      numitems := a.numitems + 1,
                                      items := a.items.set
                                        ((a.backIndex + 1) % a.allocSize).toNat (some x) },
                    error := none } := by
  have hcount := h.count
  have hcap := h.cap
  have hsize := h.size
  have hc : 0 < a.allocSize := by omega
  have hb := h.back_range hc
  have hs0 : 0 ≤ (a.backIndex + 1) % a.allocSize := Int.emod_nonneg _ (by omega)
  have hs1 : (a.backIndex + 1) % a.allocSize < a.allocSize := Int.emod_lt_of_pos _ hc
  have hwrite : writeSlot a.items ((a.backIndex + 1) % a.allocSize) x
      = .ok (a.items.set ((a.backIndex + 1) % a.allocSize).toNat (some x)) :=
    writeSlot_ok _ hs0 (by omega)
  simp only [AQueue.enqueue, AQueue.Inv.grow_notFull hfull,
    cMod_of_nonneg (show 0 ≤ a.backIndex + 1 by omega) hc, hwrite, bind, Except.bind,
    pure, Except.pure]

theorem testAQueueWrapped_reachable : AQueue.Reachable testAQueueWrapped :=
  .enqueue _ 4 (.dequeue _ (.dequeue _ (.enqueue _ 3 (.enqueue _ 2 (.enqueue _ 1
    (.new 3 _ rfl))))))

/-! ### Runs of priority enqueues and draining -/

theorem PriorityQueues.enqueueJobs_reachable : ∀ (jobs : List Job) {q : PriorityQueues},
    PriorityQueues.Reachable q → PriorityQueues.Reachable (PriorityQueues.enqueueJobs q jobs)
  | [], _, h => h
  | job :: rest, q, h => PriorityQueues.enqueueJobs_reachable rest (.enqueue q job h)

theorem Queue.Abs.full_bound : ∀ {Q : Queue} {L : List Int}, Q.Abs L →
    2 * (L.length : Int) ≤ INT_MAX →
    ∀ a, Q = .ofAQueue a → a.numitems = a.allocSize → 2 * a.allocSize ≤ INT_MAX
  | .ofAQueue _, _, h, hov, a, he, hfull => by
    simp only [Queue.ofAQueue.injEq] at he
    subst he
    rw [← hfull, h.count]
    exact hov
  | .ofLQueue _, _, _, _, a, he, _ => by simp at he

theorem JobSchedulerSimulator.randomRange_ok {r minValue maxValue : Int}
    (hmin : INT_MIN ≤ minValue) (hmax : maxValue ≤ INT_MAX) (hle : minValue ≤ maxValue)
    (hrange : maxValue - minValue + 1 ≤ INT_MAX) (hr : 0 ≤ r) :
    JobSchedulerSimulator.randomRange r minValue maxValue
      = .ok (r % (maxValue - minValue + 1) + minValue) ∧
    minValue ≤ r % (maxValue - minValue + 1) + minValue ∧
    r % (maxValue - minValue + 1) + minValue ≤ maxValue := by
  have hI : INT_MIN ≤ 0 := by decide
  have hpos : 0 < maxValue - minValue + 1 := by omega
  have h0 : 0 ≤ r % (maxValue - minValue + 1) := Int.emod_nonneg _ (by omega)
  have h1 : r % (maxValue - minValue + 1) < maxValue - minValue + 1 := Int.emod_lt_of_pos _ hpos
  refine ⟨?_, by omega, by omega⟩
  simp only [JobSchedulerSimulator.randomRange,
    intValue_ok (show INT_MIN ≤ maxValue - minValue by omega)
      (show maxValue - minValue ≤ INT_MAX by omega),
    intValue_ok (show INT_MIN ≤ maxValue - minValue + 1 by omega) hrange,
    cMod_of_nonneg hr hpos,
    intValue_ok (show INT_MIN ≤ r % (maxValue - minValue + 1) + minValue by omega)
      (show r % (maxValue - minValue + 1) + minValue ≤ INT_MAX by omega),
    bind, Except.bind, pure, Except.pure]

/-! ### Where the new node is linked -/

theorem AQueue.ofArray_sizes {initItems : List Int} {numitems : Int} {a : AQueue}
    (h : AQueue.ofArray initItems numitems = .ok a) :
    a.allocSize = numitems ∧ a.numitems = numitems := by
  unfold AQueue.ofArray newIntArray at h
  by_cases hneg : numitems < 0
  · simp [hneg, bind, Except.bind] at h
  · simp only [hneg, if_false, bind, Except.bind, pure, Except.pure] at h
    cases hloop : AQueue.copyLoop initItems numitems.toNat 0
        (List.replicate numitems.toNat none) with
    | error e =>
      rw [hloop] at h
      simp at h
    | ok r =>
      rw [hloop] at h
      simp only [Except.ok.injEq] at h
      subst h
      exact ⟨rfl, rfl⟩

theorem AQueue.ofArray_full_overflow (initItems : List Int)
    (hov : INT_MAX < 2 * (initItems.length : Int)) :
    ∃ a, AQueue.ofArray initItems initItems.length = .ok a ∧ a.Reachable ∧ a.Inv initItems ∧
      a.allocSize = initItems.length ∧ a.numitems = a.allocSize ∧
      ∀ x : Int, a.enqueue x = { state := a, error := some .UndefinedBehaviour } := by
  obtain ⟨a, ha, hinv⟩ := AQueue.ofArray_ok initItems
  obtain ⟨h1, h2⟩ := AQueue.ofArray_sizes ha
  refine ⟨a, ha, .ofArray _ _ a ha, hinv, h1, by rw [h1, h2], fun x => ?_⟩
  exact AQueue.enqueue_overflow (by rw [h1, h2]) (by rw [h1]; exact hov) x

/-- C1 (ordering invariant).  In every state reachable from an empty
`PriorityQueues` by `enqueue(Job)`, `dequeue()` and `clear()`, for every index
`i` with `0 ≤ i` and `i + 1 < length()` the reads `at(i)` and `at(i+1)` both
return, and `at(i) ≥ at(i+1)`: read front to back the priorities never
increase. -/
theorem C1_priority_order_invariant (q : PriorityQueues) (hq : PriorityQueues.Reachable q)
    (i : Int) (h0 : 0 ≤ i) (h1 : i + 1 < LQueue.length q) :
    ∃ a b, LQueue.at q i = .ok a ∧ LQueue.at q (i + 1) = .ok b ∧ a ≥ b := by
  obtain ⟨cells, hr, hs⟩ := hq.rep_sorted
  obtain ⟨n, rfl⟩ := Int.eq_ofNat_of_zero_le h0
  have hlen : (n : Int) + 1 < cells.length := by rw [← hr.length_eq_rep]; exact h1
  have hn1 : n + 1 < cells.length := by exact_mod_cast hlen
  have hn : n < cells.length := by omega
  refine ⟨cells[n].2, cells[n + 1].2, hr.at_lt_rep n hn, ?_, ?_⟩
  · have := hr.at_lt_rep (n + 1) hn1
    simpa using this
  · have hp := List.pairwise_iff_getElem.1 hs n (n + 1) (by simpa using hn) (by simpa using hn1)
      (Nat.lt_succ_self n)
    simpa using hp

/-- Witness for C1: the test queue holding the priorities 10 and 5 is
reachable, and its indices 0 and 1 are read in non-increasing order. -/
theorem C1_priority_order_invariant_witness :
    PriorityQueues.Reachable testQueue2 ∧ (0 : Int) ≤ 0 ∧ (0 : Int) + 1 < LQueue.length testQueue2 ∧
    ∃ a b, LQueue.at testQueue2 0 = .ok a ∧ LQueue.at testQueue2 (0 + 1) = .ok b ∧ a ≥ b :=
  ⟨.enqueue _ _ (.enqueue _ _ .new), by decide, by decide,
    C1_priority_order_invariant testQueue2
      (.enqueue _ _ (.enqueue _ _ .new)) 0 (by decide) (by decide)⟩

/-- C4 (concrete scenario).  Enqueueing jobs of priorities 5, 10, 2, 1, 3, 2
in that order into an empty `PriorityQueues`: every call returns normally,
`length()` is 1, 2, 3, 4, 5, 6 after the successive calls, the checks of the
test hold after each call (`at(0) = 5`, `at(0) = 10`, `at(2) = 2`, `at(3) = 1`,
`at(2) = 3`, `at(4) = 2`), and the final queue reads `10, 5, 3, 2, 2, 1`. -/
theorem C4_priority_scenario :
    (PriorityQueues.enqueueSteps LQueue.new testJobs).map (fun o => o.error)
      = [none, none, none, none, none, none] ∧
    (PriorityQueues.enqueueSteps LQueue.new testJobs).map (fun o => o.state.length)
      = [1, 2, 3, 4, 5, 6] ∧
    List.zipWith (fun o i => LQueue.at o.state i)
        (PriorityQueues.enqueueSteps LQueue.new testJobs) [0, 0, 2, 3, 2, 4]
      = [.ok 5, .ok 10, .ok 2, .ok 1, .ok 3, .ok 2] ∧
    ∃ last, (PriorityQueues.enqueueSteps LQueue.new testJobs).getLast? = some last ∧
      last.state.Reads [10, 5, 3, 2, 2, 1] := by
  refine ⟨by decide, by decide, by decide, _, rfl, by decide⟩

/-- C5 (front).  In every reachable state of a queue of either class
(`AQueue`, `LQueue`, hence `PriorityQueues`), `front()` throws
`EmptyQueueException` exactly when `isEmpty()` is true; when the queue is not
empty it returns the element at logical index 0, the value `at(0)` returns.
`front()` is a `const` member: it yields a value and no new state. -/
theorem C5_front_contract (Q : Queue) (hQ : Q.Reachable) :
    ((∃ str, Q.front = .error (.EmptyQueueException str)) ↔ Q.isEmpty = true) ∧
    (Q.isEmpty = false → ∃ x, Q.front = .ok x ∧ Q.at 0 = .ok x) := by
  obtain ⟨L, hL⟩ := hQ.abs
  cases L with
  | nil =>
    have he : Q.isEmpty = true := hL.isEmpty_iff_abs.2 rfl
    exact ⟨⟨fun _ => he, fun _ => hL.front_nil_abs⟩, fun h => by simp [he] at h⟩
  | cons x rest =>
    have he : Q.isEmpty = false := by
      cases h : Q.isEmpty with
      | false => rfl
      | true => exact absurd (hL.isEmpty_iff_abs.1 h) (by simp)
    have hf := hL.front_cons_abs
    have h0 := hL.at_lt_abs 0 (by simp)
    refine ⟨⟨fun ⟨str, h⟩ => by simp [hf] at h, fun h => by simp [he] at h⟩, fun _ => ⟨x, hf, ?_⟩⟩
    simpa using h0

/-- Witness for C5: the full, wrapped array queue of the tests is reachable
and its `front()` agrees with `at(0)`. -/
theorem C5_front_contract_witness :
    (Queue.ofAQueue testAQueue).Reachable ∧
    ((∃ str, (Queue.ofAQueue testAQueue).front = .error (.EmptyQueueException str))
      ↔ (Queue.ofAQueue testAQueue).isEmpty = true) ∧
    ((Queue.ofAQueue testAQueue).isEmpty = false →
      ∃ x, (Queue.ofAQueue testAQueue).front = .ok x ∧ (Queue.ofAQueue testAQueue).at 0 = .ok x) :=
  ⟨testAQueue_reachable, C5_front_contract (Queue.ofAQueue testAQueue) testAQueue_reachable⟩

/-- C8 (atomicity on failure).  In every reachable state of a queue of either
class, a `dequeue()` call that does not return normally throws
`EmptyQueueException` and leaves the object exactly as it was, so `length()`
and every `at(i)` are the same after the failed call as before it.  The other
two members that can fail, `front()` and `at(index)`, are `const`: they yield
a value or an exception and have no state to change. -/
theorem C8_failure_atomic (Q : Queue) (hQ : Q.Reachable) (e : QueueError)
    (hfail : Q.dequeue.error = some e) :
    (∃ str, e = .EmptyQueueException str) ∧ Q.dequeue.state = Q ∧
    Q.dequeue.state.length = Q.length ∧ ∀ i : Int, Q.dequeue.state.at i = Q.at i := by
  obtain ⟨L, hL⟩ := hQ.abs
  cases L with
  | nil =>
    obtain ⟨str, hd⟩ := hL.dequeue_nil_abs
    rw [hd] at hfail ⊢
    simp only [Option.some.injEq] at hfail
    exact ⟨⟨str, hfail.symm⟩, rfl, rfl, fun _ => rfl⟩
  | cons x rest =>
    rw [hL.dequeue_cons_abs.1] at hfail
    simp at hfail

/-- Witness for C8: `dequeue()` on a newly constructed `LQueue` fails and
leaves it unchanged. -/
theorem C8_failure_atomic_witness :
    (Queue.ofLQueue LQueue.new).Reachable ∧
    (Queue.ofLQueue LQueue.new).dequeue.error
      = some (.EmptyQueueException "LQueue<T>::dequeue()") ∧
    (Queue.ofLQueue LQueue.new).dequeue.state = Queue.ofLQueue LQueue.new :=
  ⟨LQueue.Reachable.new, rfl,
    (C8_failure_atomic (Queue.ofLQueue LQueue.new) LQueue.Reachable.new
      (.EmptyQueueException "LQueue<T>::dequeue()") rfl).2.1⟩

/-- C9 at its failing input.  An `AQueue` constructed with capacity 0, or from
an array of 0 items, is constructed without error, and `enqueue(x)` on it
does not complete: the buffer "grows" from 0 to `2 * 0 = 0` slots and
`(backIndex + 1) % allocSize` then divides by zero. -/
theorem C9_enqueue_capacity_zero_undefined :
    (∃ a, AQueue.new 0 = .ok a ∧ a.allocSize = 0 ∧ AQueue.Reachable a ∧
      ∀ x : Int, (a.enqueue x).error = some .UndefinedBehaviour) ∧
    (∃ a, AQueue.ofArray [] 0 = .ok a ∧ a.allocSize = 0 ∧ AQueue.Reachable a ∧
      ∀ x : Int, (a.enqueue x).error = some .UndefinedBehaviour) :=
  ⟨⟨_, rfl, rfl, .new 0 _ rfl, fun _ => rfl⟩, ⟨_, rfl, rfl, .ofArray [] 0 _ rfl, fun _ => rfl⟩⟩

/-- C11 (length invariant).  Start from an empty queue of any class: a newly
constructed `LQueue` or `PriorityQueues`, or an `AQueue` of capacity at least
1.  After any sequence of calls of `enqueue(const int&)`,
`enqueue(const Job&)` and `dequeue()` in which every call returns normally,
the dequeues do not outnumber the enqueues and `length()` is the number of
enqueues minus the number of dequeues. -/
theorem C11_length_invariant (Q0 : Queue)
    (hstart : Q0 = Queue.ofLQueue LQueue.new ∨
      ∃ c a, 1 ≤ c ∧ AQueue.new c = .ok a ∧ Q0 = Queue.ofAQueue a)
    (steps : List Step) (Q : Queue) (hrun : Q0.steps steps = some Q) :
    Step.dequeues steps ≤ Step.enqueues steps ∧
    Q.length = (Step.enqueues steps : Int) - (Step.dequeues steps : Int) := by
  have h0 : Q0.Abs [] ∧ ∀ a, Q0 = Queue.ofAQueue a → 1 ≤ a.allocSize := by
    rcases hstart with rfl | ⟨c, a, hc, hnew, rfl⟩
    · exact ⟨⟨[], LQueue.Rep.new_rep, rfl⟩, by intro a ha; simp at ha⟩
    · refine ⟨AQueue.Inv.new_inv hnew, ?_⟩
      intro a' ha'
      simp only [Queue.ofAQueue.injEq] at ha'
      rw [← ha', AQueue.new_allocSize hnew]
      exact hc
  obtain ⟨L, hL, _, hlen⟩ := Queue.steps_abs steps Q0 Q [] h0.1 h0.2 hrun
  simp only [List.length_nil, Nat.cast_zero, zero_add] at hlen
  refine ⟨by omega, ?_⟩
  rw [hL.length_eq_abs, hlen]

/-- Witness for C11: on a new `PriorityQueues` object, a priority enqueue, a
FIFO enqueue and a dequeue all return normally and leave length 1. -/
theorem C11_length_invariant_witness :
    ∃ Q, (Queue.ofLQueue LQueue.new).steps
        [Step.enqueueJob (Job.mk 1 5 0 0 0), Step.enqueue 3, Step.dequeue] = some Q ∧
      Q.length = 1 :=
  ⟨_, rfl, (C11_length_invariant (Queue.ofLQueue LQueue.new) (Or.inl rfl)
    [Step.enqueueJob (Job.mk 1 5 0 0 0), Step.enqueue 3, Step.dequeue] _ rfl).2⟩

/-- C13 (agreement on construction).  For every list `xs` of integers, the
array constructor applied to `xs` and its length succeeds, the `LQueue`
obtained by enqueueing the elements of `xs` in order onto an empty `LQueue`
compares equal (`Queue::operator==`) to that `AQueue`, and both yield
`at(i) == xs[i]` for every `i` below the length. -/
theorem C13_construction_agreement (xs : List Int) :
    ∃ a, AQueue.ofArray xs xs.length = .ok a ∧
      (Queue.ofLQueue (LQueue.enqueueAll LQueue.new xs)).operatorEq (Queue.ofAQueue a)
        = .ok true ∧
      ∀ (i : Nat) (hi : i < xs.length),
        (LQueue.enqueueAll LQueue.new xs).at i = .ok xs[i] ∧ a.at i = .ok xs[i] := by
  obtain ⟨a, ha, hinv⟩ := AQueue.ofArray_ok xs
  obtain ⟨cells, hr, hcells⟩ := LQueue.enqueueAll_rep xs LQueue.Rep.new_rep
  simp only [List.map_nil, List.nil_append] at hcells
  have hl : Queue.Abs (Queue.ofLQueue (LQueue.enqueueAll LQueue.new xs)) xs := ⟨cells, hr, hcells⟩
  have hr' : Queue.Abs (Queue.ofAQueue a) xs := hinv
  refine ⟨a, ha, ?_, ?_⟩
  · rw [Queue.operatorEq_abs hl hr']
    simp
  · intro i hi
    exact ⟨hl.at_lt_abs i hi, hr'.at_lt_abs i hi⟩

/-- Witness for C13: the test of `assg-11.cpp`, `xs = [5, 7, 9, 11]`, with
`at(0) == 5` and `at(3) == 11`. -/
theorem C13_construction_agreement_witness :
    (LQueue.enqueueAll LQueue.new [5, 7, 9, 11]).at 0 = .ok 5 ∧
    (LQueue.enqueueAll LQueue.new [5, 7, 9, 11]).at 3 = .ok 11 ∧
    ∃ a, AQueue.ofArray [5, 7, 9, 11] 4 = .ok a ∧
      (Queue.ofLQueue (LQueue.enqueueAll LQueue.new [5, 7, 9, 11])).operatorEq (Queue.ofAQueue a)
        = .ok true :=
  match C13_construction_agreement [5, 7, 9, 11] with
  | ⟨a, h1, h2, h3⟩ => ⟨(h3 0 (by decide)).1, (h3 3 (by decide)).1, a, h1, h2⟩

/-- C14 (round trip).  Let the queue be reachable and empty (an `AQueue` of
capacity at least 1, an `LQueue` or a `PriorityQueues`).  After `enqueue(x)`,
`front()` returns `x`, `length()` is 1 and `at(0)` is `x`; a following
`dequeue()` returns normally and leaves `length() == 0` and `isEmpty()`.  The
same holds on a linked queue when the element is entered with
`PriorityQueues::enqueue` for a job of priority `x`. -/
theorem C14_round_trip (Q : Queue) (hQ : Q.Reachable)
    (hcap : ∀ a, Q = Queue.ofAQueue a → 1 ≤ a.allocSize) (hempty : Q.isEmpty = true) (x : Int) :
    ((Q.enqueue x).error = none ∧ (Q.enqueue x).state.front = .ok x ∧
      (Q.enqueue x).state.length = 1 ∧ (Q.enqueue x).state.at 0 = .ok x ∧
      (Q.enqueue x).state.dequeue.error = none ∧
      (Q.enqueue x).state.dequeue.state.length = 0 ∧
      (Q.enqueue x).state.dequeue.state.isEmpty = true) ∧
    (∀ (q : LQueue) (job : Job), Q = Queue.ofLQueue q → job.priority = x →
      (PriorityQueues.enqueue q job).error = none ∧
      (PriorityQueues.enqueue q job).state.front = .ok x ∧
      (PriorityQueues.enqueue q job).state.length = 1 ∧
      (PriorityQueues.enqueue q job).state.at 0 = .ok x ∧
      (PriorityQueues.enqueue q job).state.dequeue.error = none ∧
      (PriorityQueues.enqueue q job).state.dequeue.state.length = 0 ∧
      (PriorityQueues.enqueue q job).state.dequeue.state.isEmpty = true) := by
  obtain ⟨L, hL⟩ := hQ.abs
  have hnil := hL.nil_of_isEmpty hempty
  constructor
  · obtain ⟨herr, h1⟩ := hnil.enqueue_abs hcap (hnil.full_bound (by decide)) x
    simp only [List.nil_append] at h1
    obtain ⟨hderr, h0⟩ := h1.dequeue_cons_abs
    have hat := h1.at_lt_abs 0 (by simp)
    refine ⟨herr, h1.front_cons_abs, by simpa using h1.length_eq_abs, by simpa using hat, hderr,
      by simpa using h0.length_eq_abs, h0.isEmpty_iff_abs.2 rfl⟩
  · rintro q job rfl hprio
    obtain ⟨cells, hr, hcells⟩ := hnil
    have hc : cells = [] := by simpa using hcells
    subst hc
    obtain ⟨herr, h1⟩ := PriorityQueues.Rep_enqueue hr job
    rw [hprio] at h1
    simp only [insertCell] at h1
    obtain ⟨hderr, h0⟩ := h1.dequeue_cons_rep
    have hat := h1.at_lt_rep 0 (by simp)
    refine ⟨herr, h1.front_cons_rep, by simpa using h1.length_eq_rep, by simpa using hat, hderr,
      by simpa using h0.length_eq_rep, h0.isEmpty_iff_rep.2 rfl⟩

/-- Witness for C14: a new `PriorityQueues` object is reachable and empty, and
after the job of priority 5 of test case 1 is enqueued `front()` returns 5. -/
theorem C14_round_trip_witness :
    (Queue.ofLQueue LQueue.new).Reachable ∧ (Queue.ofLQueue LQueue.new).isEmpty = true ∧
    (PriorityQueues.enqueue LQueue.new (Job.mk 1 5 0 0 0)).state.front = .ok 5 ∧
    ((Queue.ofLQueue LQueue.new).enqueue 5).state.front = .ok 5 :=
  ⟨LQueue.Reachable.new, rfl,
    ((C14_round_trip (Queue.ofLQueue LQueue.new) LQueue.Reachable.new
      (fun a h => by cases h) rfl 5).2 LQueue.new (Job.mk 1 5 0 0 0) rfl rfl).2.1,
    (C14_round_trip (Queue.ofLQueue LQueue.new) LQueue.Reachable.new
      (fun a h => by cases h) rfl 5).1.2.1⟩

/-- C15 (clear).  In every reachable state of a queue of either class,
`clear()` returns normally and afterwards `length() == 0`, `isEmpty()` is
true, and `front()` and `dequeue()` both throw `EmptyQueueException`.  The
same holds for every newly constructed queue: `AQueue(capacity)` for every
capacity the constructor accepts, and `LQueue()` (or `PriorityQueues()`). -/
theorem C15_clear_empties (Q : Queue) (hQ : Q.Reachable) :
    (Q.clear.error = none ∧ Q.clear.state.length = 0 ∧ Q.clear.state.isEmpty = true ∧
      (∃ str, Q.clear.state.front = .error (.EmptyQueueException str)) ∧
      (∃ str, Q.clear.state.dequeue.error = some (.EmptyQueueException str))) ∧
    (∀ (capacity : Int) (a : AQueue), AQueue.new capacity = .ok a →
      a.length = 0 ∧ a.isEmpty = true ∧
      a.front = .error (.EmptyQueueException "AQueue<T>::front()") ∧
      a.dequeue.error = some (.EmptyQueueException "Aqueue<T>::dequeue()")) ∧
    (LQueue.new.length = 0 ∧ LQueue.new.isEmpty = true ∧
      LQueue.new.front = .error (.EmptyQueueException "LQueue<T>::front()") ∧
      LQueue.new.dequeue.error = some (.EmptyQueueException "LQueue<T>::dequeue()")) := by
  obtain ⟨L, hL⟩ := hQ.abs
  obtain ⟨herr, h0⟩ := hL.clear_abs
  refine ⟨⟨herr, by simpa using h0.length_eq_abs, h0.isEmpty_iff_abs.2 rfl, h0.front_nil_abs, ?_⟩,
    ?_, rfl, rfl, rfl, rfl⟩
  · obtain ⟨str, hd⟩ := h0.dequeue_nil_abs
    exact ⟨str, by rw [hd]⟩
  · intro capacity a hnew
    have hinv := AQueue.Inv.new_inv hnew
    refine ⟨by simpa using hinv.length_eq_inv, hinv.isEmpty_iff_inv.2 rfl, hinv.front_nil_inv, ?_⟩
    rw [hinv.dequeue_nil_inv]

/-- Witness for C15: the full, wrapped array queue of the tests is reachable
and `clear()` leaves it with length 0. -/
theorem C15_clear_empties_witness :
    (Queue.ofAQueue testAQueue).Reachable ∧ (Queue.ofAQueue testAQueue).length = 2 ∧
    (Queue.ofAQueue testAQueue).clear.state.length = 0 :=
  ⟨testAQueue_reachable, by decide,
    (C15_clear_empties (Queue.ofAQueue testAQueue) testAQueue_reachable).1.2.1⟩

/-- C16 (isEmpty agrees with length).  In every state of a queue of either
class reachable from a constructor by FIFO enqueue, priority enqueue, dequeue
and clear, `isEmpty()` returns true exactly when `length() == 0`; for a
linked queue, `queueFront == NULL` exactly when `numitems == 0`.  `isEmpty()`
is a `const` member: it yields a value and no new state. -/
theorem C16_isEmpty_iff_length_zero (Q : Queue) (hQ : Q.Reachable) :
    (Q.isEmpty = true ↔ Q.length = 0) ∧
    (∀ q : LQueue, Q = Queue.ofLQueue q → (q.queueFront = none ↔ q.numitems = 0)) := by
  obtain ⟨L, hL⟩ := hQ.abs
  have hlen := hL.length_eq_abs
  have hz : Q.length = 0 ↔ L = [] := by
    rw [hlen]
    constructor
    · intro h
      exact List.length_eq_zero.1 (by exact_mod_cast h)
    · rintro rfl
      rfl
  refine ⟨hL.isEmpty_iff_abs.trans hz.symm, ?_⟩
  rintro q rfl
  obtain ⟨cells, hr, _⟩ := hL
  rw [hr.front_none_iff, hr.count]
  constructor
  · rintro rfl
    rfl
  · intro h
    exact List.length_eq_zero.1 (by exact_mod_cast h)

/-- Witness for C16: on the reachable test queue reading 10, 5 `isEmpty()`
and `length() == 0` agree (both are false). -/
theorem C16_isEmpty_iff_length_zero_witness :
    (Queue.ofLQueue testQueue2).Reachable ∧ (Queue.ofLQueue testQueue2).isEmpty = false ∧
    ((Queue.ofLQueue testQueue2).isEmpty = true ↔ (Queue.ofLQueue testQueue2).length = 0) :=
  ⟨testQueue2_reachable, by decide,
    (C16_isEmpty_iff_length_zero (Queue.ofLQueue testQueue2) testQueue2_reachable).1⟩

/-- C17 (structure of the linked queue).  In every state reachable from
`LQueue()` or `PriorityQueues()` by `LQueue::enqueue`,
`PriorityQueues::enqueue`, `dequeue` and `clear`: `numitems` is not negative;
the front pointer is NULL exactly when `numitems == 0`, exactly when the back
pointer is NULL; following `link` from the front, each of the first
`numitems` steps stands on an allocated node and step number `numitems`
reaches NULL; and when the queue is not empty the node reached after
`numitems - 1` steps is the one the back pointer designates, and its `link`
is NULL. -/
theorem C17_linked_structure (q : LQueue) (hq : LQueue.Reachable q) :
    0 ≤ q.numitems ∧
    (q.queueFront = none ↔ q.numitems = 0) ∧ (q.numitems = 0 ↔ q.queueBack = none) ∧
    (∀ k : Nat, (k : Int) < q.numitems →
      ∃ a node, LQueue.walk q.store k q.queueFront = .ok (some a) ∧
        q.store.read (some a) = .ok node) ∧
    LQueue.walk q.store q.numitems.toNat q.queueFront = .ok none ∧
    (0 < q.numitems →
      LQueue.walk q.store (q.numitems - 1).toNat q.queueFront = .ok q.queueBack ∧
      ∃ node, q.store.read q.queueBack = .ok node ∧ node.link = none) := by
  obtain ⟨cells, hr⟩ := hq.rep
  have hcount := hr.count
  have hz : q.numitems = 0 ↔ cells = [] := by
    rw [hcount]
    constructor
    · intro h
      exact List.length_eq_zero.1 (by exact_mod_cast h)
    · rintro rfl
      rfl
  refine ⟨by omega, hr.front_none_iff.trans hz.symm, hz.trans hr.back_none_iff.symm, ?_, ?_, ?_⟩
  · intro k hk
    have hk' : k < cells.length := by omega
    obtain ⟨hw, nxt, hc⟩ := LQueue.walk_chain k hk' hr.chain
    exact ⟨_, _, hw, Heap.read_some hc⟩
  · have : q.numitems.toNat = cells.length := by omega
    rw [this]
    exact LQueue.walk_chain_end hr.chain
  · intro hpos
    have hne : cells ≠ [] := fun h => by rw [hz.2 h] at hpos; omega
    have : (q.numitems - 1).toNat = cells.length - 1 := by omega
    rw [this]
    exact hr.walk_back hne

/-- Witness for C17: the reachable test queue holds two nodes; the second
step from the front reaches NULL. -/
theorem C17_linked_structure_witness :
    LQueue.Reachable testQueue2 ∧ testQueue2.numitems = 2 ∧
    LQueue.walk testQueue2.store testQueue2.numitems.toNat testQueue2.queueFront = .ok none :=
  ⟨testQueue2_reachable, by decide, (C17_linked_structure testQueue2 testQueue2_reachable).2.2.2.2.1⟩

/-- Counterexample to C18 as stated.  `AQueue(0)` is constructed without
error and leaves `backIndex == allocSize - 1 == -1`, so the bound
`0 <= backIndex` fails in a state reachable from a constructor with capacity
`c >= 0`. -/
theorem C18_bounds_counterexample :
    (∃ a, AQueue.new 0 = .ok a ∧ AQueue.Reachable a ∧ a.allocSize = 0 ∧ a.backIndex = -1) ∧
    ¬ ∀ a : AQueue, AQueue.Reachable a →
        0 ≤ a.numitems ∧ a.numitems ≤ a.allocSize ∧ 0 ≤ a.frontIndex ∧ 0 ≤ a.backIndex ∧
        (0 < a.allocSize → a.frontIndex < a.allocSize ∧ a.backIndex < a.allocSize) := by
  refine ⟨⟨_, rfl, .new 0 _ rfl, rfl, rfl⟩, ?_⟩
  intro h
  have := (h _ (.new 0 _ rfl)).2.2.2.1
  revert this
  decide

/-- C18 as amended (bounds of the array queue).  In every state reachable from
an `AQueue` constructor (capacity `c >= 0`, or `n >= 0` initial items) by
enqueue, dequeue and clear: `0 <= numitems <= allocSize`, `0 <= frontIndex`
and `-1 <= backIndex`; whenever `allocSize > 0` also `0 <= backIndex` and both
indices are `< allocSize`; and when `allocSize == 0` the queue is empty with
`frontIndex == 0` and `backIndex == -1`. -/
theorem C18_bounds_invariant (a : AQueue) (ha : AQueue.Reachable a) :
    0 ≤ a.numitems ∧ a.numitems ≤ a.allocSize ∧ 0 ≤ a.frontIndex ∧ -1 ≤ a.backIndex ∧
    (0 < a.allocSize →
      0 ≤ a.backIndex ∧ a.frontIndex < a.allocSize ∧ a.backIndex < a.allocSize) ∧
    (a.allocSize = 0 → a.numitems = 0 ∧ a.frontIndex = 0 ∧ a.backIndex = -1) := by
  obtain ⟨L, h⟩ := ha.inv
  have hcount := h.count
  have hcap := h.cap
  have hfl := h.frontLo
  have hfh := h.frontHi
  have hpos : 0 < a.allocSize →
      0 ≤ a.backIndex ∧ a.frontIndex < a.allocSize ∧ a.backIndex < a.allocSize := by
    intro hc
    rw [h.back (by omega)]
    exact ⟨Int.emod_nonneg _ (by omega), by omega, Int.emod_lt_of_pos _ hc⟩
  have hzero : a.allocSize = 0 → a.numitems = 0 ∧ a.frontIndex = 0 ∧ a.backIndex = -1 := by
    intro h0
    exact ⟨by omega, by omega, h.backZero h0⟩
  refine ⟨by omega, hcap, hfl, ?_, hpos, hzero⟩
  by_cases hc : 0 < a.allocSize
  · have := (hpos hc).1
    omega
  · have := (hzero (by omega)).2.2
    omega

/-- Witness for C18 as amended: the full, wrapped array queue of the tests is
reachable, with `frontIndex == 1` and `backIndex == 0` inside its two
slots. -/
theorem C18_bounds_invariant_witness :
    AQueue.Reachable testAQueue ∧ testAQueue.allocSize = 2 ∧
    (0 ≤ testAQueue.backIndex ∧ testAQueue.frontIndex < testAQueue.allocSize ∧
      testAQueue.backIndex < testAQueue.allocSize) :=
  ⟨testAQueue_reachable, by decide,
    (C18_bounds_invariant testAQueue testAQueue_reachable).2.2.2.2.1 (by decide)⟩

/-- Counterexample to C19 as stated.  The array constructor given 2^30 items
builds a reachable full `AQueue` with `numitems == allocSize == c` for
`c = 2^30 >= 1`; `enqueue(x)` on it computes `2 * allocSize = 2^31`, which no
`int` holds: the call is undefined behaviour, nothing is stored and
`allocSize` is not `2c`. -/
theorem C19_growth_overflow_counterexample :
    ∃ a, AQueue.ofArray (List.replicate 1073741824 0) 1073741824 = .ok a ∧
      AQueue.Reachable a ∧ 1 ≤ a.allocSize ∧ a.numitems = a.allocSize ∧
      a.allocSize = 1073741824 ∧ INT_MAX < 2 * a.allocSize ∧
      ∀ x : Int, (a.enqueue x).error = some .UndefinedBehaviour ∧
        (a.enqueue x).state.allocSize ≠ 2 * a.allocSize := by
  have hlen : (((List.replicate 1073741824 (0 : Int)).length : Nat) : Int) = 1073741824 := by
    rw [List.length_replicate]
    rfl
  obtain ⟨a, ha, hreach, _, hsize, hfull, henq⟩ :=
    AQueue.ofArray_full_overflow (List.replicate 1073741824 0) (by rw [hlen]; decide)
  rw [hlen] at ha hsize
  refine ⟨a, ha, hreach, by rw [hsize]; decide, hfull, hsize, by rw [hsize]; decide,
    fun x => ?_⟩
  rw [henq x]
  exact ⟨rfl, by show a.allocSize ≠ 2 * a.allocSize; omega⟩

/-- C19 as amended (growth policy).  For every reachable full `AQueue`
(`numitems == allocSize == c`, `c >= 1`, any `frontIndex`) whose doubled
capacity `2c` is representable as an `int`, `enqueue(x)` returns normally and
leaves `allocSize == 2c`, `frontIndex == 0`, `backIndex == c`,
`numitems == c + 1`, the physical slots `0 .. c-1` holding the old logical
contents `at(0) .. at(c-1)` in that order, and slot `c` holding `x`. -/
theorem C19_growth_policy (a : AQueue) (ha : AQueue.Reachable a) (hc : 1 ≤ a.allocSize)
    (hfull : a.numitems = a.allocSize) (hov : 2 * a.allocSize ≤ INT_MAX) (x : Int) :
    (a.enqueue x).error = none ∧
    (a.enqueue x).state.allocSize = 2 * a.allocSize ∧
    (a.enqueue x).state.frontIndex = 0 ∧
    (a.enqueue x).state.backIndex = a.allocSize ∧
    (a.enqueue x).state.numitems = a.allocSize + 1 ∧
    (∀ i : Nat, (i : Int) < a.allocSize →
      ∃ y, a.at i = .ok y ∧ (a.enqueue x).state.items[i]? = some (some y)) ∧
    (a.enqueue x).state.items[a.allocSize.toNat]? = some (some x) := by
  obtain ⟨L, h⟩ := ha.inv
  have hcount := h.count
  rw [h.enqueue_full (by omega) hfull hov x]
  refine ⟨rfl, rfl, rfl, ?_, ?_, ?_, ?_⟩
  · show (L.length : Int) = a.allocSize
    omega
  · show a.numitems + 1 = a.allocSize + 1
    omega
  · intro i hi
    have hiL : i < L.length := by omega
    refine ⟨L[i], h.at_lt_inv i hiL, ?_⟩
    show ((L ++ [x]).map some ++ List.replicate (L.length - 1) none)[i]? = _
    rw [List.getElem?_append_left (by simp; omega), List.getElem?_map,
      List.getElem?_append_left hiL, List.getElem?_eq_getElem hiL]
    rfl
  · have : a.allocSize.toNat = L.length := by omega
    show ((L ++ [x]).map some ++ List.replicate (L.length - 1) none)[a.allocSize.toNat]? = _
    rw [this, List.getElem?_append_left (by simp), List.getElem?_map,
      List.getElem?_append_right (Nat.le_refl _)]
    simp

/-- Witness for C19 as amended: an `AQueue` of capacity 2 after two enqueues
is reachable and full; the third enqueue raises no exception and leaves
`length() == 3`, the order 1, 2, 3 and capacity 4. -/
theorem C19_growth_policy_witness :
    AQueue.Reachable (((AQueue.mk 2 0 0 1 [none, none]).enqueue 1).state.enqueue 2).state ∧
    2 * (((AQueue.mk 2 0 0 1 [none, none]).enqueue 1).state.enqueue 2).state.allocSize
      ≤ INT_MAX ∧
    ((((AQueue.mk 2 0 0 1 [none, none]).enqueue 1).state.enqueue 2).state.enqueue 3).error = none ∧
    ((((AQueue.mk 2 0 0 1 [none, none]).enqueue 1).state.enqueue 2).state.enqueue 3).state.allocSize
      = 4 ∧
    ((((AQueue.mk 2 0 0 1 [none, none]).enqueue 1).state.enqueue 2).state.enqueue 3).state.Reads
      [1, 2, 3] :=
  ⟨.enqueue _ 2 (.enqueue _ 1 (.new 2 _ rfl)), by decide,
    (C19_growth_policy _ (.enqueue _ 2 (.enqueue _ 1 (.new 2 _ rfl))) (by decide) (by decide)
      (by decide) 3).1,
    (C19_growth_policy _ (.enqueue _ 2 (.enqueue _ 1 (.new 2 _ rfl))) (by decide) (by decide)
      (by decide) 3).2.1,
    by decide⟩

/-- C20 (capacity never shrinks).  In every reachable `AQueue` state:
`dequeue()` and `clear()` leave `allocSize` unchanged, `enqueue(x)` never
lowers it, and an `enqueue(x)` that returns normally leaves it unchanged when
the queue was not full and exactly doubled when it was full.  The remaining
operations `front()` and `at()` are `const` members and yield no new state. -/
theorem C20_capacity_never_shrinks (a : AQueue) (ha : AQueue.Reachable a) (x : Int) :
    a.allocSize ≤ (a.enqueue x).state.allocSize ∧
    ((a.enqueue x).error = none →
      (a.enqueue x).state.allocSize
        = if a.numitems = a.allocSize then 2 * a.allocSize else a.allocSize) ∧
    a.dequeue.state.allocSize = a.allocSize ∧
    a.clear.state.allocSize = a.allocSize := by
  obtain ⟨L, h⟩ := ha.inv
  have hcount := h.count
  have hcap := h.cap
  have hdeq : a.dequeue.state.allocSize = a.allocSize := by
    cases L with
    | nil => rw [h.dequeue_nil_inv]
    | cons y rest => exact h.dequeue_cons_inv.2.2.1
  by_cases hc : a.allocSize = 0
  · rw [h.enqueue_zero hc x]
    exact ⟨le_refl _, fun he => by simp at he, hdeq, rfl⟩
  · have hpos : 0 < a.allocSize := by omega
    by_cases hov : a.numitems = a.allocSize ∧ INT_MAX < 2 * a.allocSize
    · rw [AQueue.enqueue_overflow hov.1 hov.2 x]
      exact ⟨le_refl _, fun he => by simp at he, hdeq, rfl⟩
    · have h3 := (h.enqueue_inv hpos (fun hf => not_lt.1 (fun hlt => hov ⟨hf, hlt⟩)) x).2.2
      refine ⟨?_, fun _ => h3, hdeq, rfl⟩
      rw [h3]
      split_ifs <;> omega

/-- Witness for C20: the full, wrapped array queue of the tests is reachable
with capacity 2; `enqueue(4)` doubles the capacity and `dequeue()` keeps
it. -/
theorem C20_capacity_never_shrinks_witness :
    AQueue.Reachable testAQueue ∧ testAQueue.allocSize = 2 ∧
    (testAQueue.enqueue 4).state.allocSize = 4 ∧
    testAQueue.dequeue.state.allocSize = testAQueue.allocSize :=
  ⟨testAQueue_reachable, by decide,
    (C20_capacity_never_shrinks testAQueue testAQueue_reachable 4).2.1 (by decide),
    (C20_capacity_never_shrinks testAQueue testAQueue_reachable 4).2.2.1⟩

/-- C21 (rendering of the linked queue).  For every reachable linked chain
(of an `LQueue` or a `PriorityQueues`) reading front to back as `L`, that is
`at(0), ..., at(length()-1)`, `LQueue::tostring` returns exactly the text
`Front: `, then each element of `L` followed by one blank in that order, then
`:Back` and a newline. -/
theorem C21_linked_tostring (q : LQueue) (hq : LQueue.Reachable q) (L : List Int)
    (hL : q.Reads L) :
    q.tostring = .ok (renderQueue L) ∧
    renderQueue L = "Front: " ++ renderItems L ++ ":Back" ++ "\n" ∧
    renderItems [] = "" ∧
    (∀ (e : Int) (es : List Int), renderItems (e :: es) = toString e ++ " " ++ renderItems es) := by
  obtain ⟨cells, hr⟩ := hq.rep
  have hLc : L = cells.map Prod.snd := hL.unique hr.reads_rep
  rw [hLc]
  exact ⟨hr.tostring_rep, rfl, rfl, fun _ _ => rfl⟩

/-- Witness for C21: the reachable test queue reading 10, 5 renders as
`Front: 10 5 :Back` and a newline. -/
theorem C21_linked_tostring_witness :
    LQueue.Reachable testQueue2 ∧ testQueue2.Reads [10, 5] ∧
    testQueue2.tostring = .ok "Front: 10 5 :Back\n" :=
  ⟨testQueue2_reachable, by decide,
    (C21_linked_tostring testQueue2 testQueue2_reachable [10, 5] (by decide)).1⟩

/-- C22 at its failing inputs.  The array queue built by the array constructor
from 5, 7, 9, 11 is reachable, full, and reads 5, 7, 9, 11, yet `tostring`
returns `Front: :Back` with no element: for a full buffer
`frontIndex == (backIndex + 1) % allocSize` and the loop body never runs.  The
reachable wrapped queue reading 3, 4 (`frontIndex == 2`, `backIndex == 0`,
three slots) makes `tostring` read `items[3]`, past the end of the buffer:
`index++` is not reduced modulo `allocSize`. -/
theorem C22_array_tostring_full_and_wrapped :
    (∃ a, AQueue.ofArray [5, 7, 9, 11] 4 = .ok a ∧ AQueue.Reachable a ∧
      a.numitems = a.allocSize ∧ a.Reads [5, 7, 9, 11] ∧
      a.tostring = .ok "Front: :Back\n" ∧ a.tostring ≠ .ok (renderQueue [5, 7, 9, 11])) ∧
    (AQueue.Reachable testAQueueWrapped ∧ testAQueueWrapped.Reads [3, 4] ∧
      testAQueueWrapped.backIndex < testAQueueWrapped.frontIndex ∧
      testAQueueWrapped.tostring = .error .UndefinedBehaviour) :=
  ⟨⟨_, rfl, .ofArray [5, 7, 9, 11] 4 _ rfl, by decide, by decide, by decide, by decide⟩,
    ⟨.enqueue _ 4 (.dequeue _ (.dequeue _ (.enqueue _ 3 (.enqueue _ 2 (.enqueue _ 1
      (.new 3 _ rfl)))))), by decide, by decide, by decide⟩⟩

/-- Counterexample to C23 as stated.  The shared counter `nextListId` is an
`int`; when it stands at `INT_MAX` the increment `nextListId++` of the
constructor overflows, so the construction is undefined behaviour, whatever
the three arguments, and the counter is not left incremented by 1. -/
theorem C23_counter_overflow_counterexample :
    INT_MIN ≤ INT_MAX ∧ INT_MAX = 2147483647 ∧
    Job.new 2147483647 5 0 0 = .error .UndefinedBehaviour ∧
    ∀ priority serviceTime startTime : Int,
      Job.new INT_MAX priority serviceTime startTime = .error .UndefinedBehaviour :=
  ⟨by decide, rfl, by decide, fun p s t => Job.new_overflow p s t (le_refl _)⟩

/-- C23 as amended (job creation).  For all integers `priority`,
`serviceTime` and `startTime` and every value of the shared counter below
`INT_MAX`, the constructor returns a job that stores the three values as
given and has `endTime == startTime` (so the wait time and the cost of the
fresh job are 0), takes the current counter value as id and leaves the
counter incremented by exactly 1. -/
theorem C23_job_creation (nextListId priority serviceTime startTime : Int)
    (hmin : INT_MIN ≤ nextListId) (hmax : nextListId < INT_MAX) :
    ∃ job, Job.new nextListId priority serviceTime startTime = .ok (job, nextListId + 1) ∧
      job.priority = priority ∧
      job.serviceTime = serviceTime ∧
      job.startTime = startTime ∧
      job.endTime = startTime ∧
      job.getWaitTime = 0 ∧
      job.getCost = 0 ∧
      job.id = nextListId ∧
      job.getId = nextListId :=
  ⟨_, Job.new_ok priority serviceTime startTime hmin hmax, rfl, rfl, rfl, rfl,
    by simp [Job.getWaitTime], by simp [Job.getCost, Job.getWaitTime], rfl, rfl⟩

/-- Witness for C23 as amended: the first job of the test program,
`Job(5, 0, 0)`, made when the counter stands at 1. -/
theorem C23_job_creation_witness :
    INT_MIN ≤ 1 ∧ (1 : Int) < INT_MAX ∧
    ∃ job, Job.new 1 5 0 0 = .ok (job, 1 + 1) ∧
      job.priority = 5 ∧ job.serviceTime = 0 ∧ job.startTime = 0 ∧ job.endTime = 0 ∧
      job.getWaitTime = 0 ∧ job.getCost = 0 ∧ job.id = 1 ∧ job.getId = 1 :=
  ⟨by decide, by decide, C23_job_creation 1 5 0 0 (by decide) (by decide)⟩

/-- Counterexample to C24 as stated.  A sequence of `2^31 - 1` constructions
starting from the counter value 1 does not number its jobs: the last
construction finds the counter at `INT_MAX` and its increment overflows, so
the run is undefined behaviour and no ids are assigned by it. -/
theorem C24_id_overflow_counterexample :
    Job.newSeq Job.nextListIdInit (List.replicate 2147483647 (0, 0, 0))
      = .error .UndefinedBehaviour := by
  have hlen : (((List.replicate 2147483647 ((0, 0, 0) : Int × Int × Int)).length : Nat) : Int)
      = 2147483647 := by
    rw [List.length_replicate]
    rfl
  exact Job.newSeq_overflow _ _ (by decide) (by decide) (by rw [hlen]; decide)

/-- C24 as amended (ids in creation order).  For every sequence of at most
`INT_MAX - 1` constructions `Job(priority, serviceTime, startTime)` threaded
through the shared counter from its initial value 1: every construction
returns, one job is made per construction, the `k`-th job made (counting from
1) has id `k`, the counter ends at 1 plus the number of jobs, and the ids are
strictly increasing in creation order, hence pairwise distinct. -/
theorem C24_ids_in_creation_order (args : List (Int × Int × Int))
    (hlen : 1 + (args.length : Int) ≤ INT_MAX) :
    ∃ jobs, Job.newSeq Job.nextListIdInit args = .ok (jobs, 1 + args.length) ∧
      jobs.length = args.length ∧
      (∀ (k : Nat) (hk : k < jobs.length), (jobs[k]).id = (k : Int) + 1) ∧
      (jobs.map Job.id).Pairwise (· < ·) ∧
      (jobs.map Job.id).Nodup := by
  obtain ⟨jobs, h1, h2, h3⟩ := Job.newSeq_spec args Job.nextListIdInit (by decide)
    (by rw [Job.nextListIdInit]; exact hlen)
  have hid : ∀ (k : Nat) (hk : k < jobs.length), (jobs[k]).id = (k : Int) + 1 := by
    intro k hk
    rw [(h3 k hk).1, Job.nextListIdInit]
    ring
  have hpw : (jobs.map Job.id).Pairwise (· < ·) := by
    rw [List.pairwise_iff_getElem]
    intro i j hi hj hij
    simp only [List.length_map] at hi hj
    simp only [List.getElem_map]
    rw [hid i hi, hid j hj]
    omega
  refine ⟨jobs, by rw [h1, Job.nextListIdInit], h2, hid, hpw, ?_⟩
  exact hpw.imp (fun h => ne_of_lt h)

/-- Witness for C24 as amended: the constructions `Job(5, 0, 0)`,
`Job(10, 0, 0)`, `Job(2, 0, 0)` give the ids 1, 2, 3 and leave the counter at
4. -/
theorem C24_ids_in_creation_order_witness :
    1 + (([(5, 0, 0), (10, 0, 0), (2, 0, 0)] : List (Int × Int × Int)).length : Int) ≤ INT_MAX ∧
    Job.newSeq Job.nextListIdInit [(5, 0, 0), (10, 0, 0), (2, 0, 0)]
      = .ok ([Job.mk 1 5 0 0 0, Job.mk 2 10 0 0 0, Job.mk 3 2 0 0 0], 4) ∧
    ∃ jobs, Job.newSeq Job.nextListIdInit [(5, 0, 0), (10, 0, 0), (2, 0, 0)]
        = .ok (jobs, 1 + (([(5, 0, 0), (10, 0, 0), (2, 0, 0)] : List (Int × Int × Int)).length
            : Int)) ∧
      jobs.length = ([(5, 0, 0), (10, 0, 0), (2, 0, 0)] : List (Int × Int × Int)).length ∧
      (∀ (k : Nat) (hk : k < jobs.length), (jobs[k]).id = (k : Int) + 1) ∧
      (jobs.map Job.id).Pairwise (· < ·) ∧
      (jobs.map Job.id).Nodup :=
  ⟨by decide, by decide,
    C24_ids_in_creation_order [(5, 0, 0), (10, 0, 0), (2, 0, 0)] (by decide)⟩

/-- C25 (default job).  A default-constructed `Job` has id, priority, service
time, start time and end time 0, hence wait time 0 and cost 0.  The default
constructor does not touch the shared counter: its model `Job.newDefault`
takes no counter and returns none. -/
theorem C25_default_job :
    Job.newDefault.id = 0 ∧ Job.newDefault.priority = 0 ∧ Job.newDefault.serviceTime = 0 ∧
    Job.newDefault.startTime = 0 ∧ Job.newDefault.endTime = 0 ∧
    Job.newDefault.getId = 0 ∧ Job.newDefault.getPriority = 0 ∧
    Job.newDefault.getServiceTime = 0 ∧
    Job.newDefault.getWaitTime = 0 ∧ Job.newDefault.getCost = 0 :=
  ⟨rfl, rfl, rfl, rfl, rfl, rfl, rfl, rfl, rfl, rfl⟩

/-- C26 (derived values).  For every job, `getWaitTime()` is
`endTime - startTime` and `getCost()` is `priority * (endTime - startTime)`;
for a job created with start time `s` and priority `p` and then given the end
time `t` by `setEndTime(t)`, the wait time is `t - s` and the cost is
`p * (t - s)`; the creation returns for every counter value below `INT_MAX`.
The arithmetic of the two getters is over unbounded integers (no `int`
overflow). -/
theorem C26_derived_values (j : Job) (nextListId p serviceTime s t : Int) :
    j.getWaitTime = j.endTime - j.startTime ∧
    j.getCost = j.priority * (j.endTime - j.startTime) ∧
    (∀ job next, Job.new nextListId p serviceTime s = .ok (job, next) →
      (job.setEndTime t).getWaitTime = t - s ∧
      (job.setEndTime t).getCost = p * (t - s)) ∧
    (INT_MIN ≤ nextListId → nextListId < INT_MAX →
      ∃ job, Job.new nextListId p serviceTime s = .ok (job, nextListId + 1)) := by
  refine ⟨rfl, rfl, ?_, fun h1 h2 => ⟨_, Job.new_ok p serviceTime s h1 h2⟩⟩
  intro job next h
  simp only [Job.new, bind, Except.bind, pure, Except.pure] at h
  cases hv : intValue (nextListId + 1) with
  | error e =>
    rw [hv] at h
    simp at h
  | ok v =>
    rw [hv] at h
    simp only [Except.ok.injEq, Prod.mk.injEq] at h
    rw [← h.1]
    simp [Job.setEndTime, Job.getWaitTime, Job.getCost]

/-- C27 (setEndTime).  `setEndTime(t)` sets `endTime` to `t` and leaves id,
priority, service time and start time as they were; it is a total function
(it cannot fail), and a second call overwrites the first: `setEndTime(t2)`
after `setEndTime(t1)` gives the same job as `setEndTime(t2)` alone. -/
theorem C27_setEndTime_frame (j : Job) (t1 t2 : Int) :
    (j.setEndTime t1).endTime = t1 ∧ (j.setEndTime t1).id = j.id ∧
    (j.setEndTime t1).priority = j.priority ∧ (j.setEndTime t1).serviceTime = j.serviceTime ∧
    (j.setEndTime t1).startTime = j.startTime ∧
    (j.setEndTime t1).setEndTime t2 = j.setEndTime t2 :=
  ⟨rfl, rfl, rfl, rfl, rfl, rfl⟩

/-- C28 (comparisons look at the priority only).  For every two jobs `a` and
`b`: `a == b` iff the priorities are equal, `a < b` iff `a.priority <
b.priority`, `a > b` iff `a.priority > b.priority`, `a <= b` iff
`a.priority <= b.priority`; hence two jobs that differ in id, service time,
start time and end time but not in priority compare equal, and each
comparison gives the same answer for any two jobs with the same
priorities. -/
theorem C28_job_comparisons (a b : Job) :
    (a.operatorEq b = true ↔ a.priority = b.priority) ∧
    (a.operatorLt b = true ↔ a.priority < b.priority) ∧
    (a.operatorGt b = true ↔ a.priority > b.priority) ∧
    (a.operatorLe b = true ↔ a.priority ≤ b.priority) ∧
    (∀ a' b' : Job, a'.priority = a.priority → b'.priority = b.priority →
      a'.operatorEq b' = a.operatorEq b ∧ a'.operatorLt b' = a.operatorLt b ∧
      a'.operatorGt b' = a.operatorGt b ∧ a'.operatorLe b' = a.operatorLe b) ∧
    ((Job.mk 1 2 0 0 0).id ≠ (Job.mk 2 2 7 9 9).id ∧
      (Job.mk 1 2 0 0 0).operatorEq (Job.mk 2 2 7 9 9) = true) := by
  refine ⟨by simp [Job.operatorEq], by simp [Job.operatorLt], by simp [Job.operatorGt],
    by simp [Job.operatorLe], ?_, by decide, by decide⟩
  intro a' b' ha hb
  simp [Job.operatorEq, Job.operatorLt, Job.operatorGt, Job.operatorLe, ha, hb]

/-- C32 (frame of one step of the array queue).  In every reachable state of
an `AQueue`: `dequeue()` on a non-empty queue returns normally, sets
`frontIndex` to `(frontIndex + 1) mod allocSize`, decrements `numitems`, and
leaves `allocSize`, `backIndex` and the whole buffer unchanged;
`enqueue(x)` on a queue that is not full returns normally, sets `backIndex`
to `(backIndex + 1) mod allocSize`, stores `x` in that slot, increments
`numitems`, and leaves `allocSize`, `frontIndex`, the size of the buffer and
every other slot unchanged. -/
theorem C32_array_step_frame (a : AQueue) (hr : a.Reachable) :
    (a.isEmpty = false →
      a.dequeue.error = none ∧
      a.dequeue.state.frontIndex = (a.frontIndex + 1) % a.allocSize ∧
      a.dequeue.state.numitems = a.numitems - 1 ∧
      a.dequeue.state.allocSize = a.allocSize ∧
      a.dequeue.state.backIndex = a.backIndex ∧
      a.dequeue.state.items = a.items) ∧
    (a.isFull = false → ∀ x : Int,
      (a.enqueue x).error = none ∧
      (a.enqueue x).state.backIndex = (a.backIndex + 1) % a.allocSize ∧
      readSlot (a.enqueue x).state.items (a.enqueue x).state.backIndex = .ok x ∧
      (a.enqueue x).state.numitems = a.numitems + 1 ∧
      (a.enqueue x).state.allocSize = a.allocSize ∧
      (a.enqueue x).state.frontIndex = a.frontIndex ∧
      (a.enqueue x).state.items.length = a.items.length ∧
      ∀ k : Nat, (k : Int) ≠ (a.enqueue x).state.backIndex →
        (a.enqueue x).state.items[k]? = a.items[k]?) := by
  obtain ⟨L, h⟩ := AQueue.Reachable.inv hr
  constructor
  · intro hne
    cases L with
    | nil =>
      have := h.isEmpty_iff_inv.2 rfl
      rw [hne] at this
      exact absurd this (by decide)
    | cons y rest =>
      rw [h.dequeue_state]
      exact ⟨rfl, rfl, rfl, rfl, rfl, rfl⟩
  · intro hnf x
    have hfull : a.numitems ≠ a.allocSize := by
      simpa [AQueue.isFull] using hnf
    have hcount := h.count
    have hcap := h.cap
    have hsize := h.size
    have hc : 0 < a.allocSize := by omega
    have hs0 : 0 ≤ (a.backIndex + 1) % a.allocSize := Int.emod_nonneg _ (by omega)
    have hs1 : (a.backIndex + 1) % a.allocSize < a.allocSize := Int.emod_lt_of_pos _ hc
    rw [h.enqueue_notFull hfull x]
    refine ⟨rfl, rfl, ?_, rfl, rfl, rfl, ?_, ?_⟩
    · refine readSlot_ok hs0 ?_
      show (a.items.set ((a.backIndex + 1) % a.allocSize).toNat (some x))[
        ((a.backIndex + 1) % a.allocSize).toNat]? = _
      rw [List.getElem?_set_self (by omega)]
    · show (a.items.set _ _).length = _
      rw [List.length_set]
    · intro k hk
      have hk' : (k : Int) ≠ (a.backIndex + 1) % a.allocSize := hk
      show (a.items.set ((a.backIndex + 1) % a.allocSize).toNat (some x))[k]? = _
      rw [List.getElem?_set_ne (by omega)]

/-- Witness for C32: the wrapped sample queue of capacity 3 reading 3, 4 is
neither empty nor full, so both halves apply to it. -/
theorem C32_array_step_frame_witness :
    testAQueueWrapped.Reachable ∧ testAQueueWrapped.isEmpty = false ∧
    testAQueueWrapped.isFull = false ∧
    testAQueueWrapped.dequeue.state.frontIndex = 0 ∧
    (testAQueueWrapped.enqueue 5).state.backIndex = 1 :=
  ⟨testAQueueWrapped_reachable, by decide, by decide,
    by
      rw [((C32_array_step_frame testAQueueWrapped testAQueueWrapped_reachable).1
        (by decide)).2.1]
      decide,
    by
      rw [((C32_array_step_frame testAQueueWrapped testAQueueWrapped_reachable).2
        (by decide) 5).2.1]
      decide⟩

/-- C35: `PriorityQueues::enqueue` depends on the job only through its
priority.  For every queue state and every two jobs with the same priority,
whatever their ids, service times, start and end times, the two calls have
identical outcomes: the same resulting state (store, front and back pointers,
count) and the same exit. -/
theorem C35_enqueue_priority_only (q : PriorityQueues) (j1 j2 : Job)
    (h : j1.priority = j2.priority) :
    PriorityQueues.enqueue q j1 = PriorityQueues.enqueue q j2 := by
  simp only [PriorityQueues.enqueue, Job.getPriority, h]

/-- Witness for C35: two jobs of priority 5 that differ in every other
field, enqueued into the test queue holding 10, 5. -/
theorem C35_enqueue_priority_only_witness :
    (Job.mk 3 5 0 0 0).priority = (Job.mk 41 5 17 8 30).priority ∧
    (Job.mk 3 5 0 0 0) ≠ Job.mk 41 5 17 8 30 ∧
    PriorityQueues.enqueue testQueue2 (Job.mk 3 5 0 0 0)
      = PriorityQueues.enqueue testQueue2 (Job.mk 41 5 17 8 30) :=
  ⟨rfl, by decide, C35_enqueue_priority_only testQueue2 _ _ rfl⟩

/-- C37: the comparison operators of `Job` are mutually coherent.  For all
jobs `a`, `b`, `c`: exactly one of `a < b`, `a == b`, `a > b` holds;
`a <= b` holds iff `a < b` or `a == b`, and iff `a > b` does not hold;
`a > b` iff `b < a`; `==` is reflexive, symmetric and transitive; `<` is
irreflexive and transitive. -/
theorem C37_job_comparison_coherence (a b c : Job) :
    ((a.operatorLt b = true ∧ a.operatorEq b = false ∧ a.operatorGt b = false) ∨
      (a.operatorLt b = false ∧ a.operatorEq b = true ∧ a.operatorGt b = false) ∨
      (a.operatorLt b = false ∧ a.operatorEq b = false ∧ a.operatorGt b = true)) ∧
    (a.operatorLe b = true ↔ (a.operatorLt b = true ∨ a.operatorEq b = true)) ∧
    (a.operatorLe b = true ↔ a.operatorGt b = false) ∧
    (a.operatorGt b = true ↔ b.operatorLt a = true) ∧
    a.operatorEq a = true ∧
    (a.operatorEq b = true → b.operatorEq a = true) ∧
    (a.operatorEq b = true → b.operatorEq c = true → a.operatorEq c = true) ∧
    a.operatorLt a = false ∧
    (a.operatorLt b = true → b.operatorLt c = true → a.operatorLt c = true) := by
  simp only [Job.operatorLt, Job.operatorEq, Job.operatorGt, Job.operatorLe, decide_eq_true_eq,
    decide_eq_false_iff_not]
  refine ⟨?_, ?_, ?_, ?_, ?_, ?_, ?_, ?_, ?_⟩
  · rcases lt_trichotomy a.priority b.priority with h | h | h
    · exact Or.inl ⟨h, by omega, by omega⟩
    · exact Or.inr (Or.inl ⟨by omega, h, by omega⟩)
    · exact Or.inr (Or.inr ⟨by omega, by omega, h⟩)
  · exact le_iff_lt_or_eq
  · constructor <;> intro h <;> omega
  · trivial
  · trivial
  · intro h
    exact h.symm
  · intro h1 h2
    exact h1.trans h2
  · omega
  · intro h1 h2
    exact lt_trans h1 h2

/-- Counterexample to C38 as stated.  Starting from the counter value 1,
`2^31 - 2` constructions return and leave the counter at `INT_MAX`, not
beyond; one construction more overflows the increment of the `int` counter:
the run is undefined behaviour, and no id of at least 1 and no counter value
of 1 plus the number of jobs comes out of it. -/
theorem C38_counter_overflow_counterexample :
    (∃ jobs, Job.newSeq Job.nextListIdInit (List.replicate 2147483646 (1, 1, 1))
      = .ok (jobs, INT_MAX)) ∧
    Job.newSeq Job.nextListIdInit (List.replicate 2147483647 (1, 1, 1))
      = .error .UndefinedBehaviour := by
  have hlen1 : (((List.replicate 2147483646 ((1, 1, 1) : Int × Int × Int)).length : Nat) : Int)
      = 2147483646 := by
    rw [List.length_replicate]
    rfl
  have hlen2 : (((List.replicate 2147483647 ((1, 1, 1) : Int × Int × Int)).length : Nat) : Int)
      = 2147483647 := by
    rw [List.length_replicate]
    rfl
  constructor
  · obtain ⟨jobs, h, _⟩ := Job.newSeq_spec (List.replicate 2147483646 (1, 1, 1))
      Job.nextListIdInit (by decide) (by rw [hlen1]; decide)
    rw [hlen1] at h
    exact ⟨jobs, h⟩
  · exact Job.newSeq_overflow _ _ (by decide) (by decide) (by rw [hlen2]; decide)

/-- C38 as amended: a live job is never taken for a default job by its id.
For every sequence of at most `INT_MAX - 1` constructions
`Job(priority, serviceTime, startTime)` starting from the initial counter
value 1: every construction returns, every job made has an id of at least 1,
which differs from the id 0 of a default-constructed job, and the shared
counter is left at 1 plus the number of jobs made. -/
theorem C38_live_ids_positive (args : List (Int × Int × Int))
    (hlen : 1 + (args.length : Int) ≤ INT_MAX) :
    Job.newDefault.getId = 0 ∧
    ∃ jobs, Job.newSeq Job.nextListIdInit args = .ok (jobs, 1 + jobs.length) ∧
      jobs.length = args.length ∧
      ∀ job ∈ jobs, 1 ≤ job.getId ∧ job.getId ≠ Job.newDefault.getId := by
  obtain ⟨jobs, h1, h2, h3⟩ := Job.newSeq_spec args Job.nextListIdInit (by decide)
    (by rw [Job.nextListIdInit]; exact hlen)
  refine ⟨rfl, jobs, by rw [h1, h2, Job.nextListIdInit], h2, ?_⟩
  intro job hjob
  obtain ⟨k, hk, rfl⟩ := List.getElem_of_mem hjob
  have hid : (jobs[k]).id = 1 + (k : Int) := by
    rw [(h3 k hk).1, Job.nextListIdInit]
  show 1 ≤ (jobs[k]).id ∧ (jobs[k]).id ≠ 0
  rw [hid]
  omega

/-- Witness for C38 as amended: the constructions `Job(5, 0, 0)` and
`Job(10, 0, 0)` give the ids 1 and 2 and leave the counter at 3. -/
theorem C38_live_ids_positive_witness :
    1 + (([(5, 0, 0), (10, 0, 0)] : List (Int × Int × Int)).length : Int) ≤ INT_MAX ∧
    Job.newSeq Job.nextListIdInit [(5, 0, 0), (10, 0, 0)]
      = .ok ([Job.mk 1 5 0 0 0, Job.mk 2 10 0 0 0], 3) ∧
    Job.newDefault.getId = 0 ∧
    ∃ jobs, Job.newSeq Job.nextListIdInit [(5, 0, 0), (10, 0, 0)] = .ok (jobs, 1 + jobs.length) ∧
      jobs.length = ([(5, 0, 0), (10, 0, 0)] : List (Int × Int × Int)).length ∧
      ∀ job ∈ jobs, 1 ≤ job.getId ∧ job.getId ≠ Job.newDefault.getId :=
  ⟨by decide, by decide, C38_live_ids_positive [(5, 0, 0), (10, 0, 0)] (by decide)⟩

/-- C39: `JobSchedulerSimulator::randomRange` returns a value of the closed
range from `minValue` to `maxValue`.  For all `int` values
`minValue <= maxValue` with `maxValue - minValue + 1` representable and every
non-negative result `r` of `rand()`, the call returns
`(r mod (maxValue - minValue + 1)) + minValue`, which is at least `minValue`
and at most `maxValue`; so do `generateRandomPriority` and
`generateRandomServiceTime` for simulation parameters with these bounds.
Both end points are attained: `r = 0` gives `minValue` and
`r = maxValue - minValue` gives `maxValue`, a value `rand()` can return as
soon as its largest result is at least `maxValue - minValue`. -/
theorem C39_randomRange_bounds (r minValue maxValue : Int)
    (hmin : INT_MIN ≤ minValue) (hmax : maxValue ≤ INT_MAX) (hle : minValue ≤ maxValue)
    (hrange : maxValue - minValue + 1 ≤ INT_MAX) (hr : 0 ≤ r) :
    (∃ v, JobSchedulerSimulator.randomRange r minValue maxValue = .ok v ∧
      v = r % (maxValue - minValue + 1) + minValue ∧ minValue ≤ v ∧ v ≤ maxValue) ∧
    (∀ sim : JobSchedulerSimulator,
      (sim.minPriority = minValue → sim.maxPriority = maxValue →
        ∃ v, sim.generateRandomPriority r = .ok v ∧ minValue ≤ v ∧ v ≤ maxValue) ∧
      (sim.minServiceTime = minValue → sim.maxServiceTime = maxValue →
        ∃ v, sim.generateRandomServiceTime r = .ok v ∧ minValue ≤ v ∧ v ≤ maxValue)) ∧
    JobSchedulerSimulator.randomRange 0 minValue maxValue = .ok minValue ∧
    JobSchedulerSimulator.randomRange (maxValue - minValue) minValue maxValue = .ok maxValue ∧
    (∀ randMax : Int, maxValue - minValue ≤ randMax →
      ∃ r', 0 ≤ r' ∧ r' ≤ randMax ∧
        JobSchedulerSimulator.randomRange r' minValue maxValue = .ok maxValue) := by
  obtain ⟨h1, h2, h3⟩ := JobSchedulerSimulator.randomRange_ok hmin hmax hle hrange hr
  have hlo := (JobSchedulerSimulator.randomRange_ok hmin hmax hle hrange (le_refl 0)).1
  have hhi := (JobSchedulerSimulator.randomRange_ok hmin hmax hle hrange
    (show 0 ≤ maxValue - minValue by omega)).1
  rw [Int.zero_emod, zero_add] at hlo
  rw [Int.emod_eq_of_lt (by omega) (by omega), sub_add_cancel] at hhi
  refine ⟨⟨_, h1, rfl, h2, h3⟩, ?_, hlo, hhi, ?_⟩
  · intro sim
    constructor
    · intro e1 e2
      exact ⟨_, by rw [JobSchedulerSimulator.generateRandomPriority, e1, e2]; exact h1, h2, h3⟩
    · intro e1 e2
      exact ⟨_, by rw [JobSchedulerSimulator.generateRandomServiceTime, e1, e2]; exact h1, h2, h3⟩
  · intro randMax hm
    exact ⟨maxValue - minValue, by omega, hm, hhi⟩

/-- Witness for C39: priorities from 1 to 10 and the `rand()` result 1804289383. -/
theorem C39_randomRange_bounds_witness :
    INT_MIN ≤ 1 ∧ (10 : Int) ≤ INT_MAX ∧ (1 : Int) ≤ 10 ∧ (10 : Int) - 1 + 1 ≤ INT_MAX ∧
    (0 : Int) ≤ 1804289383 ∧
    JobSchedulerSimulator.randomRange 1804289383 1 10 = .ok 4 ∧
    JobSchedulerSimulator.randomRange 0 1 10 = .ok 1 ∧
    JobSchedulerSimulator.randomRange (10 - 1) 1 10 = .ok 10 :=
  ⟨by decide, by decide, by decide, by decide, by decide, by decide,
    (C39_randomRange_bounds 1804289383 1 10 (by decide) (by decide) (by decide) (by decide)
      (by decide)).2.2.1,
    (C39_randomRange_bounds 1804289383 1 10 (by decide) (by decide) (by decide) (by decide)
      (by decide)).2.2.2.1⟩

/-- C40: in `runSimulation`, with `a = rand() % 1000` the reported number of
jobs started, the reported number of jobs completed `rand() % a` is defined
exactly when `a != 0`.  For all non-negative results `r1`, `r2` of the two
calls of `rand()`: `a` is `r1 mod 1000`, between 0 and 999, and is 0 exactly
when `r1` is a multiple of 1000; the second expression has a value exactly
when `a != 0`, is undefined behaviour (a division by zero) when `a == 0`, and
every value it has is non-negative and strictly less than `a`. -/
theorem C40_jobs_completed_modulus (r1 r2 : Int) (h1 : 0 ≤ r1) (h2 : 0 ≤ r2) :
    ∃ a, runSimulationStarted r1 = .ok a ∧ a = r1 % 1000 ∧ 0 ≤ a ∧ a < 1000 ∧
      (a = 0 ↔ (1000 : Int) ∣ r1) ∧
      ((∃ v, runSimulationCompleted r1 r2 = .ok v) ↔ a ≠ 0) ∧
      (a = 0 → runSimulationCompleted r1 r2 = .error .UndefinedBehaviour) ∧
      (∀ v, runSimulationCompleted r1 r2 = .ok v → v = r2 % a ∧ 0 ≤ v ∧ v < a) := by
  have hstart : runSimulationStarted r1 = .ok (r1 % 1000) :=
    cMod_of_nonneg h1 (by decide)
  have ha0 : 0 ≤ r1 % 1000 := Int.emod_nonneg _ (by decide)
  have ha1 : r1 % 1000 < 1000 := Int.emod_lt_of_pos _ (by decide)
  have hcompleted : runSimulationCompleted r1 r2 = cMod r2 (r1 % 1000) := by
    simp only [runSimulationCompleted, hstart, bind, Except.bind]
  refine ⟨r1 % 1000, hstart, rfl, ha0, ha1, ?_, ?_, ?_, ?_⟩
  · exact Int.dvd_iff_emod_eq_zero.symm
  · rw [hcompleted]
    by_cases hz : r1 % 1000 = 0
    · simp [hz, cMod]
    · rw [cMod_of_nonneg h2 (by omega)]
      simp [hz]
  · intro hz
    rw [hcompleted, hz]
    rfl
  · intro v hv
    rw [hcompleted] at hv
    by_cases hz : r1 % 1000 = 0
    · simp [hz, cMod] at hv
    · have hpos : 0 < r1 % 1000 := by omega
      rw [cMod_of_nonneg h2 hpos] at hv
      have hv' : r2 % (r1 % 1000) = v := Except.ok.inj hv
      rw [← hv']
      exact ⟨rfl, Int.emod_nonneg _ hz, Int.emod_lt_of_pos _ hpos⟩

/-- Witness for C40: the `rand()` results 1804289383 and 846930886 give 383
jobs started and 305 completed; a first result of 2000 gives `a == 0` and an
undefined second expression. -/
theorem C40_jobs_completed_modulus_witness :
    (0 : Int) ≤ 1804289383 ∧ (0 : Int) ≤ 846930886 ∧
    runSimulationStarted 1804289383 = .ok 383 ∧
    runSimulationCompleted 1804289383 846930886 = .ok 305 ∧
    runSimulationCompleted 2000 846930886 = .error .UndefinedBehaviour ∧
    ∃ a, runSimulationStarted 1804289383 = .ok a ∧ a = 1804289383 % 1000 ∧ 0 ≤ a ∧ a < 1000 ∧
      (a = 0 ↔ (1000 : Int) ∣ 1804289383) ∧
      ((∃ v, runSimulationCompleted 1804289383 846930886 = .ok v) ↔ a ≠ 0) ∧
      (a = 0 → runSimulationCompleted 1804289383 846930886 = .error .UndefinedBehaviour) ∧
      (∀ v, runSimulationCompleted 1804289383 846930886 = .ok v →
        v = 846930886 % a ∧ 0 ≤ v ∧ v < a) :=
  ⟨by decide, by decide, by decide, by decide, by decide,
    C40_jobs_completed_modulus 1804289383 846930886 (by decide) (by decide)⟩

end JobSim
